import Mathlib

/-!
# cson.h: a shallow embedding of the tokenizer, the value model and the parser

* Bytes are natural numbers (`'['` is 91).  A C string is the list of its bytes up to,
  and not including, the NUL that ends its buffer; a pointer into the buffer is the list
  of the bytes from that pointer up to the same NUL.  Reading past the NUL, leaving
  through `exit` and failing an `assert` are results of their own (`Fault`).
* Allocation of a positive number of bytes is taken to succeed, and the heap is not part
  of the state: where the C code frees a half-built container and returns `CSON_ERROR`,
  the embedding returns `CSON_ERROR`.  A request for 0 bytes is answered as glibc does:
  `malloc(0)` hands out an empty block, `realloc(p, 0)` frees `p` and returns NULL.
* The `double` of a number is kept as the text that is handed to `sscanf`; the conversion
  done by libc is not interpreted.
* The parse functions call each other recursively; the embedding recurses on a budget.
  `fuel_enough` shows that the budget `CSON_parse` starts with is never used up, and
  `fuel_add` that a result does not depend on the budget.
-/

namespace Cson

/-- Ways in which a run leaves the C semantics the functions are written for. -/
inductive Fault where
  /-- a byte outside the NUL-terminated buffer is addressed (undefined behaviour) -/
  | outOfBounds
  /-- the process ends through `exit(EXIT_FAILURE)` / `exit(1)` -/
  | exitFailure
  /-- an `assert` fails and the process aborts -/
  | assertion
  /-- the recursion budget of the embedding is used up (not a behaviour of the C code) -/
  | fuel
  deriving DecidableEq, Repr

/-- The bytes of an ASCII literal, as a C string. -/
def cstr (s : String) : List Nat := s.toList.map Char.toNat

/-- The expression `str[i]`: bytes `0 .. length-1` are the text, byte `length` is the
terminating NUL, anything further is outside the buffer. -/
def readAt (str : List Nat) (i : Nat) : Except Fault Nat :=
  if i < str.length then .ok (str.getD i 0)
  else if i = str.length then .ok 0
  else .error .outOfBounds

/-- The libc function `strlen`: the number of bytes before the first NUL. -/
def strlen (cstr : List Nat) : Nat := (cstr.takeWhile (fun c => c ≠ 0)).length

/-! ## CVEC -/

/-- The struct `CVec`.  `data` lists the slots that have been written, slot 0 first;
sizes are natural numbers, and `element_size` is the size of an element type, which is
positive. -/
structure CVec (α : Type) where
  element_count : Nat
  element_size : Nat
  data : List α
  element_capacity : Nat
  deriving DecidableEq, Repr

def CVec_init {α : Type} (element_size element_capacity : Nat) : CVec α :=
  { element_count := 0, element_size := element_size, data := [],
    element_capacity := element_capacity }

/-- The function `CVec_grow`.  `realloc` is asked for `element_size * new_capacity`
bytes.  With the new capacity 0 (the double of the capacity 0) these are 0 bytes: the
block is freed, `new_data` is NULL and the function leaves through `exit(1)`.  Any other
request is taken to succeed. -/
def CVec_grow {α : Type} (vec : CVec α) : Except Fault (CVec α) :=
  let new_capacity := vec.element_capacity * 2
  if new_capacity = 0 then .error .exitFailure
  else .ok { vec with element_capacity := new_capacity }

/-- The `memcpy` of `CVec_push_back`: slot `index` receives `element`. -/
def CVec_store {α : Type} (data : List α) (index : Nat) (element : α) : List α :=
  if index < data.length then data.set index element else data ++ [element]

/-- The function `CVec_push_back`.  The `memcpy` writes slot `element_count` of a block
of `element_capacity` slots: a slot at or above the capacity is outside the block.  That
needs a count above the capacity, which no call of this API produces. -/
def CVec_push_back {α : Type} (vec : CVec α) (element : α) : Except Fault (CVec α) :=
  match (if vec.element_count = vec.element_capacity then CVec_grow vec else .ok vec) with
  | .error f => .error f
  | .ok vec =>
    if vec.element_count < vec.element_capacity then
      .ok { vec with data := CVec_store vec.data vec.element_count element,
                     element_count := vec.element_count + 1 }
    else .error .outOfBounds

/-- The function `CVec_get`: `none` is the return value `false` (nothing is copied to the
caller), `some x` is `true` with `x` copied to the caller. -/
def CVec_get {α : Type} (vec : CVec α) (index : Nat) : Option α :=
  if index ≥ vec.element_count then none
  else vec.data[index]?

/-- The function `CVec_pop_back`: the returned option is as for `CVec_get`. -/
def CVec_pop_back {α : Type} (vec : CVec α) : Option α × CVec α :=
  if vec.element_count = 0 then (none, vec)
  else
    let last_index := vec.element_count - 1
    match CVec_get vec last_index with
    | none => (none, vec)
    | some element => (some element, { vec with element_count := vec.element_count - 1 })

/-! ## String views -/

/-- The struct `CSON_SV`: `str` is the pointer (the bytes from it to the end of its
buffer), `len` the length of the view. -/
structure CSON_SV where
  str : List Nat
  len : Nat
  deriving DecidableEq, Repr

/-- The function `CSON_SV_new`: a copy of the `strlen` bytes of `cstr`. -/
def CSON_SV_new (cstr : List Nat) : CSON_SV :=
  let len := strlen cstr
  { str := cstr.take len, len := len }

def CSON_SV_init (cstr : List Nat) : CSON_SV :=
  { str := cstr, len := strlen cstr }

/-- The function `CSON_SV_eq`: equal lengths, then `memcmp` over `A.len` bytes. -/
def CSON_SV_eq (A B : CSON_SV) : Bool :=
  if A.len ≠ B.len then false
  else decide (A.str.take A.len = B.str.take A.len)

/-! ## Tokenizer -/

inductive CSON_TokenType where
  | WS | COLON | COMMA | STRING | CURLY_OPEN | CURLY_CLOSE
  | SQUARE_OPEN | SQUARE_CLOSE | NUMBER | WORD | UNKNOWN | EOF
  deriving DecidableEq, Repr

structure CSON_Token where
  sv : CSON_SV
  type : CSON_TokenType
  deriving DecidableEq, Repr

structure CSON_Tokenizer where
  sv : CSON_SV
  deriving DecidableEq, Repr

def CSON_Tokenizer_new (cstr : List Nat) : CSON_Tokenizer :=
  { sv := CSON_SV_init cstr }

/-- The function `CSON_Tokenizer_identify_token_type`; the last test is the source's
`(c >= 'A' && c <= 'Z') || (c >= 'a' || c <= 'z')`. -/
def CSON_Tokenizer_identify_token_type (c : Nat) : CSON_TokenType :=
  if c = 32 ∨ c = 9 ∨ c = 10 ∨ c = 13 then .WS          -- ' ' '\t' '\n' '\r'
  else if c = 123 then .CURLY_OPEN                       -- '{'
  else if c = 125 then .CURLY_CLOSE                      -- '}'
  else if c = 91 then .SQUARE_OPEN                       -- '['
  else if c = 93 then .SQUARE_CLOSE                      -- ']'
  else if c = 44 then .COMMA                             -- ','
  else if c = 58 then .COLON                             -- ':'
  else if c = 34 then .STRING                            -- '"'
  else if c = 0 then .EOF                                -- '\0'
  else if (48 ≤ c ∧ c ≤ 57) ∨ c = 45 then .NUMBER        -- '0'..'9', '-'
  else if (65 ≤ c ∧ c ≤ 90) ∨ (97 ≤ c ∨ c ≤ 122) then .WORD
  else .UNKNOWN

/-- The whitespace loop of `CSON_Tokenizer_peek`: the argument lists the bytes from
`str[i]` on; the terminator (the empty list) is not whitespace. -/
def scanWS : List Nat → Nat → Nat
  | [], i => i
  | c :: cs, i =>
    if CSON_Tokenizer_identify_token_type c = .WS then scanWS cs (i + 1) else i

/-- The string loop of `CSON_Tokenizer_peek`: the argument lists the bytes from `str[i]`
on; `none` when the NUL is met before a quote. -/
def scanString : List Nat → Nat → Option Nat
  | [], _ => none
  | c :: cs, i =>
    if c = 34 then some i
    else if c = 0 then none
    else scanString cs (i + 1)

/-- The number loop of `CSON_Tokenizer_peek`. -/
def scanNumber : List Nat → Nat → Nat
  | [], i => i
  | c :: cs, i =>
    if ((48 ≤ c ∧ c ≤ 57) ∨ c = 46) ∧ c ≠ 0 then scanNumber cs (i + 1) else i

/-- The word loop of `CSON_Tokenizer_peek`. -/
def scanWord : List Nat → Nat → Nat
  | [], i => i
  | c :: cs, i =>
    if CSON_Tokenizer_identify_token_type c = .WORD then scanWord cs (i + 1) else i

/-- The function `CSON_Tokenizer_peek`. -/
def CSON_Tokenizer_peek (tokenizer : CSON_Tokenizer) : Except Fault CSON_Token :=
  let str := tokenizer.sv.str
  match readAt str 0 with
  | .error f => .error f
  | .ok c0 =>
    match CSON_Tokenizer_identify_token_type c0 with
    | .EOF => .ok { sv := { str := str, len := 0 }, type := .EOF }
    | .CURLY_OPEN => .ok { sv := { str := str, len := 1 }, type := .CURLY_OPEN }
    | .CURLY_CLOSE => .ok { sv := { str := str, len := 1 }, type := .CURLY_CLOSE }
    | .SQUARE_OPEN => .ok { sv := { str := str, len := 1 }, type := .SQUARE_OPEN }
    | .SQUARE_CLOSE => .ok { sv := { str := str, len := 1 }, type := .SQUARE_CLOSE }
    | .COMMA => .ok { sv := { str := str, len := 1 }, type := .COMMA }
    | .COLON => .ok { sv := { str := str, len := 1 }, type := .COLON }
    | .WS => .ok { sv := { str := str, len := scanWS (str.drop 1) 1 }, type := .WS }
    | .STRING =>
      -- token.sv.str++ ; the scan then starts at index 1 of the moved pointer
      let str1 := str.drop 1
      match readAt str1 1 with
      | .error f => .error f
      | .ok _ =>
        match scanString (str1.drop 1) 1 with
        | none => .ok { sv := { str := str1, len := 0 }, type := .EOF }
        | some i => .ok { sv := { str := str1, len := i }, type := .STRING }
    | .NUMBER => .ok { sv := { str := str, len := scanNumber (str.drop 1) 1 }, type := .NUMBER }
    | .WORD => .ok { sv := { str := str, len := scanWord (str.drop 1) 1 }, type := .WORD }
    | .UNKNOWN => .error .exitFailure

/-- Pointer arithmetic `str += n` on the cursor. -/
def advance (str : List Nat) (n : Nat) : Except Fault (List Nat) :=
  if n ≤ str.length then .ok (str.drop n) else .error .outOfBounds

/-- How far `CSON_Tokenizer_consume` moves the cursor for a token: its length, and the
two quote characters of a string token. -/
def tokenAdvance (token : CSON_Token) : Nat :=
  if token.type = .STRING then token.sv.len + 2 else token.sv.len

/-- The function `CSON_Tokenizer_consume`: the token and the tokenizer after the call. -/
def CSON_Tokenizer_consume (tokenizer : CSON_Tokenizer) :
    Except Fault (CSON_Token × CSON_Tokenizer) :=
  match CSON_Tokenizer_peek tokenizer with
  | .error f => .error f
  | .ok token =>
    match advance tokenizer.sv.str (tokenAdvance token) with
    | .error f => .error f
    | .ok str => .ok (token, { tokenizer with sv := { tokenizer.sv with str := str } })

/-! ## Values -/

inductive CSON_Type where
  | ARRAY | OBJECT | STRING | NUMBER | TRUE | FALSE | NULL
  deriving DecidableEq, Repr

/-- The `double` of a `CSON_Number`, kept as the text it is converted from: the value is
what libc's `sscanf(src, "%lf", &d)` stores in `d` (left as it was when nothing converts). -/
structure CSON_Double where
  src : List Nat
  deriving DecidableEq, Repr

/-- The struct `CSON_String` (its tag is always `CSON_STRING`). -/
structure CSON_String where
  sv : CSON_SV
  deriving DecidableEq, Repr

/-- The tagged structs `CSON_Literal`, `CSON_Number`, `CSON_String`, `CSON_Array` and
`CSON_Object` behind a `CSON *`. -/
inductive CSON where
  | Literal (type : CSON_Type)
  | Number (value : CSON_Double)
  | String (string : CSON_String)
  | Array (data : CVec CSON)
  | Object (keys : CVec CSON_String) (data : CVec CSON)

/-- The field `cson->type`. -/
def CSON.type : CSON → CSON_Type
  | .Literal t => t
  | .Number _ => .NUMBER
  | .String _ => .STRING
  | .Array _ => .ARRAY
  | .Object _ _ => .OBJECT

/-- The constant `CSON_DEFAULT_MEMBLOCK_SIZE`. -/
def CSON_DEFAULT_MEMBLOCK_SIZE : Nat := 16

/-- The size of a pointer, `sizeof(CSON *)`. -/
def sizeof_ptr : Nat := 8

/-! ### checkers -/

def CSON_is_string (cson : CSON) : Bool := cson.type = .STRING
def CSON_is_number (cson : CSON) : Bool := cson.type = .NUMBER
def CSON_is_bool (cson : CSON) : Bool := cson.type = .TRUE || cson.type = .FALSE
def CSON_is_null (cson : CSON) : Bool := cson.type = .NULL
def CSON_is_array (cson : CSON) : Bool := cson.type = .ARRAY
def CSON_is_object (cson : CSON) : Bool := cson.type = .OBJECT
def CSON_is_container (cson : CSON) : Bool := CSON_is_array cson || CSON_is_object cson

/-! ### constructors -/

def CSON_Literal_new (type : CSON_Type) : CSON := .Literal type

def CSON_Number_new (value : CSON_Double) : CSON := .Number value

/-- The function `CSON_String_from_sv`: `sv.len` bytes are copied and capped with a NUL. -/
def CSON_String_from_sv (sv : CSON_SV) : CSON_String :=
  { sv := { str := sv.str.take sv.len, len := sv.len } }

def CSON_Array_new : CVec CSON := CVec_init sizeof_ptr CSON_DEFAULT_MEMBLOCK_SIZE

/-- The function `CSON_Array_append`, on the `data` of the array. -/
def CSON_Array_append (array : CVec CSON) (value : CSON) : Except Fault (CVec CSON) :=
  CVec_push_back array value

/-- The function `CSON_Object_new`: the `keys` and the `data` of the new object. -/
def CSON_Object_new : CVec CSON_String × CVec CSON :=
  (CVec_init sizeof_ptr CSON_DEFAULT_MEMBLOCK_SIZE,
   CVec_init sizeof_ptr CSON_DEFAULT_MEMBLOCK_SIZE)

/-- The function `CSON_Object_insert`, on the `keys` and the `data` of the object. -/
def CSON_Object_insert (object : CVec CSON_String × CVec CSON) (key : CSON_String)
    (value : CSON) : Except Fault (CVec CSON_String × CVec CSON) :=
  match CVec_push_back object.1 key with
  | .error f => .error f
  | .ok keys =>
    match CVec_push_back object.2 value with
    | .error f => .error f
    | .ok data => .ok (keys, data)

/-! ### getters -/

/-- The function `CSON_get_string`: the pointer `sv.str` of a string value. -/
def CSON_get_string (cson : CSON) : Except Fault (List Nat) :=
  match cson with
  | .String string => .ok string.sv.str
  | _ => .error .assertion

def CSON_get_number (cson : CSON) : Except Fault CSON_Double :=
  match cson with
  | .Number value => .ok value
  | _ => .error .assertion

def CSON_get_bool (cson : CSON) : Except Fault Bool :=
  if CSON_is_bool cson then .ok (cson.type = .TRUE) else .error .assertion

/-- The function `CSON_get_by_index`: `none` is the NULL pointer. -/
def CSON_get_by_index (cson : CSON) (index : Nat) : Except Fault (Option CSON) :=
  match cson with
  | .Array data => .ok (CVec_get data index)
  | _ => .error .assertion

/-- The loop of `CSON_get_by_key` from index `i`; the first argument counts the keys from
`i` to `element_count`, so the loop test `i < element_count` fails when it is 0. -/
def CSON_get_by_key_loop (keys : CVec CSON_String) (data : CVec CSON) (given_key : CSON_SV) :
    Nat → Nat → Except Fault (Option CSON)
  | 0, _ => .ok none
  | n + 1, i =>
    match CVec_get keys i with
    | none => .error .outOfBounds   -- `current_key` was never written
    | some current_key =>
      if CSON_SV_eq given_key current_key.sv then .ok (CVec_get data i)
      else CSON_get_by_key_loop keys data given_key n (i + 1)

/-- The function `CSON_get_by_key`: `none` is the NULL pointer. -/
def CSON_get_by_key (cson : CSON) (key : List Nat) : Except Fault (Option CSON) :=
  match cson with
  | .Object keys data =>
    let given_key := CSON_SV_new key
    CSON_get_by_key_loop keys data given_key keys.element_count 0
  | _ => .error .assertion

/-! ## Parser -/

/-- The enum `CSON_Result`; `CSON_SUCCES` carries the value stored through the out
parameter `*element`, which `CSON_ERROR` leaves unwritten. -/
inductive CSON_Result where
  | CSON_SUCCES (element : CSON)
  | CSON_ERROR

/-- What a parse function hands back: its result and the tokenizer after the call. -/
abbrev Parsed := Except Fault (CSON_Result × CSON_Tokenizer)

mutual

/-- The function `CSON_parse_element`; the first argument bounds the recursion. -/
def CSON_parse_element : Nat → CSON_Tokenizer → Parsed
  | 0, _ => .error .fuel
  | fuel + 1, tokenizer =>
    match CSON_Tokenizer_consume tokenizer with
    | .error f => .error f
    | .ok (token, tokenizer) =>
      match token.type with
      | .CURLY_OPEN => CSON_parse_object fuel tokenizer
      | .SQUARE_OPEN => CSON_parse_array fuel tokenizer
      | .STRING => .ok (.CSON_SUCCES (.String (CSON_String_from_sv token.sv)), tokenizer)
      | .NUMBER => .ok (.CSON_SUCCES (CSON_Number_new { src := token.sv.str }), tokenizer)
      | .WORD =>
        let sv_true := CSON_SV_init (cstr "true")
        let sv_false := CSON_SV_init (cstr "false")
        let sv_null := CSON_SV_init (cstr "null")
        if CSON_SV_eq token.sv sv_true then
          .ok (.CSON_SUCCES (CSON_Literal_new .TRUE), tokenizer)
        else if CSON_SV_eq token.sv sv_false then
          .ok (.CSON_SUCCES (CSON_Literal_new .FALSE), tokenizer)
        else if CSON_SV_eq token.sv sv_null then
          .ok (.CSON_SUCCES (CSON_Literal_new .NULL), tokenizer)
        else .ok (.CSON_ERROR, tokenizer)
      | _ => .ok (.CSON_ERROR, tokenizer)

/-- The function `CSON_parse_array` up to its loop. -/
def CSON_parse_array : Nat → CSON_Tokenizer → Parsed
  | 0, _ => .error .fuel
  | fuel + 1, tokenizer =>
    let array := CSON_Array_new
    match CSON_Tokenizer_peek tokenizer with
    | .error f => .error f
    | .ok token =>
      if token.type = .SQUARE_CLOSE then
        match CSON_Tokenizer_consume tokenizer with
        | .error f => .error f
        | .ok (_, tokenizer) => CSON_parse_array_loop fuel array token tokenizer
      else CSON_parse_array_loop fuel array token tokenizer

/-- The `while` loop of `CSON_parse_array`, entered at its test with the array built so
far and the last token; `PARSE_ERROR` frees the array and returns `CSON_ERROR`. -/
def CSON_parse_array_loop : Nat → CVec CSON → CSON_Token → CSON_Tokenizer → Parsed
  | 0, _, _, _ => .error .fuel
  | fuel + 1, array, token, tokenizer =>
    if token.type = .SQUARE_CLOSE then .ok (.CSON_SUCCES (.Array array), tokenizer)
    else
      match CSON_parse_element fuel tokenizer with
      | .error f => .error f
      | .ok (.CSON_ERROR, tokenizer) => .ok (.CSON_ERROR, tokenizer)
      | .ok (.CSON_SUCCES value, tokenizer) =>
        match CSON_Array_append array value with
        | .error f => .error f
        | .ok array =>
          match CSON_Tokenizer_consume tokenizer with
          | .error f => .error f
          | .ok (token, tokenizer) =>
            match token.type with
            | .COMMA => CSON_parse_array_loop fuel array token tokenizer
            | .SQUARE_CLOSE => CSON_parse_array_loop fuel array token tokenizer
            | _ => .ok (.CSON_ERROR, tokenizer)

/-- The function `CSON_parse_object` up to its loop. -/
def CSON_parse_object : Nat → CSON_Tokenizer → Parsed
  | 0, _ => .error .fuel
  | fuel + 1, tokenizer =>
    let object := CSON_Object_new
    match CSON_Tokenizer_peek tokenizer with
    | .error f => .error f
    | .ok token =>
      if token.type = .CURLY_CLOSE then
        match CSON_Tokenizer_consume tokenizer with
        | .error f => .error f
        | .ok (_, tokenizer) => CSON_parse_object_loop fuel object token tokenizer
      else CSON_parse_object_loop fuel object token tokenizer

/-- The `while` loop of `CSON_parse_object`, entered at its test with the object built so
far and the last token; `PARSE_ERROR` frees the object and returns `CSON_ERROR`. -/
def CSON_parse_object_loop :
    Nat → CVec CSON_String × CVec CSON → CSON_Token → CSON_Tokenizer → Parsed
  | 0, _, _, _ => .error .fuel
  | fuel + 1, object, token, tokenizer =>
    if token.type = .CURLY_CLOSE then
      .ok (.CSON_SUCCES (.Object object.1 object.2), tokenizer)
    else
      -- parse key
      match CSON_parse_element fuel tokenizer with
      | .error f => .error f
      | .ok (.CSON_ERROR, tokenizer) => .ok (.CSON_ERROR, tokenizer)
      | .ok (.CSON_SUCCES (.String key), tokenizer) =>
        -- colon separator
        match CSON_Tokenizer_consume tokenizer with
        | .error f => .error f
        | .ok (token, tokenizer) =>
          if token.type ≠ .COLON then .ok (.CSON_ERROR, tokenizer)
          else
            -- parse value
            match CSON_parse_element fuel tokenizer with
            | .error f => .error f
            | .ok (.CSON_ERROR, tokenizer) => .ok (.CSON_ERROR, tokenizer)
            | .ok (.CSON_SUCCES value, tokenizer) =>
              match CSON_Object_insert object key value with
              | .error f => .error f
              | .ok object =>
                match CSON_Tokenizer_consume tokenizer with
                | .error f => .error f
                | .ok (token, tokenizer) =>
                  match token.type with
                  | .COMMA => CSON_parse_object_loop fuel object token tokenizer
                  | .CURLY_CLOSE => CSON_parse_object_loop fuel object token tokenizer
                  | _ => .ok (.CSON_ERROR, tokenizer)
      | .ok (.CSON_SUCCES _, tokenizer) => .ok (.CSON_ERROR, tokenizer)

end

/-- A recursion budget that no run on `cstr` uses up: three units per byte, and one. -/
def enoughFuel (cstr : List Nat) : Nat := 3 * cstr.length + 1

/-- The function `CSON_parse`. -/
def CSON_parse (cstr : List Nat) : Except Fault CSON_Result :=
  let tokenizer := CSON_Tokenizer_new cstr
  match CSON_parse_element (enoughFuel cstr) tokenizer with
  | .error f => .error f
  | .ok (res, _) => .ok res


/-! ## Runs -/

/-- A result that is not an exhausted recursion budget. -/
def Settled (r : Parsed) : Prop := r ≠ .error .fuel

/-- The call `CSON_parse_element(&element, tokenizer)` returns `r`: it does so with some
recursion budget, and then with every larger one (`element_mono`, `element_enough`). -/
def ElementReturns (tk : CSON_Tokenizer) (r : CSON_Result × CSON_Tokenizer) : Prop :=
  ∃ fuel, CSON_parse_element fuel tk = .ok r

/-- The call of `CSON_parse_array` returns `r`. -/
def ArrayReturns (tk : CSON_Tokenizer) (r : CSON_Result × CSON_Tokenizer) : Prop :=
  ∃ fuel, CSON_parse_array fuel tk = .ok r

/-- The loop of `CSON_parse_array`, entered with `array` and `token`, returns `r`. -/
def ArrayLoopReturns (array : CVec CSON) (token : CSON_Token) (tk : CSON_Tokenizer)
    (r : CSON_Result × CSON_Tokenizer) : Prop :=
  ∃ fuel, CSON_parse_array_loop fuel array token tk = .ok r

/-- The call of `CSON_parse_object` returns `r`. -/
def ObjectReturns (tk : CSON_Tokenizer) (r : CSON_Result × CSON_Tokenizer) : Prop :=
  ∃ fuel, CSON_parse_object fuel tk = .ok r

/-- The loop of `CSON_parse_object`, entered with `object` and `token`, returns `r`. -/
def ObjectLoopReturns (object : CVec CSON_String × CVec CSON) (token : CSON_Token)
    (tk : CSON_Tokenizer) (r : CSON_Result × CSON_Tokenizer) : Prop :=
  ∃ fuel, CSON_parse_object_loop fuel object token tk = .ok r

/-! ## Containers built through the API -/

/-- The buffer holds exactly the elements `xs`, in this order, below a positive capacity. -/
def CVec.Holds {α : Type} (vec : CVec α) (xs : List α) : Prop :=
  0 < vec.element_capacity ∧ vec.element_count ≤ vec.element_capacity ∧
  vec.element_count = xs.length ∧ vec.data = xs

/-- The bytes a string view covers. -/
def CSON_SV.bytes (sv : CSON_SV) : List Nat := sv.str.take sv.len

/-- The calls `CSON_Array_append(array, v)` for the values of the list, in order. -/
def appendAll : List CSON → CVec CSON → Except Fault (CVec CSON)
  | [], array => .ok array
  | v :: vs, array =>
    match CSON_Array_append array v with
    | .error f => .error f
    | .ok array => appendAll vs array

/-- The calls `CSON_Object_insert(object, k, v)` for the pairs of the list, in order. -/
def insertAll : List (CSON_String × CSON) → CVec CSON_String × CVec CSON →
    Except Fault (CVec CSON_String × CVec CSON)
  | [], object => .ok object
  | (k, v) :: kvs, object =>
    match CSON_Object_insert object k v with
    | .error f => .error f
    | .ok object => insertAll kvs object

/-- The key of an object entry equals the C string `key` byte-wise: same length, same
bytes. -/
def keyIs (key : List Nat) (k : CSON_String) : Bool :=
  decide (k.sv.len = key.length ∧ k.sv.bytes = key)

/-! ## Texts -/

/-- The text of the leading token of `text` when that token is a word token. -/
def leadingWord (text : List Nat) : Option (List Nat) :=
  match CSON_Tokenizer_peek (CSON_Tokenizer_new text) with
  | .ok token => if token.type = .WORD then some token.sv.bytes else none
  | .error _ => none

/-- The element text `e`, followed by `rest`, is parsed by `CSON_parse_element` to the
value `v`, and the cursor is left at `rest`. -/
def ParsesTo (e rest : List Nat) (v : CSON) : Prop :=
  ∀ len, ElementReturns ⟨⟨e ++ rest, len⟩⟩ (.CSON_SUCCES v, ⟨⟨rest, len⟩⟩)

/-- The texts `e_1 , e_2 , ... , e_n` of the items, joined by commas and followed by
`close`; an item pairs an element text with the value it stands for. -/
def itemsText : List (List Nat × CSON) → List Nat → List Nat
  | [], close => close
  | [(e, _)], close => e ++ close
  | (e, _) :: it :: its, close => e ++ 44 :: itemsText (it :: its) close

/-- Every item text is parsed to its value where it stands in `itemsText items close`:
followed by a comma and the later items, or, for the last item, by `close`. -/
def ItemsParse : List (List Nat × CSON) → List Nat → Prop
  | [], _ => True
  | [(e, v)], close => ParsesTo e close v
  | (e, v) :: it :: its, close =>
    ParsesTo e (44 :: itemsText (it :: its) close) v ∧ ItemsParse (it :: its) close

/-- The rest of an iteration of the loop of `CSON_parse_array`, after the element has
been appended: the next token is consumed, a comma or `]` leads back to the loop test,
any other token to `PARSE_ERROR`. -/
def ArraySepReturns (array : CVec CSON) (tk : CSON_Tokenizer)
    (r : CSON_Result × CSON_Tokenizer) : Prop :=
  ∃ t2 tk2, CSON_Tokenizer_consume tk = .ok (t2, tk2) ∧
    (((t2.type = .COMMA ∨ t2.type = .SQUARE_CLOSE) ∧ ArrayLoopReturns array t2 tk2 r) ∨
     (t2.type ≠ .COMMA ∧ t2.type ≠ .SQUARE_CLOSE ∧ r = (.CSON_ERROR, tk2)))

/-- The items of the array text `["true",true,false,null,32,[],{}]` with the values they
stand for: a string, the three literals, a number, an empty array, an empty object. -/
def sevenItems : List (List Nat × CSON) :=
  [ (cstr "\"true\"", .String ⟨⟨cstr "true", 4⟩⟩),
    (cstr "true", .Literal .TRUE),
    (cstr "false", .Literal .FALSE),
    (cstr "null", .Literal .NULL),
    (cstr "32", .Number ⟨cstr "32,[],\x7b\x7d]"⟩),
    (cstr "[]", .Array CSON_Array_new),
    (cstr "\x7b\x7d", .Object CSON_Object_new.1 CSON_Object_new.2) ]

/-- A key text that is written between quotes as it is: not empty, without quote, without
NUL. -/
def KeyOk (k : List Nat) : Prop := k ≠ [] ∧ 34 ∉ k ∧ 0 ∉ k

/-- The owned string `CSON_String_from_sv` makes of the key bytes `k`. -/
def keyString (k : List Nat) : CSON_String := ⟨⟨k, k.length⟩⟩

/-- The texts `"k_1":e_1 , ... , "k_n":e_n` of the members, joined by commas and followed
by `close`; a member is a key, the text of its value and the value the text stands for. -/
def membersText : List (List Nat × List Nat × CSON) → List Nat → List Nat
  | [], close => close
  | [(k, e, _)], close => 34 :: (k ++ 34 :: 58 :: (e ++ close))
  | (k, e, _) :: m :: ms, close =>
    34 :: (k ++ 34 :: 58 :: (e ++ 44 :: membersText (m :: ms) close))

/-- Every key is well formed and every value text is parsed to its value where it stands
in `membersText members close`. -/
def MembersParse : List (List Nat × List Nat × CSON) → List Nat → Prop
  | [], _ => True
  | [(k, e, v)], close => KeyOk k ∧ ParsesTo e close v
  | (k, e, v) :: m :: ms, close =>
    KeyOk k ∧ ParsesTo e (44 :: membersText (m :: ms) close) v ∧ MembersParse (m :: ms) close

/-- The rest of an iteration of the loop of `CSON_parse_object`, after the pair has been
inserted: the next token is consumed, a comma or `}` leads back to the loop test, any
other token to `PARSE_ERROR`. -/
def ObjectSepReturns (object : CVec CSON_String × CVec CSON) (tk : CSON_Tokenizer)
    (r : CSON_Result × CSON_Tokenizer) : Prop :=
  ∃ t4 tk4, CSON_Tokenizer_consume tk = .ok (t4, tk4) ∧
    (((t4.type = .COMMA ∨ t4.type = .CURLY_CLOSE) ∧ ObjectLoopReturns object t4 tk4 r) ∨
     (t4.type ≠ .COMMA ∧ t4.type ≠ .CURLY_CLOSE ∧ r = (.CSON_ERROR, tk4)))

/-- The decimal digits at the head of a text. -/
def leadingDigits : List Nat → List Nat
  | [] => []
  | c :: cs => if 48 ≤ c ∧ c ≤ 57 then c :: leadingDigits cs else []

/-- The natural number a run of decimal digits denotes. -/
def decimalValue (ds : List Nat) : Nat := ds.foldl (fun n c => 10 * n + (c - 48)) 0

/-- What libc's `sscanf(src, "%lf", &d)` stores in `d`, on the texts this model covers: a
non-empty run of decimal digits that is followed by the end of the text, or by a byte that
cannot go on a floating constant (none of `.`, `e`, `E`, `x`, `X`), is converted to the
integer it denotes, which a `double` holds exactly below `2^53`. `none` stands for every
other text (signs, fractions, exponents, hexadecimal, and texts nothing is converted
from): the model leaves them open. -/
def sscanf_lf (src : List Nat) : Option Nat :=
  let ds := leadingDigits src
  if ds = [] then none
  else
    match src.drop ds.length with
    | [] => some (decimalValue ds)
    | c :: _ =>
      if c = 46 ∨ c = 101 ∨ c = 69 ∨ c = 120 ∨ c = 88 then none
      else some (decimalValue ds)

/-- The members of the object text `{"a":1,"b":[2,3]}`. -/
def twoMembers : List (List Nat × List Nat × CSON) :=
  [ (cstr "a", cstr "1", .Number ⟨cstr "1,\"b\":[2,3]\x7d"⟩),
    (cstr "b", cstr "[2,3]",
      .Array ⟨2, sizeof_ptr, [.Number ⟨cstr "2,3]\x7d"⟩, .Number ⟨cstr "3]\x7d"⟩],
        CSON_DEFAULT_MEMBLOCK_SIZE⟩) ]

/-- The text after the `{` of an object when, after the members, the text `next` stands
where a key is expected: right after `{`, or after the comma that follows the last
member. -/
def beforeKey (members : List (List Nat × List Nat × CSON)) (next : List Nat) : List Nat :=
  match members with
  | [] => next
  | m :: ms => membersText (m :: ms) (44 :: next)

/-! ## Tokens the parser has no use for -/

/-- Where a run of the parser stands when it asks the tokenizer for a token. -/
inductive Place where
  /-- at a call of `CSON_parse_element` -/
  | element
  /-- at a call of `CSON_parse_array`, the `[` consumed -/
  | array
  /-- in the loop of `CSON_parse_array`, before an element -/
  | arrayItem
  /-- at a call of `CSON_parse_object`, the `{` consumed -/
  | object
  /-- in the loop of `CSON_parse_object`, before a key -/
  | objectKey
  deriving DecidableEq, Repr

/-- The token the tokenizer has next is of type `T`. -/
def NextIs (T : CSON_TokenType) (tk : CSON_Tokenizer) : Prop :=
  ∃ tok, CSON_Tokenizer_peek tk = .ok tok ∧ tok.type = T

/-- `Meets T place tk`: the run that starts at `place` with the tokenizer `tk` is handed a
token of type `T` by one of its calls of the tokenizer, everything before that token
having been parsed. The constructors follow the calls of `CSON_Tokenizer_consume` in
`CSON_parse_element`, `CSON_parse_array` and `CSON_parse_object`. -/
inductive Meets (T : CSON_TokenType) : Place → CSON_Tokenizer → Prop where
  /-- the token stands where an element starts -/
  | here {tk : CSON_Tokenizer} : NextIs T tk → Meets T .element tk
  /-- the element is an array, and the token is met inside it -/
  | inArray {tk tk1 : CSON_Tokenizer} {tok : CSON_Token} :
      CSON_Tokenizer_consume tk = .ok (tok, tk1) → tok.type = .SQUARE_OPEN →
      Meets T .array tk1 → Meets T .element tk
  /-- the element is an object, and the token is met inside it -/
  | inObject {tk tk1 : CSON_Tokenizer} {tok : CSON_Token} :
      CSON_Tokenizer_consume tk = .ok (tok, tk1) → tok.type = .CURLY_OPEN →
      Meets T .object tk1 → Meets T .element tk
  /-- the array is not closed at once, and its loop meets the token -/
  | arrayLoop {tk : CSON_Tokenizer} {tok : CSON_Token} :
      CSON_Tokenizer_peek tk = .ok tok → tok.type ≠ .SQUARE_CLOSE →
      Meets T .arrayItem tk → Meets T .array tk
  /-- the token is met where an element of the array is expected, or inside that element -/
  | item {tk : CSON_Tokenizer} : Meets T .element tk → Meets T .arrayItem tk
  /-- the token stands after an element of the array, where `,` or `]` is expected -/
  | afterItem {tk tk1 : CSON_Tokenizer} {v : CSON} :
      ElementReturns tk (.CSON_SUCCES v, tk1) → NextIs T tk1 → Meets T .arrayItem tk
  /-- an element and a comma are consumed, and the token is met further on -/
  | nextItem {tk tk1 tk2 : CSON_Tokenizer} {v : CSON} {tok : CSON_Token} :
      ElementReturns tk (.CSON_SUCCES v, tk1) →
      CSON_Tokenizer_consume tk1 = .ok (tok, tk2) → tok.type = .COMMA →
      Meets T .arrayItem tk2 → Meets T .arrayItem tk
  /-- the object is not closed at once, and its loop meets the token -/
  | objectLoop {tk : CSON_Tokenizer} {tok : CSON_Token} :
      CSON_Tokenizer_peek tk = .ok tok → tok.type ≠ .CURLY_CLOSE →
      Meets T .objectKey tk → Meets T .object tk
  /-- the token is met where a key is expected, or inside the element parsed as the key -/
  | key {tk : CSON_Tokenizer} : Meets T .element tk → Meets T .objectKey tk
  /-- the token stands after a key, where `:` is expected -/
  | afterKey {tk tk1 : CSON_Tokenizer} {key : CSON_String} :
      ElementReturns tk (.CSON_SUCCES (.String key), tk1) → NextIs T tk1 →
      Meets T .objectKey tk
  /-- the token is met where the value is expected, or inside the value -/
  | value {tk tk1 tk2 : CSON_Tokenizer} {key : CSON_String} {tok : CSON_Token} :
      ElementReturns tk (.CSON_SUCCES (.String key), tk1) →
      CSON_Tokenizer_consume tk1 = .ok (tok, tk2) → tok.type = .COLON →
      Meets T .element tk2 → Meets T .objectKey tk
  /-- the token stands after a value, where `,` or `}` is expected -/
  | afterValue {tk tk1 tk2 tk3 : CSON_Tokenizer} {key : CSON_String} {tok : CSON_Token}
      {v : CSON} :
      ElementReturns tk (.CSON_SUCCES (.String key), tk1) →
      CSON_Tokenizer_consume tk1 = .ok (tok, tk2) → tok.type = .COLON →
      ElementReturns tk2 (.CSON_SUCCES v, tk3) → NextIs T tk3 → Meets T .objectKey tk
  /-- a member and a comma are consumed, and the token is met further on -/
  | nextMember {tk tk1 tk2 tk3 tk4 : CSON_Tokenizer} {key : CSON_String}
      {tok t4 : CSON_Token} {v : CSON} :
      ElementReturns tk (.CSON_SUCCES (.String key), tk1) →
      CSON_Tokenizer_consume tk1 = .ok (tok, tk2) → tok.type = .COLON →
      ElementReturns tk2 (.CSON_SUCCES v, tk3) →
      CSON_Tokenizer_consume tk3 = .ok (t4, tk4) → t4.type = .COMMA →
      Meets T .objectKey tk4 → Meets T .objectKey tk

/-- The run from `place` returns `CSON_ERROR`; a loop does so whatever it has collected. -/
def Rejects : Place → CSON_Tokenizer → Prop
  | .element, tk => ∃ tk1, ElementReturns tk (.CSON_ERROR, tk1)
  | .array, tk => ∃ tk1, ArrayReturns tk (.CSON_ERROR, tk1)
  | .arrayItem, tk => ∀ (a : CVec CSON) (pre : List CSON) (tok : CSON_Token),
      a.Holds pre → tok.type ≠ .SQUARE_CLOSE →
      ∃ tk1, ArrayLoopReturns a tok tk (.CSON_ERROR, tk1)
  | .object, tk => ∃ tk1, ObjectReturns tk (.CSON_ERROR, tk1)
  | .objectKey, tk => ∀ (o : CVec CSON_String × CVec CSON) (ks : List CSON_String)
      (vs : List CSON) (tok : CSON_Token),
      o.1.Holds ks ∧ o.2.Holds vs → tok.type ≠ .CURLY_CLOSE →
      ∃ tk1, ObjectLoopReturns o tok tk (.CSON_ERROR, tk1)

/-- Three inserts with the key `a` used twice: `("a", true)`, `("b", false)`, `("a", null)`. -/
def duplicatePairs : List (CSON_String × CSON) :=
  [ (keyString (cstr "a"), .Literal .TRUE),
    (keyString (cstr "b"), .Literal .FALSE),
    (keyString (cstr "a"), .Literal .NULL) ]


/-! ## Number tokens -/

/-- The characters that go on a number token after its first character: the digits
`'0'..'9'` and `'.'`. -/
def numberTail (c : Nat) : Bool := decide ((48 ≤ c ∧ c ≤ 57) ∨ c = 46)

/-! ## The buffer through its API -/

/-- The calls `CVec_push_back(vec, &x)` for the elements of the list, in order. -/
def pushAll {α : Type} : List α → CVec α → Except Fault (CVec α)
  | [], vec => .ok vec
  | x :: xs, vec =>
    match CVec_push_back vec x with
    | .error f => .error f
    | .ok vec => pushAll xs vec

/-- The call `CVec_get(vec, index, &element)` seen from the caller: the flag it returns
and the caller's `element` after the call. -/
def CVec_get_call {α : Type} (vec : CVec α) (index : Nat) (element : α) : Bool × α :=
  match CVec_get vec index with
  | some x => (true, x)
  | none => (false, element)

/-- The call `CVec_pop_back(vec, &element)` seen from the caller: the flag it returns,
the caller's `element` after the call, and the buffer after the call. -/
def CVec_pop_back_call {α : Type} (vec : CVec α) (element : α) : Bool × α × CVec α :=
  match CVec_pop_back vec with
  | (some x, vec) => (true, x, vec)
  | (none, vec) => (false, element, vec)

/-! ## Release of values -/

/-- One call of `free`: on the struct of a value, or on the character buffer of a
string. -/
inductive Freed
  | block (cson : CSON)
  | chars (string : CSON_String)

/-- The call `free(value)` on a local pointer; `none` is the local that no call has
written yet. -/
def free_local (value : Option CSON) : Except Fault Freed :=
  match value with
  | some cson => .ok (.block cson)
  | none => .error .outOfBounds

/-- The local `value` after a call `CVec_pop_back(vec, &value)` that returned `popped`. -/
def popInto {α : Type} (value : Option α) (popped : Option α) : Option α :=
  match popped with
  | some element => some element
  | none => value

/-- The function `CSON_String_free`. -/
def CSON_String_free (string : CSON_String) : List Freed :=
  [.chars string, .block (.String string)]

/-- The loop of `CSON_Array_free`, each turn one `free(value)` and one `CVec_pop_back`. -/
def CSON_Array_free_loop : Nat → CVec CSON → Option CSON → Except Fault (List Freed)
  | 0, _, _ => .error .fuel
  | fuel + 1, data, value =>
    if data.element_count > 0 then
      match free_local value with
      | .error f => .error f
      | .ok freed =>
        let popped := CVec_pop_back data
        match CSON_Array_free_loop fuel popped.2 (popInto value popped.1) with
        | .error f => .error f
        | .ok rest => .ok (freed :: rest)
    else .ok []

/-- The function `CSON_Array_free`, as the list of the calls of `free` it makes, in
order. -/
def CSON_Array_free (data : CVec CSON) : Except Fault (List Freed) :=
  let popped := CVec_pop_back data
  match CSON_Array_free_loop (data.element_count + 1) popped.2 (popInto none popped.1) with
  | .error f => .error f
  | .ok freed => .ok (freed ++ [.block (.Array data)])

/-- The loop of `CSON_Object_free`. -/
def CSON_Object_free_loop :
    Nat → CVec CSON_String → CVec CSON → Option CSON_String → Option CSON →
      Except Fault (List Freed)
  | 0, _, _, _, _ => .error .fuel
  | fuel + 1, keys, data, key, value =>
    if data.element_count > 0 then
      match free_local (key.map CSON.String) with
      | .error f => .error f
      | .ok freedKey =>
        match free_local value with
        | .error f => .error f
        | .ok freedValue =>
          let poppedKey := CVec_pop_back keys
          let popped := CVec_pop_back data
          match CSON_Object_free_loop fuel poppedKey.2 popped.2
              (popInto key poppedKey.1) (popInto value popped.1) with
          | .error f => .error f
          | .ok rest => .ok (freedKey :: freedValue :: rest)
    else .ok []

/-- The function `CSON_Object_free`, as the list of the calls of `free` it makes, in
order. -/
def CSON_Object_free (keys : CVec CSON_String) (data : CVec CSON) :
    Except Fault (List Freed) :=
  let poppedKey := CVec_pop_back keys
  let popped := CVec_pop_back data
  match CSON_Object_free_loop (data.element_count + 1) poppedKey.2 popped.2
      (popInto none poppedKey.1) (popInto none popped.1) with
  | .error f => .error f
  | .ok freed => .ok (freed ++ [.block (.Object keys data)])

/-- The function `CSON_free`: the switch on `cson->type`. A struct whose type field names
another struct than the one allocated is read past its end. -/
def CSON_free (cson : CSON) : Except Fault (List Freed) :=
  match cson.type with
  | .TRUE | .FALSE | .NULL | .NUMBER => .ok [.block cson]
  | .STRING =>
    match cson with
    | .String string => .ok (CSON_String_free string)
    | _ => .error .outOfBounds
  | .ARRAY =>
    match cson with
    | .Array data => CSON_Array_free data
    | _ => .error .outOfBounds
  | .OBJECT =>
    match cson with
    | .Object keys data => CSON_Object_free keys data
    | _ => .error .outOfBounds

/-- The calls of `free` on the members of an object taken last to first: the key struct,
then the value struct. -/
def freedMembers : List (CSON_String × CSON) → List Freed
  | [] => []
  | (key, value) :: rest => freedMembers rest ++ [.block (.String key), .block value]

/-- The value of the text `[true]`. -/
def oneChild : CSON :=
  .Array ⟨1, sizeof_ptr, [.Literal .TRUE], CSON_DEFAULT_MEMBLOCK_SIZE⟩

/-- The value of the text `[[true],"ab"]`. -/
def nestedChildren : CSON :=
  .Array ⟨2, sizeof_ptr, [oneChild, .String ⟨⟨cstr "ab", 2⟩⟩], CSON_DEFAULT_MEMBLOCK_SIZE⟩

/-- The value of the object text with the one member `"k":true`. -/
def oneMember : CSON :=
  .Object ⟨1, sizeof_ptr, [⟨⟨cstr "k", 1⟩⟩], CSON_DEFAULT_MEMBLOCK_SIZE⟩
    ⟨1, sizeof_ptr, [.Literal .TRUE], CSON_DEFAULT_MEMBLOCK_SIZE⟩


/-! ## The same value read from a longer text -/

mutual

/-- The value `v` as it is built when the text `t` stands between the parsed text and the
terminator: a number keeps the text handed to `sscanf`, which runs to the terminator and
so ends in `t`; everything else (variants, counts, capacities, strings, keys, order) is
the same. -/
def CSON.withTail (t : List Nat) : CSON → CSON
  | .Literal type => .Literal type
  | .Number value => .Number ⟨value.src ++ t⟩
  | .String string => .String string
  | .Array data =>
    .Array ⟨data.element_count, data.element_size, withTailList t data.data,
      data.element_capacity⟩
  | .Object keys data =>
    .Object keys ⟨data.element_count, data.element_size, withTailList t data.data,
      data.element_capacity⟩

/-- The children of a container, each as in `CSON.withTail`. -/
def withTailList (t : List Nat) : List CSON → List CSON
  | [] => []
  | x :: xs => x.withTail t :: withTailList t xs

end

/-- The buffer of children of a container, each child as in `CSON.withTail`. -/
def vecWithTail (t : List Nat) (data : CVec CSON) : CVec CSON :=
  ⟨data.element_count, data.element_size, withTailList t data.data, data.element_capacity⟩

/-- The tokenizer whose cursor stands at the same place of the text when `t` is added
before the terminator. -/
def tokenizerWithTail (t : List Nat) (len : Nat) (tokenizer : CSON_Tokenizer) :
    CSON_Tokenizer :=
  ⟨⟨tokenizer.sv.str ++ t, len⟩⟩

/-- The characters `,`, `]` and `}`, which no floating constant holds. -/
def delimiter (c : Nat) : Bool := decide (c = 44 ∨ c = 93 ∨ c = 125)

/-- The text handed to `sscanf` for a number starts with a number token (one byte, then
digits and dots) that is followed by a delimiter. -/
def numberEnds (src : List Nat) : Bool :=
  match (src.drop 1).dropWhile numberTail with
  | d :: _ => delimiter d
  | [] => false

mutual

/-- Every number in the value is converted from a text in which a delimiter follows the
number token. -/
def CSON.numbersEnd : CSON → Bool
  | .Literal _ => true
  | .Number value => numberEnds value.src
  | .String _ => true
  | .Array data => numbersEndList data.data
  | .Object _ data => numbersEndList data.data

/-- The same for the children of a container. -/
def numbersEndList : List CSON → Bool
  | [] => true
  | x :: xs => x.numbersEnd && numbersEndList xs

end

/-! ## Reads inside the buffer -/

/-- The last byte before the terminator is no quote: no cursor of the text stands at a
quote that the terminator follows directly. -/
def NoQuoteAtEnd (tokenizer : CSON_Tokenizer) : Prop :=
  tokenizer.sv.str.getLast? ≠ some 34

/-- A call that starts at `tokenizer` stays inside the buffer: it returns, with a cursor
that keeps `NoQuoteAtEnd`, unless a quote is the last byte, in which case it may also
read past the terminator (the only fault of a run, the recursion budget apart). -/
def InBounds (tokenizer : CSON_Tokenizer) (p : Parsed) : Prop :=
  match p with
  | .error f => f = .fuel ∨ (f = .outOfBounds ∧ ¬ NoQuoteAtEnd tokenizer)
  | .ok (_, tokenizer1) => NoQuoteAtEnd tokenizer → NoQuoteAtEnd tokenizer1


theorem scanWS_bound (cs : List Nat) : ∀ i, i ≤ scanWS cs i ∧ scanWS cs i ≤ i + cs.length := by
  induction cs with
  | nil => intro i; simp [scanWS]
  | cons c cs ih =>
    intro i
    simp only [scanWS]
    split
    · have := ih (i + 1); simp only [List.length_cons]; omega
    · simp

theorem scanNumber_bound (cs : List Nat) :
    ∀ i, i ≤ scanNumber cs i ∧ scanNumber cs i ≤ i + cs.length := by
  induction cs with
  | nil => intro i; simp [scanNumber]
  | cons c cs ih =>
    intro i
    simp only [scanNumber]
    split
    · have := ih (i + 1); simp only [List.length_cons]; omega
    · simp

theorem scanWord_bound (cs : List Nat) :
    ∀ i, i ≤ scanWord cs i ∧ scanWord cs i ≤ i + cs.length := by
  induction cs with
  | nil => intro i; simp [scanWord]
  | cons c cs ih =>
    intro i
    simp only [scanWord]
    split
    · have := ih (i + 1); simp only [List.length_cons]; omega
    · simp

theorem scanString_bound (cs : List Nat) :
    ∀ i j, scanString cs i = some j → i ≤ j ∧ j < i + cs.length := by
  induction cs with
  | nil => intro i j h; simp [scanString] at h
  | cons c cs ih =>
    intro i j h
    simp only [scanString] at h
    split at h
    · simp at h; subst h; simp
    · split at h
      · simp at h
      · have := ih (i + 1) j h; simp only [List.length_cons]; omega


theorem readAt_of_le {str : List Nat} {i : Nat} (h : i ≤ str.length) :
    ∃ c, readAt str i = .ok c := by
  unfold readAt
  by_cases h1 : i < str.length
  · exact ⟨_, by rw [if_pos h1]⟩
  · have h2 : i = str.length := by omega
    exact ⟨0, by rw [if_neg h1, if_pos h2]⟩

theorem peek_nil (len : Nat) :
    CSON_Tokenizer_peek ⟨⟨[], len⟩⟩ = .ok ⟨⟨[], 0⟩, .EOF⟩ := by
  simp [CSON_Tokenizer_peek, readAt, CSON_Tokenizer_identify_token_type]

theorem peek_cons (c : Nat) (rest : List Nat) (len : Nat) :
    CSON_Tokenizer_peek ⟨⟨c :: rest, len⟩⟩ =
      match CSON_Tokenizer_identify_token_type c with
      | .EOF => .ok ⟨⟨c :: rest, 0⟩, .EOF⟩
      | .CURLY_OPEN => .ok ⟨⟨c :: rest, 1⟩, .CURLY_OPEN⟩
      | .CURLY_CLOSE => .ok ⟨⟨c :: rest, 1⟩, .CURLY_CLOSE⟩
      | .SQUARE_OPEN => .ok ⟨⟨c :: rest, 1⟩, .SQUARE_OPEN⟩
      | .SQUARE_CLOSE => .ok ⟨⟨c :: rest, 1⟩, .SQUARE_CLOSE⟩
      | .COMMA => .ok ⟨⟨c :: rest, 1⟩, .COMMA⟩
      | .COLON => .ok ⟨⟨c :: rest, 1⟩, .COLON⟩
      | .WS => .ok ⟨⟨c :: rest, scanWS rest 1⟩, .WS⟩
      | .STRING =>
        match rest with
        | [] => .error .outOfBounds
        | _ :: rest2 =>
          match scanString rest2 1 with
          | none => .ok ⟨⟨rest, 0⟩, .EOF⟩
          | some i => .ok ⟨⟨rest, i⟩, .STRING⟩
      | .NUMBER => .ok ⟨⟨c :: rest, scanNumber rest 1⟩, .NUMBER⟩
      | .WORD => .ok ⟨⟨c :: rest, scanWord rest 1⟩, .WORD⟩
      | .UNKNOWN => .error .exitFailure := by
  simp only [CSON_Tokenizer_peek, readAt, List.length_cons, Nat.zero_lt_succ, if_true,
    List.getD_cons_zero, List.drop_succ_cons, List.drop_zero]
  cases CSON_Tokenizer_identify_token_type c <;> simp only []
  cases rest with
  | nil => simp
  | cons d rest2 =>
    simp only [List.length_cons, List.drop_succ_cons, List.drop_zero]
    obtain ⟨x, hx⟩ := @readAt_of_le (d :: rest2) 1 (by simp)
    have hx2 : readAt (d :: rest2) 1 = (if 1 < rest2.length + 1 then Except.ok ((d :: rest2).getD 1 0)
      else if 1 = rest2.length + 1 then Except.ok 0 else Except.error Fault.outOfBounds) := rfl
    rw [← hx2, hx]


/-- A peeked token lies inside the text before the terminator, and only an end-of-input
token has no extent. -/
theorem peek_advance {tk : CSON_Tokenizer} {tok : CSON_Token}
    (h : CSON_Tokenizer_peek tk = .ok tok) :
    tokenAdvance tok ≤ tk.sv.str.length ∧ (tok.type ≠ .EOF → 0 < tokenAdvance tok) ∧
    tok.type ≠ .UNKNOWN := by
  obtain ⟨⟨str, len⟩⟩ := tk
  cases str with
  | nil =>
    rw [peek_nil] at h
    simp at h
    subst h
    simp [tokenAdvance]
  | cons c rest =>
    rw [peek_cons] at h
    have hw := scanWS_bound rest 1
    have hn := scanNumber_bound rest 1
    have hd := scanWord_bound rest 1
    cases hc : CSON_Tokenizer_identify_token_type c <;> simp only [hc] at h
    case STRING =>
      cases rest with
      | nil => simp at h
      | cons d rest2 =>
        simp only at h
        cases hs : scanString rest2 1 with
        | none =>
          simp [hs] at h
          subst h
          simp [tokenAdvance]
        | some i =>
          have hb := scanString_bound rest2 1 i hs
          simp [hs] at h
          subst h
          simp [tokenAdvance]
          omega
    case UNKNOWN => simp at h
    all_goals
      simp at h
      subst h
      simp [tokenAdvance]
      try omega

theorem consume_of_peek {tk : CSON_Tokenizer} {tok : CSON_Token}
    (h : CSON_Tokenizer_peek tk = .ok tok) :
    CSON_Tokenizer_consume tk =
      .ok (tok, ⟨⟨tk.sv.str.drop (tokenAdvance tok), tk.sv.len⟩⟩) := by
  have hb := (peek_advance h).1
  simp [CSON_Tokenizer_consume, h, advance, hb]

theorem consume_ok_iff {tk tk1 : CSON_Tokenizer} {tok : CSON_Token} :
    CSON_Tokenizer_consume tk = .ok (tok, tk1) ↔
      CSON_Tokenizer_peek tk = .ok tok ∧
      tk1 = ⟨⟨tk.sv.str.drop (tokenAdvance tok), tk.sv.len⟩⟩ := by
  constructor
  · intro h
    cases hp : CSON_Tokenizer_peek tk with
    | error f => simp [CSON_Tokenizer_consume, hp] at h
    | ok t =>
      rw [consume_of_peek hp] at h
      simp at h
      obtain ⟨h1, h2⟩ := h
      subst h1
      exact ⟨rfl, h2.symm⟩
  · rintro ⟨hp, rfl⟩
    exact consume_of_peek hp

theorem consume_error_iff {tk : CSON_Tokenizer} {f : Fault} :
    CSON_Tokenizer_consume tk = .error f ↔ CSON_Tokenizer_peek tk = .error f := by
  cases hp : CSON_Tokenizer_peek tk with
  | error g => simp [CSON_Tokenizer_consume, hp]
  | ok t => rw [consume_of_peek hp]; simp

/-- What `CSON_Tokenizer_consume` does to the cursor. -/
theorem consume_ok {tk tk1 : CSON_Tokenizer} {tok : CSON_Token}
    (h : CSON_Tokenizer_consume tk = .ok (tok, tk1)) :
    tk1.sv.len = tk.sv.len ∧ tk1.sv.str.length ≤ tk.sv.str.length ∧
    (tok.type ≠ .EOF → tk1.sv.str.length < tk.sv.str.length) := by
  obtain ⟨hp, rfl⟩ := consume_ok_iff.1 h
  obtain ⟨h1, h2, _⟩ := peek_advance hp
  refine ⟨rfl, by simp, fun hne => ?_⟩
  have := h2 hne
  simp only [List.length_drop]
  omega



theorem fuel_step : ∀ fuel,
    (∀ tk, Settled (CSON_parse_element fuel tk) →
      CSON_parse_element (fuel + 1) tk = CSON_parse_element fuel tk) ∧
    (∀ tk, Settled (CSON_parse_array fuel tk) →
      CSON_parse_array (fuel + 1) tk = CSON_parse_array fuel tk) ∧
    (∀ a t tk, Settled (CSON_parse_array_loop fuel a t tk) →
      CSON_parse_array_loop (fuel + 1) a t tk = CSON_parse_array_loop fuel a t tk) ∧
    (∀ tk, Settled (CSON_parse_object fuel tk) →
      CSON_parse_object (fuel + 1) tk = CSON_parse_object fuel tk) ∧
    (∀ o t tk, Settled (CSON_parse_object_loop fuel o t tk) →
      CSON_parse_object_loop (fuel + 1) o t tk = CSON_parse_object_loop fuel o t tk) := by
  intro fuel
  induction fuel with
  | zero =>
    refine ⟨?_, ?_, ?_, ?_, ?_⟩ <;> intros <;> simp_all [Settled, CSON_parse_element,
      CSON_parse_array, CSON_parse_array_loop, CSON_parse_object, CSON_parse_object_loop]
  | succ n ih =>
    obtain ⟨ihe, iha, ihal, iho, ihol⟩ := ih
    refine ⟨?_, ?_, ?_, ?_, ?_⟩
    · intro tk hs
      rw [CSON_parse_element] at hs
      rw [CSON_parse_element, CSON_parse_element]
      cases hc : CSON_Tokenizer_consume tk with
      | error f => simp only [hc]
      | ok p =>
        obtain ⟨token, tk1⟩ := p
        simp only [hc] at hs ⊢
        cases ht : token.type <;> simp only [ht] at hs ⊢
        · exact iho _ hs
        · exact iha _ hs
    · intro tk hs
      rw [CSON_parse_array] at hs
      rw [CSON_parse_array, CSON_parse_array]
      cases hp : CSON_Tokenizer_peek tk with
      | error f => simp only [hp]
      | ok token =>
        simp only [hp] at hs ⊢
        by_cases hcl : token.type = .SQUARE_CLOSE
        · rw [if_pos hcl] at hs ⊢
          rw [if_pos hcl]
          cases hc : CSON_Tokenizer_consume tk with
          | error f => simp only [hc]
          | ok p =>
            obtain ⟨t2, tk1⟩ := p
            simp only [hc] at hs ⊢
            exact ihal _ _ _ hs
        · rw [if_neg hcl] at hs ⊢
          rw [if_neg hcl]
          exact ihal _ _ _ hs
    · intro a t tk hs
      rw [CSON_parse_array_loop] at hs
      rw [CSON_parse_array_loop, CSON_parse_array_loop]
      split
      · rfl
      · rename_i hcl
        simp only [hcl, ite_false] at hs
        have hE : Settled (CSON_parse_element n tk) := by
          intro hE; simp [hE, Settled] at hs
        rw [ihe tk hE]
        cases he : CSON_parse_element n tk with
        | error f => simp only [he]
        | ok p =>
          obtain ⟨res, tk1⟩ := p
          simp only [he] at hs ⊢
          cases res with
          | CSON_ERROR => rfl
          | CSON_SUCCES value =>
            simp only at hs ⊢
            cases hap : CSON_Array_append a value with
            | error f => simp only [hap]
            | ok a2 =>
              simp only [hap] at hs ⊢
              cases hc : CSON_Tokenizer_consume tk1 with
              | error f => simp only [hc]
              | ok q =>
                obtain ⟨t2, tk2⟩ := q
                simp only [hc] at hs ⊢
                cases ht : t2.type <;> simp only [ht] at hs ⊢
                · exact ihal _ _ _ hs
                · exact ihal _ _ _ hs
    · intro tk hs
      rw [CSON_parse_object] at hs
      rw [CSON_parse_object, CSON_parse_object]
      cases hp : CSON_Tokenizer_peek tk with
      | error f => simp only [hp]
      | ok token =>
        simp only [hp] at hs ⊢
        by_cases hcl : token.type = .CURLY_CLOSE
        · rw [if_pos hcl] at hs ⊢
          rw [if_pos hcl]
          cases hc : CSON_Tokenizer_consume tk with
          | error f => simp only [hc]
          | ok p =>
            obtain ⟨t2, tk1⟩ := p
            simp only [hc] at hs ⊢
            exact ihol _ _ _ hs
        · rw [if_neg hcl] at hs ⊢
          rw [if_neg hcl]
          exact ihol _ _ _ hs
    · intro o t tk hs
      rw [CSON_parse_object_loop] at hs
      rw [CSON_parse_object_loop, CSON_parse_object_loop]
      split
      · rfl
      · rename_i hcl
        simp only [hcl, ite_false] at hs
        have hE : Settled (CSON_parse_element n tk) := by
          intro hE; simp [hE, Settled] at hs
        rw [ihe tk hE]
        cases he : CSON_parse_element n tk with
        | error f => simp only [he]
        | ok p =>
          obtain ⟨res, tk1⟩ := p
          simp only [he] at hs ⊢
          cases res with
          | CSON_ERROR => rfl
          | CSON_SUCCES key =>
            cases key with
            | String key =>
              simp only at hs ⊢
              cases hc : CSON_Tokenizer_consume tk1 with
              | error f => simp only [hc]
              | ok q =>
                obtain ⟨t2, tk2⟩ := q
                simp only [hc] at hs ⊢
                by_cases hcol : t2.type = .COLON
                · simp only [hcol, ne_eq, not_true_eq_false, ite_false] at hs ⊢
                  have hE2 : Settled (CSON_parse_element n tk2) := by
                    intro hE; simp [hE, Settled] at hs
                  rw [ihe tk2 hE2]
                  cases he2 : CSON_parse_element n tk2 with
                  | error f => simp only [he2]
                  | ok p2 =>
                    obtain ⟨res2, tk3⟩ := p2
                    simp only [he2] at hs ⊢
                    cases res2 with
                    | CSON_ERROR => rfl
                    | CSON_SUCCES value =>
                      simp only at hs ⊢
                      cases hins : CSON_Object_insert o key value with
                      | error f => simp only [hins]
                      | ok o2 =>
                        simp only [hins] at hs ⊢
                        cases hc3 : CSON_Tokenizer_consume tk3 with
                        | error f => simp only [hc3]
                        | ok q3 =>
                          obtain ⟨t3, tk4⟩ := q3
                          simp only [hc3] at hs ⊢
                          cases ht : t3.type <;> simp only [ht] at hs ⊢
                          · exact ihol _ _ _ hs
                          · exact ihol _ _ _ hs
                · simp only [ne_eq, hcol, not_false_eq_true, ite_true]
            | _ => rfl


/-- A settled result is kept by every larger budget. -/
theorem fuel_add (fuel k : Nat) :
    (∀ tk, Settled (CSON_parse_element fuel tk) →
      CSON_parse_element (fuel + k) tk = CSON_parse_element fuel tk) ∧
    (∀ tk, Settled (CSON_parse_array fuel tk) →
      CSON_parse_array (fuel + k) tk = CSON_parse_array fuel tk) ∧
    (∀ a t tk, Settled (CSON_parse_array_loop fuel a t tk) →
      CSON_parse_array_loop (fuel + k) a t tk = CSON_parse_array_loop fuel a t tk) ∧
    (∀ tk, Settled (CSON_parse_object fuel tk) →
      CSON_parse_object (fuel + k) tk = CSON_parse_object fuel tk) ∧
    (∀ o t tk, Settled (CSON_parse_object_loop fuel o t tk) →
      CSON_parse_object_loop (fuel + k) o t tk = CSON_parse_object_loop fuel o t tk) := by
  induction k with
  | zero => exact ⟨fun _ _ => rfl, fun _ _ => rfl, fun _ _ _ _ => rfl, fun _ _ => rfl,
      fun _ _ _ _ => rfl⟩
  | succ k ih =>
    obtain ⟨ihe, iha, ihal, iho, ihol⟩ := ih
    obtain ⟨se, sa, sal, so, sol⟩ := fuel_step (fuel + k)
    refine ⟨?_, ?_, ?_, ?_, ?_⟩
    · intro tk hs
      rw [← Nat.add_assoc, se tk (by rw [ihe tk hs]; exact hs), ihe tk hs]
    · intro tk hs
      rw [← Nat.add_assoc, sa tk (by rw [iha tk hs]; exact hs), iha tk hs]
    · intro a t tk hs
      rw [← Nat.add_assoc, sal a t tk (by rw [ihal a t tk hs]; exact hs), ihal a t tk hs]
    · intro tk hs
      rw [← Nat.add_assoc, so tk (by rw [iho tk hs]; exact hs), iho tk hs]
    · intro o t tk hs
      rw [← Nat.add_assoc, sol o t tk (by rw [ihol o t tk hs]; exact hs), ihol o t tk hs]

theorem settled_ok {r : CSON_Result × CSON_Tokenizer} {p : Parsed} (h : p = .ok r) :
    Settled p := by
  rw [h]; simp [Settled]

theorem element_mono {fuel fuel1 : Nat} {tk : CSON_Tokenizer}
    {r : CSON_Result × CSON_Tokenizer} (h : CSON_parse_element fuel tk = .ok r)
    (hle : fuel ≤ fuel1) : CSON_parse_element fuel1 tk = .ok r := by
  obtain ⟨k, rfl⟩ := Nat.exists_eq_add_of_le hle
  rw [(fuel_add fuel k).1 tk (settled_ok h), h]

theorem array_mono {fuel fuel1 : Nat} {tk : CSON_Tokenizer}
    {r : CSON_Result × CSON_Tokenizer} (h : CSON_parse_array fuel tk = .ok r)
    (hle : fuel ≤ fuel1) : CSON_parse_array fuel1 tk = .ok r := by
  obtain ⟨k, rfl⟩ := Nat.exists_eq_add_of_le hle
  rw [(fuel_add fuel k).2.1 tk (settled_ok h), h]

theorem array_loop_mono {fuel fuel1 : Nat} {a : CVec CSON} {t : CSON_Token}
    {tk : CSON_Tokenizer} {r : CSON_Result × CSON_Tokenizer}
    (h : CSON_parse_array_loop fuel a t tk = .ok r)
    (hle : fuel ≤ fuel1) : CSON_parse_array_loop fuel1 a t tk = .ok r := by
  obtain ⟨k, rfl⟩ := Nat.exists_eq_add_of_le hle
  rw [(fuel_add fuel k).2.2.1 a t tk (settled_ok h), h]

theorem object_mono {fuel fuel1 : Nat} {tk : CSON_Tokenizer}
    {r : CSON_Result × CSON_Tokenizer} (h : CSON_parse_object fuel tk = .ok r)
    (hle : fuel ≤ fuel1) : CSON_parse_object fuel1 tk = .ok r := by
  obtain ⟨k, rfl⟩ := Nat.exists_eq_add_of_le hle
  rw [(fuel_add fuel k).2.2.2.1 tk (settled_ok h), h]

theorem object_loop_mono {fuel fuel1 : Nat} {o : CVec CSON_String × CVec CSON}
    {t : CSON_Token} {tk : CSON_Tokenizer} {r : CSON_Result × CSON_Tokenizer}
    (h : CSON_parse_object_loop fuel o t tk = .ok r)
    (hle : fuel ≤ fuel1) : CSON_parse_object_loop fuel1 o t tk = .ok r := by
  obtain ⟨k, rfl⟩ := Nat.exists_eq_add_of_le hle
  rw [(fuel_add fuel k).2.2.2.2 o t tk (settled_ok h), h]

/-- A successful `CSON_parse_element` moves the cursor forward; the container functions
never move it back. -/
theorem parse_progress : ∀ fuel,
    (∀ tk v tk1, CSON_parse_element fuel tk = .ok (.CSON_SUCCES v, tk1) →
      tk1.sv.str.length < tk.sv.str.length) ∧
    (∀ tk v tk1, CSON_parse_array fuel tk = .ok (.CSON_SUCCES v, tk1) →
      tk1.sv.str.length ≤ tk.sv.str.length) ∧
    (∀ a t tk v tk1, CSON_parse_array_loop fuel a t tk = .ok (.CSON_SUCCES v, tk1) →
      tk1.sv.str.length ≤ tk.sv.str.length) ∧
    (∀ tk v tk1, CSON_parse_object fuel tk = .ok (.CSON_SUCCES v, tk1) →
      tk1.sv.str.length ≤ tk.sv.str.length) ∧
    (∀ o t tk v tk1, CSON_parse_object_loop fuel o t tk = .ok (.CSON_SUCCES v, tk1) →
      tk1.sv.str.length ≤ tk.sv.str.length) := by
  intro fuel
  induction fuel with
  | zero =>
    refine ⟨?_, ?_, ?_, ?_, ?_⟩ <;> intros <;> simp_all [CSON_parse_element,
      CSON_parse_array, CSON_parse_array_loop, CSON_parse_object, CSON_parse_object_loop]
  | succ n ih =>
    obtain ⟨ihe, iha, ihal, iho, ihol⟩ := ih
    refine ⟨?_, ?_, ?_, ?_, ?_⟩
    · intro tk v tk' h
      rw [CSON_parse_element] at h
      cases hc : CSON_Tokenizer_consume tk with
      | error f => simp [hc] at h
      | ok p =>
        obtain ⟨token, tk1⟩ := p
        obtain ⟨-, hle, hlt⟩ := consume_ok hc
        simp only [hc] at h
        cases ht : token.type <;> simp only [ht] at h
        case CURLY_OPEN => have := iho _ _ _ h; have := hlt (by rw [ht]; decide); omega
        case SQUARE_OPEN => have := iha _ _ _ h; have := hlt (by rw [ht]; decide); omega
        case STRING => simp at h; rw [← h.2]; exact hlt (by rw [ht]; decide)
        case NUMBER => simp at h; rw [← h.2]; exact hlt (by rw [ht]; decide)
        case WORD =>
          have hlt := hlt (by rw [ht]; decide)
          split at h
          · simp at h; rw [← h.2]; exact hlt
          · split at h
            · simp at h; rw [← h.2]; exact hlt
            · split at h
              · simp at h; rw [← h.2]; exact hlt
              · simp at h
        all_goals simp at h
    · intro tk v tk' h
      rw [CSON_parse_array] at h
      cases hp : CSON_Tokenizer_peek tk with
      | error f => simp [hp] at h
      | ok token =>
        simp only [hp] at h
        split at h
        · cases hc : CSON_Tokenizer_consume tk with
          | error f => simp [hc] at h
          | ok p =>
            obtain ⟨t2, tk1⟩ := p
            obtain ⟨-, hle, -⟩ := consume_ok hc
            simp only [hc] at h
            have := ihal _ _ _ _ _ h
            omega
        · exact ihal _ _ _ _ _ h
    · intro a t tk v tk' h
      rw [CSON_parse_array_loop] at h
      split at h
      · simp at h; rw [← h.2]
      · cases he : CSON_parse_element n tk with
        | error f => simp [he] at h
        | ok p =>
          obtain ⟨res, tk1⟩ := p
          simp only [he] at h
          cases res with
          | CSON_ERROR => simp at h
          | CSON_SUCCES value =>
            have h1 := ihe _ _ _ he
            simp only at h
            cases hap : CSON_Array_append a value with
            | error f => simp [hap] at h
            | ok a2 =>
              simp only [hap] at h
              cases hc : CSON_Tokenizer_consume tk1 with
              | error f => simp [hc] at h
              | ok q =>
                obtain ⟨t2, tk2⟩ := q
                obtain ⟨-, hle, -⟩ := consume_ok hc
                simp only [hc] at h
                cases ht : t2.type <;> simp only [ht] at h
                case COMMA => have := ihal _ _ _ _ _ h; omega
                case SQUARE_CLOSE => have := ihal _ _ _ _ _ h; omega
                all_goals simp at h
    · intro tk v tk' h
      rw [CSON_parse_object] at h
      cases hp : CSON_Tokenizer_peek tk with
      | error f => simp [hp] at h
      | ok token =>
        simp only [hp] at h
        split at h
        · cases hc : CSON_Tokenizer_consume tk with
          | error f => simp [hc] at h
          | ok p =>
            obtain ⟨t2, tk1⟩ := p
            obtain ⟨-, hle, -⟩ := consume_ok hc
            simp only [hc] at h
            have := ihol _ _ _ _ _ h
            omega
        · exact ihol _ _ _ _ _ h
    · intro o t tk v tk' h
      rw [CSON_parse_object_loop] at h
      split at h
      · simp at h; rw [← h.2]
      · cases he : CSON_parse_element n tk with
        | error f => simp [he] at h
        | ok p =>
          obtain ⟨res, tk1⟩ := p
          simp only [he] at h
          cases res with
          | CSON_ERROR => simp at h
          | CSON_SUCCES key =>
            have h1 := ihe _ _ _ he
            cases key with
            | String key =>
              simp only at h
              cases hc : CSON_Tokenizer_consume tk1 with
              | error f => simp [hc] at h
              | ok q =>
                obtain ⟨t2, tk2⟩ := q
                obtain ⟨-, hle, -⟩ := consume_ok hc
                simp only [hc] at h
                split at h
                · simp at h
                · cases he2 : CSON_parse_element n tk2 with
                  | error f => simp [he2] at h
                  | ok p2 =>
                    obtain ⟨res2, tk3⟩ := p2
                    simp only [he2] at h
                    cases res2 with
                    | CSON_ERROR => simp at h
                    | CSON_SUCCES value =>
                      have h2 := ihe _ _ _ he2
                      simp only at h
                      cases hins : CSON_Object_insert o key value with
                      | error f => simp [hins] at h
                      | ok o2 =>
                        simp only [hins] at h
                        cases hc3 : CSON_Tokenizer_consume tk3 with
                        | error f => simp [hc3] at h
                        | ok q3 =>
                          obtain ⟨t3, tk4⟩ := q3
                          obtain ⟨-, hle3, -⟩ := consume_ok hc3
                          simp only [hc3] at h
                          cases ht : t3.type <;> simp only [ht] at h
                          case COMMA => have := ihol _ _ _ _ _ h; omega
                          case CURLY_CLOSE => have := ihol _ _ _ _ _ h; omega
                          all_goals simp at h
            | _ => simp at h


theorem peek_ne_fuel (tk : CSON_Tokenizer) : CSON_Tokenizer_peek tk ≠ .error .fuel := by
  obtain ⟨⟨str, len⟩⟩ := tk
  cases str with
  | nil => rw [peek_nil]; simp
  | cons c rest =>
    rw [peek_cons]
    cases CSON_Tokenizer_identify_token_type c <;> simp only [] <;> try simp
    cases rest with
    | nil => simp
    | cons d rest2 => cases hs : scanString rest2 1 <;> simp [hs]

theorem consume_ne_fuel (tk : CSON_Tokenizer) : CSON_Tokenizer_consume tk ≠ .error .fuel := by
  intro h
  exact peek_ne_fuel tk (consume_error_iff.1 h)

/-- A full buffer with a positive capacity is pushed to after its capacity is doubled. -/
theorem push_back_full {α : Type} (vec : CVec α) (x : α)
    (hfull : vec.element_count = vec.element_capacity) (hcap : 0 < vec.element_capacity) :
    CVec_push_back vec x =
      .ok { element_count := vec.element_count + 1, element_size := vec.element_size,
            data := CVec_store vec.data vec.element_count x,
            element_capacity := vec.element_capacity * 2 } := by
  unfold CVec_push_back CVec_grow
  have h2 : ¬ vec.element_capacity * 2 = 0 := by omega
  simp only [hfull, if_true, h2, if_false]
  rw [if_pos (by omega)]

/-- A buffer with room is pushed to as it is. -/
theorem push_back_room {α : Type} (vec : CVec α) (x : α)
    (hlt : vec.element_count < vec.element_capacity) :
    CVec_push_back vec x =
      .ok { element_count := vec.element_count + 1, element_size := vec.element_size,
            data := CVec_store vec.data vec.element_count x,
            element_capacity := vec.element_capacity } := by
  unfold CVec_push_back
  have h1 : ¬ vec.element_count = vec.element_capacity := by omega
  simp only [h1, if_false]
  rw [if_pos hlt]

/-- A buffer whose capacity is 0 while it is empty cannot grow: the push leaves through
`exit(1)` in `CVec_grow`. -/
theorem push_back_zero {α : Type} (vec : CVec α) (x : α)
    (hcount : vec.element_count = 0) (hcap : vec.element_capacity = 0) :
    CVec_push_back vec x = .error .exitFailure := by
  unfold CVec_push_back CVec_grow
  simp [hcount, hcap]

/-- A push with the count above the capacity writes outside the block. -/
theorem push_back_above {α : Type} (vec : CVec α) (x : α)
    (hgt : vec.element_capacity < vec.element_count) :
    CVec_push_back vec x = .error .outOfBounds := by
  unfold CVec_push_back
  have h1 : ¬ vec.element_count = vec.element_capacity := by omega
  simp only [h1, if_false]
  rw [if_neg (by omega)]

/-- The four cases of `CVec_push_back`. -/
theorem push_back_cases {α : Type} (vec : CVec α) :
    (vec.element_count = vec.element_capacity ∧ 0 < vec.element_capacity) ∨
    vec.element_count < vec.element_capacity ∨
    (vec.element_count = 0 ∧ vec.element_capacity = 0) ∨
    vec.element_capacity < vec.element_count := by
  omega

theorem push_back_ne_fuel {α : Type} (vec : CVec α) (x : α) :
    CVec_push_back vec x ≠ .error .fuel := by
  rcases push_back_cases vec with h | h | h | h
  · rw [push_back_full vec x h.1 h.2]; simp
  · rw [push_back_room vec x h]; simp
  · rw [push_back_zero vec x h.1 h.2]; simp
  · rw [push_back_above vec x h]; simp

theorem insert_ne_fuel (o : CVec CSON_String × CVec CSON) (k : CSON_String) (v : CSON) :
    CSON_Object_insert o k v ≠ .error .fuel := by
  unfold CSON_Object_insert
  cases h1 : CVec_push_back o.1 k with
  | error f => simp only; intro h; simp at h; subst h; exact push_back_ne_fuel _ _ h1
  | ok keys =>
    simp only
    cases h2 : CVec_push_back o.2 v with
    | error f => simp only; intro h; simp at h; subst h; exact push_back_ne_fuel _ _ h2
    | ok data => simp

/-- Three units of budget per remaining byte are enough: no run is cut short. -/
theorem fuel_enough : ∀ fuel,
    (∀ tk, 3 * tk.sv.str.length + 1 ≤ fuel → Settled (CSON_parse_element fuel tk)) ∧
    (∀ tk, 3 * tk.sv.str.length + 3 ≤ fuel → Settled (CSON_parse_array fuel tk)) ∧
    (∀ a t tk, 3 * tk.sv.str.length + 2 ≤ fuel →
      Settled (CSON_parse_array_loop fuel a t tk)) ∧
    (∀ tk, 3 * tk.sv.str.length + 3 ≤ fuel → Settled (CSON_parse_object fuel tk)) ∧
    (∀ o t tk, 3 * tk.sv.str.length + 2 ≤ fuel →
      Settled (CSON_parse_object_loop fuel o t tk)) := by
  intro fuel
  induction fuel with
  | zero => refine ⟨?_, ?_, ?_, ?_, ?_⟩ <;> intros <;> omega
  | succ n ih =>
    obtain ⟨ihe, iha, ihal, iho, ihol⟩ := ih
    refine ⟨?_, ?_, ?_, ?_, ?_⟩
    · intro tk hf
      rw [CSON_parse_element]
      cases hc : CSON_Tokenizer_consume tk with
      | error f =>
        simp only [Settled]; intro h; simp at h; subst h; exact consume_ne_fuel _ hc
      | ok p =>
        obtain ⟨token, tk1⟩ := p
        obtain ⟨-, hle, hlt⟩ := consume_ok hc
        simp only
        cases ht : token.type <;> simp only []
        case CURLY_OPEN => have := hlt (by rw [ht]; decide); exact iho _ (by omega)
        case SQUARE_OPEN => have := hlt (by rw [ht]; decide); exact iha _ (by omega)
        case WORD => split_ifs <;> simp [Settled]
        all_goals simp [Settled]
    · intro tk hf
      rw [CSON_parse_array]
      cases hp : CSON_Tokenizer_peek tk with
      | error f =>
        simp only [Settled]; intro h; simp at h; subst h; exact peek_ne_fuel _ hp
      | ok token =>
        simp only
        split
        · cases hc : CSON_Tokenizer_consume tk with
          | error f =>
            simp only [Settled]; intro h; simp at h; subst h; exact consume_ne_fuel _ hc
          | ok p =>
            obtain ⟨t2, tk1⟩ := p
            obtain ⟨-, hle, -⟩ := consume_ok hc
            exact ihal _ _ _ (by omega)
        · exact ihal _ _ _ (by omega)
    · intro a t tk hf
      rw [CSON_parse_array_loop]
      split
      · simp [Settled]
      · have hE := ihe tk (by omega)
        cases he : CSON_parse_element n tk with
        | error f =>
          simp only [Settled]; intro h; simp at h; subst h; exact hE he
        | ok p =>
          obtain ⟨res, tk1⟩ := p
          cases res with
          | CSON_ERROR => simp [Settled]
          | CSON_SUCCES value =>
            have h1 := (parse_progress n).1 _ _ _ he
            simp only
            cases hap : CSON_Array_append a value with
            | error f =>
              simp only [Settled]; intro h; simp at h; subst h
              exact push_back_ne_fuel _ _ hap
            | ok a2 =>
              simp only
              cases hc : CSON_Tokenizer_consume tk1 with
              | error f =>
                simp only [Settled]; intro h; simp at h; subst h; exact consume_ne_fuel _ hc
              | ok q =>
                obtain ⟨t2, tk2⟩ := q
                obtain ⟨-, hle, -⟩ := consume_ok hc
                simp only
                cases ht : t2.type <;> simp only []
                case COMMA => exact ihal _ _ _ (by omega)
                case SQUARE_CLOSE => exact ihal _ _ _ (by omega)
                all_goals simp [Settled]
    · intro tk hf
      rw [CSON_parse_object]
      cases hp : CSON_Tokenizer_peek tk with
      | error f =>
        simp only [Settled]; intro h; simp at h; subst h; exact peek_ne_fuel _ hp
      | ok token =>
        simp only
        split
        · cases hc : CSON_Tokenizer_consume tk with
          | error f =>
            simp only [Settled]; intro h; simp at h; subst h; exact consume_ne_fuel _ hc
          | ok p =>
            obtain ⟨t2, tk1⟩ := p
            obtain ⟨-, hle, -⟩ := consume_ok hc
            exact ihol _ _ _ (by omega)
        · exact ihol _ _ _ (by omega)
    · intro o t tk hf
      rw [CSON_parse_object_loop]
      split
      · simp [Settled]
      · have hE := ihe tk (by omega)
        cases he : CSON_parse_element n tk with
        | error f =>
          simp only [Settled]; intro h; simp at h; subst h; exact hE he
        | ok p =>
          obtain ⟨res, tk1⟩ := p
          cases res with
          | CSON_ERROR => simp [Settled]
          | CSON_SUCCES key =>
            have h1 := (parse_progress n).1 _ _ _ he
            cases key with
            | String key =>
              simp only
              cases hc : CSON_Tokenizer_consume tk1 with
              | error f =>
                simp only [Settled]; intro h; simp at h; subst h; exact consume_ne_fuel _ hc
              | ok q =>
                obtain ⟨t2, tk2⟩ := q
                obtain ⟨-, hle, -⟩ := consume_ok hc
                simp only
                split
                · simp [Settled]
                · have hE2 := ihe tk2 (by omega)
                  cases he2 : CSON_parse_element n tk2 with
                  | error f =>
                    simp only [Settled]; intro h; simp at h; subst h; exact hE2 he2
                  | ok p2 =>
                    obtain ⟨res2, tk3⟩ := p2
                    cases res2 with
                    | CSON_ERROR => simp [Settled]
                    | CSON_SUCCES value =>
                      have h2 := (parse_progress n).1 _ _ _ he2
                      simp only
                      cases hins : CSON_Object_insert o key value with
                      | error f =>
                        simp only [Settled]; intro h; simp at h; subst h
                        exact insert_ne_fuel _ _ _ hins
                      | ok o2 =>
                        simp only
                        cases hc3 : CSON_Tokenizer_consume tk3 with
                        | error f =>
                          simp only [Settled]; intro h; simp at h; subst h
                          exact consume_ne_fuel _ hc3
                        | ok q3 =>
                          obtain ⟨t3, tk4⟩ := q3
                          obtain ⟨-, hle3, -⟩ := consume_ok hc3
                          simp only
                          cases ht : t3.type <;> simp only []
                          case COMMA => exact ihol _ _ _ (by omega)
                          case CURLY_CLOSE => exact ihol _ _ _ (by omega)
                          all_goals simp [Settled]
            | _ => simp [Settled]


/-! ### Runs of the parser, free of the recursion budget -/

theorem element_enough {tk : CSON_Tokenizer} {r : CSON_Result × CSON_Tokenizer}
    (h : ElementReturns tk r) (fuel : Nat) (hf : 3 * tk.sv.str.length + 1 ≤ fuel) :
    CSON_parse_element fuel tk = .ok r := by
  obtain ⟨f0, h0⟩ := h
  have hs := (fuel_enough fuel).1 tk hf
  rcases Nat.le_total f0 fuel with hle | hle
  · exact element_mono h0 hle
  · obtain ⟨k, rfl⟩ := Nat.exists_eq_add_of_le hle
    rw [(fuel_add fuel k).1 tk hs] at h0
    exact h0

theorem array_enough {tk : CSON_Tokenizer} {r : CSON_Result × CSON_Tokenizer}
    (h : ArrayReturns tk r) (fuel : Nat) (hf : 3 * tk.sv.str.length + 3 ≤ fuel) :
    CSON_parse_array fuel tk = .ok r := by
  obtain ⟨f0, h0⟩ := h
  have hs := (fuel_enough fuel).2.1 tk hf
  rcases Nat.le_total f0 fuel with hle | hle
  · exact array_mono h0 hle
  · obtain ⟨k, rfl⟩ := Nat.exists_eq_add_of_le hle
    rw [(fuel_add fuel k).2.1 tk hs] at h0
    exact h0

theorem object_enough {tk : CSON_Tokenizer} {r : CSON_Result × CSON_Tokenizer}
    (h : ObjectReturns tk r) (fuel : Nat) (hf : 3 * tk.sv.str.length + 3 ≤ fuel) :
    CSON_parse_object fuel tk = .ok r := by
  obtain ⟨f0, h0⟩ := h
  have hs := (fuel_enough fuel).2.2.2.1 tk hf
  rcases Nat.le_total f0 fuel with hle | hle
  · exact object_mono h0 hle
  · obtain ⟨k, rfl⟩ := Nat.exists_eq_add_of_le hle
    rw [(fuel_add fuel k).2.2.2.1 tk hs] at h0
    exact h0

theorem parse_of_element {text : List Nat} {res : CSON_Result} {tk1 : CSON_Tokenizer}
    (h : ElementReturns (CSON_Tokenizer_new text) (res, tk1)) :
    CSON_parse text = .ok res := by
  have := element_enough h (enoughFuel text) (by simp [enoughFuel, CSON_Tokenizer_new,
    CSON_SV_init])
  simp [CSON_parse, this]

theorem element_of_parse {text : List Nat} {res : CSON_Result}
    (h : CSON_parse text = .ok res) :
    ∃ tk1, CSON_parse_element (enoughFuel text) (CSON_Tokenizer_new text) = .ok (res, tk1) := by
  unfold CSON_parse at h
  simp only at h
  cases he : CSON_parse_element (enoughFuel text) (CSON_Tokenizer_new text) with
  | error f => simp [he] at h
  | ok p =>
    obtain ⟨r, tk1⟩ := p
    simp [he] at h
    subst h
    exact ⟨tk1, rfl⟩

theorem elem_string {tk tk1 : CSON_Tokenizer} {tok : CSON_Token}
    (hc : CSON_Tokenizer_consume tk = .ok (tok, tk1)) (ht : tok.type = .STRING) :
    ElementReturns tk (.CSON_SUCCES (.String (CSON_String_from_sv tok.sv)), tk1) :=
  ⟨1, by rw [CSON_parse_element]; simp only [hc, ht]⟩

theorem elem_number {tk tk1 : CSON_Tokenizer} {tok : CSON_Token}
    (hc : CSON_Tokenizer_consume tk = .ok (tok, tk1)) (ht : tok.type = .NUMBER) :
    ElementReturns tk (.CSON_SUCCES (CSON_Number_new { src := tok.sv.str }), tk1) :=
  ⟨1, by rw [CSON_parse_element]; simp only [hc, ht]⟩

theorem elem_array {tk tk1 : CSON_Tokenizer} {tok : CSON_Token}
    {r : CSON_Result × CSON_Tokenizer}
    (hc : CSON_Tokenizer_consume tk = .ok (tok, tk1)) (ht : tok.type = .SQUARE_OPEN)
    (h : ArrayReturns tk1 r) : ElementReturns tk r := by
  obtain ⟨f, hf⟩ := h
  exact ⟨f + 1, by rw [CSON_parse_element]; simp only [hc, ht, hf]⟩

theorem elem_object {tk tk1 : CSON_Tokenizer} {tok : CSON_Token}
    {r : CSON_Result × CSON_Tokenizer}
    (hc : CSON_Tokenizer_consume tk = .ok (tok, tk1)) (ht : tok.type = .CURLY_OPEN)
    (h : ObjectReturns tk1 r) : ElementReturns tk r := by
  obtain ⟨f, hf⟩ := h
  exact ⟨f + 1, by rw [CSON_parse_element]; simp only [hc, ht, hf]⟩

/-- A token that opens no element makes `CSON_parse_element` return `CSON_ERROR`. -/
theorem elem_error {tk tk1 : CSON_Tokenizer} {tok : CSON_Token}
    (hc : CSON_Tokenizer_consume tk = .ok (tok, tk1))
    (ht : tok.type ≠ .CURLY_OPEN ∧ tok.type ≠ .SQUARE_OPEN ∧ tok.type ≠ .STRING ∧
      tok.type ≠ .NUMBER ∧ tok.type ≠ .WORD) (fuel : Nat) :
    CSON_parse_element (fuel + 1) tk = .ok (.CSON_ERROR, tk1) := by
  rw [CSON_parse_element]
  simp only [hc]
  obtain ⟨h1, h2, h3, h4, h5⟩ := ht
  cases h : tok.type <;> simp_all

theorem array_empty {tk tk1 : CSON_Tokenizer} {tok t2 : CSON_Token}
    (hp : CSON_Tokenizer_peek tk = .ok tok) (ht : tok.type = .SQUARE_CLOSE)
    (hc : CSON_Tokenizer_consume tk = .ok (t2, tk1)) :
    ArrayReturns tk (.CSON_SUCCES (.Array CSON_Array_new), tk1) :=
  ⟨2, by rw [CSON_parse_array]; simp only [hp, ht, if_true, hc]; rw [CSON_parse_array_loop];
         simp only [ht, if_true]⟩

theorem array_open {tk : CSON_Tokenizer} {tok : CSON_Token}
    {r : CSON_Result × CSON_Tokenizer}
    (hp : CSON_Tokenizer_peek tk = .ok tok) (ht : tok.type ≠ .SQUARE_CLOSE)
    (h : ArrayLoopReturns CSON_Array_new tok tk r) : ArrayReturns tk r := by
  obtain ⟨f, hf⟩ := h
  exact ⟨f + 1, by rw [CSON_parse_array]; simp only [hp, ht, if_false, hf]⟩

theorem loop_close (a : CVec CSON) {tok : CSON_Token} (tk : CSON_Tokenizer)
    (ht : tok.type = .SQUARE_CLOSE) :
    ArrayLoopReturns a tok tk (.CSON_SUCCES (.Array a), tk) :=
  ⟨1, by rw [CSON_parse_array_loop]; simp only [ht, if_true]⟩

theorem loop_elem_error {a : CVec CSON} {tok : CSON_Token} {tk tk1 : CSON_Tokenizer}
    (ht : tok.type ≠ .SQUARE_CLOSE) (he : ElementReturns tk (.CSON_ERROR, tk1)) :
    ArrayLoopReturns a tok tk (.CSON_ERROR, tk1) := by
  obtain ⟨f, hf⟩ := he
  exact ⟨f + 1, by rw [CSON_parse_array_loop]; simp only [ht, if_false, hf]⟩

theorem loop_next {a a2 : CVec CSON} {tok t2 : CSON_Token} {tk tk1 tk2 : CSON_Tokenizer}
    {v : CSON} {r : CSON_Result × CSON_Tokenizer}
    (ht : tok.type ≠ .SQUARE_CLOSE) (he : ElementReturns tk (.CSON_SUCCES v, tk1))
    (ha : CSON_Array_append a v = .ok a2)
    (hc : CSON_Tokenizer_consume tk1 = .ok (t2, tk2))
    (h2 : t2.type = .COMMA ∨ t2.type = .SQUARE_CLOSE)
    (h : ArrayLoopReturns a2 t2 tk2 r) : ArrayLoopReturns a tok tk r := by
  obtain ⟨f1, hf1⟩ := he
  obtain ⟨f2, hf2⟩ := h
  refine ⟨max f1 f2 + 1, ?_⟩
  rw [CSON_parse_array_loop]
  simp only [ht, if_false, element_mono hf1 (Nat.le_max_left f1 f2), ha, hc]
  rcases h2 with h2 | h2 <;> simp only [h2] <;>
    exact array_loop_mono hf2 (Nat.le_max_right f1 f2)

theorem loop_bad_sep {a a2 : CVec CSON} {tok t2 : CSON_Token} {tk tk1 tk2 : CSON_Tokenizer}
    {v : CSON}
    (ht : tok.type ≠ .SQUARE_CLOSE) (he : ElementReturns tk (.CSON_SUCCES v, tk1))
    (ha : CSON_Array_append a v = .ok a2)
    (hc : CSON_Tokenizer_consume tk1 = .ok (t2, tk2))
    (h2 : t2.type ≠ .COMMA ∧ t2.type ≠ .SQUARE_CLOSE) :
    ArrayLoopReturns a tok tk (.CSON_ERROR, tk2) := by
  obtain ⟨f1, hf1⟩ := he
  refine ⟨f1 + 1, ?_⟩
  rw [CSON_parse_array_loop]
  simp only [ht, if_false, hf1, ha, hc]
  obtain ⟨h3, h4⟩ := h2
  cases h : t2.type <;> simp_all

/-- `CSON_parse` is never cut short by the recursion budget. -/
theorem parse_settled (text : List Nat) : CSON_parse text ≠ .error .fuel := by
  have hs := (fuel_enough (enoughFuel text)).1 (CSON_Tokenizer_new text)
    (by simp [enoughFuel, CSON_Tokenizer_new, CSON_SV_init])
  unfold CSON_parse
  simp only
  cases he : CSON_parse_element (enoughFuel text) (CSON_Tokenizer_new text) with
  | error f =>
    simp only
    intro h
    simp at h
    subst h
    exact hs he
  | ok p => simp


theorem object_empty {tk tk1 : CSON_Tokenizer} {tok t2 : CSON_Token}
    (hp : CSON_Tokenizer_peek tk = .ok tok) (ht : tok.type = .CURLY_CLOSE)
    (hc : CSON_Tokenizer_consume tk = .ok (t2, tk1)) :
    ObjectReturns tk (.CSON_SUCCES (.Object CSON_Object_new.1 CSON_Object_new.2), tk1) :=
  ⟨2, by rw [CSON_parse_object]; simp only [hp, ht, if_true, hc]; rw [CSON_parse_object_loop];
         simp only [ht, if_true]⟩

theorem object_open {tk : CSON_Tokenizer} {tok : CSON_Token}
    {r : CSON_Result × CSON_Tokenizer}
    (hp : CSON_Tokenizer_peek tk = .ok tok) (ht : tok.type ≠ .CURLY_CLOSE)
    (h : ObjectLoopReturns CSON_Object_new tok tk r) : ObjectReturns tk r := by
  obtain ⟨f, hf⟩ := h
  exact ⟨f + 1, by rw [CSON_parse_object]; simp only [hp, ht, if_false, hf]⟩

theorem oloop_close (o : CVec CSON_String × CVec CSON) {tok : CSON_Token}
    (tk : CSON_Tokenizer) (ht : tok.type = .CURLY_CLOSE) :
    ObjectLoopReturns o tok tk (.CSON_SUCCES (.Object o.1 o.2), tk) :=
  ⟨1, by rw [CSON_parse_object_loop]; simp only [ht, if_true]⟩

theorem oloop_key_error {o : CVec CSON_String × CVec CSON} {tok : CSON_Token}
    {tk tk1 : CSON_Tokenizer}
    (ht : tok.type ≠ .CURLY_CLOSE) (he : ElementReturns tk (.CSON_ERROR, tk1)) :
    ObjectLoopReturns o tok tk (.CSON_ERROR, tk1) := by
  obtain ⟨f, hf⟩ := he
  exact ⟨f + 1, by rw [CSON_parse_object_loop]; simp only [ht, if_false, hf]⟩

/-- A key that parses to a value other than a string ends the object loop in
`PARSE_ERROR`. -/
theorem oloop_key_not_string {o : CVec CSON_String × CVec CSON} {tok : CSON_Token}
    {tk tk1 : CSON_Tokenizer} {v : CSON}
    (ht : tok.type ≠ .CURLY_CLOSE) (he : ElementReturns tk (.CSON_SUCCES v, tk1))
    (hv : v.type ≠ .STRING) :
    ObjectLoopReturns o tok tk (.CSON_ERROR, tk1) := by
  obtain ⟨f, hf⟩ := he
  refine ⟨f + 1, ?_⟩
  rw [CSON_parse_object_loop]
  simp only [ht, if_false, hf]
  cases v with
  | String s => simp [CSON.type] at hv
  | _ => rfl

theorem oloop_no_colon {o : CVec CSON_String × CVec CSON} {tok t2 : CSON_Token}
    {tk tk1 tk2 : CSON_Tokenizer} {key : CSON_String}
    (ht : tok.type ≠ .CURLY_CLOSE) (he : ElementReturns tk (.CSON_SUCCES (.String key), tk1))
    (hc : CSON_Tokenizer_consume tk1 = .ok (t2, tk2)) (h2 : t2.type ≠ .COLON) :
    ObjectLoopReturns o tok tk (.CSON_ERROR, tk2) := by
  obtain ⟨f, hf⟩ := he
  refine ⟨f + 1, ?_⟩
  rw [CSON_parse_object_loop]
  simp only [ht, if_false, hf, hc, ne_eq, h2, not_false_eq_true, if_true]

theorem oloop_value_error {o : CVec CSON_String × CVec CSON} {tok t2 : CSON_Token}
    {tk tk1 tk2 tk3 : CSON_Tokenizer} {key : CSON_String}
    (ht : tok.type ≠ .CURLY_CLOSE) (he : ElementReturns tk (.CSON_SUCCES (.String key), tk1))
    (hc : CSON_Tokenizer_consume tk1 = .ok (t2, tk2)) (h2 : t2.type = .COLON)
    (hv : ElementReturns tk2 (.CSON_ERROR, tk3)) :
    ObjectLoopReturns o tok tk (.CSON_ERROR, tk3) := by
  obtain ⟨f1, hf1⟩ := he
  obtain ⟨f2, hf2⟩ := hv
  refine ⟨max f1 f2 + 1, ?_⟩
  rw [CSON_parse_object_loop]
  simp only [ht, if_false, element_mono hf1 (Nat.le_max_left f1 f2), hc, h2, ne_eq,
    not_true_eq_false, element_mono hf2 (Nat.le_max_right f1 f2)]

theorem oloop_next {o o2 : CVec CSON_String × CVec CSON} {tok t2 t4 : CSON_Token}
    {tk tk1 tk2 tk3 tk4 : CSON_Tokenizer} {key : CSON_String} {v : CSON}
    {r : CSON_Result × CSON_Tokenizer}
    (ht : tok.type ≠ .CURLY_CLOSE) (he : ElementReturns tk (.CSON_SUCCES (.String key), tk1))
    (hc : CSON_Tokenizer_consume tk1 = .ok (t2, tk2)) (h2 : t2.type = .COLON)
    (hv : ElementReturns tk2 (.CSON_SUCCES v, tk3))
    (hi : CSON_Object_insert o key v = .ok o2)
    (hc4 : CSON_Tokenizer_consume tk3 = .ok (t4, tk4))
    (h4 : t4.type = .COMMA ∨ t4.type = .CURLY_CLOSE)
    (h : ObjectLoopReturns o2 t4 tk4 r) : ObjectLoopReturns o tok tk r := by
  obtain ⟨f1, hf1⟩ := he
  obtain ⟨f2, hf2⟩ := hv
  obtain ⟨f3, hf3⟩ := h
  refine ⟨max (max f1 f2) f3 + 1, ?_⟩
  rw [CSON_parse_object_loop]
  simp only [ht, if_false, element_mono hf1 (by omega : f1 ≤ max (max f1 f2) f3), hc, h2,
    ne_eq, not_true_eq_false, element_mono hf2 (by omega : f2 ≤ max (max f1 f2) f3), hi, hc4]
  rcases h4 with h4 | h4 <;> simp only [h4] <;>
    exact object_loop_mono hf3 (by omega)

theorem oloop_bad_sep {o o2 : CVec CSON_String × CVec CSON} {tok t2 t4 : CSON_Token}
    {tk tk1 tk2 tk3 tk4 : CSON_Tokenizer} {key : CSON_String} {v : CSON}
    (ht : tok.type ≠ .CURLY_CLOSE) (he : ElementReturns tk (.CSON_SUCCES (.String key), tk1))
    (hc : CSON_Tokenizer_consume tk1 = .ok (t2, tk2)) (h2 : t2.type = .COLON)
    (hv : ElementReturns tk2 (.CSON_SUCCES v, tk3))
    (hi : CSON_Object_insert o key v = .ok o2)
    (hc4 : CSON_Tokenizer_consume tk3 = .ok (t4, tk4))
    (h4 : t4.type ≠ .COMMA ∧ t4.type ≠ .CURLY_CLOSE) :
    ObjectLoopReturns o tok tk (.CSON_ERROR, tk4) := by
  obtain ⟨f1, hf1⟩ := he
  obtain ⟨f2, hf2⟩ := hv
  refine ⟨max f1 f2 + 1, ?_⟩
  rw [CSON_parse_object_loop]
  simp only [ht, if_false, element_mono hf1 (Nat.le_max_left f1 f2), hc, h2,
    ne_eq, not_true_eq_false, element_mono hf2 (Nat.le_max_right f1 f2), hi, hc4]
  obtain ⟨h5, h6⟩ := h4
  cases h : t4.type <;> simp_all


/-! ### Buffers, arrays and objects built through the API -/

theorem init_holds {α : Type} (size cap : Nat) (h : 0 < cap) :
    (CVec_init size cap : CVec α).Holds [] := by
  simp [CVec.Holds, CVec_init, h]

theorem push_holds {α : Type} {vec : CVec α} {xs : List α} (h : vec.Holds xs) (x : α) :
    ∃ vec1, CVec_push_back vec x = .ok vec1 ∧ vec1.Holds (xs ++ [x]) := by
  obtain ⟨hcap, hle, hcount, hdata⟩ := h
  by_cases hfull : vec.element_count = vec.element_capacity
  · refine ⟨_, push_back_full vec x hfull hcap, ?_⟩
    simp only [CVec.Holds, CVec_store, hdata, List.length_append, List.length_singleton]
    refine ⟨by omega, by omega, by omega, ?_⟩
    rw [if_neg (by omega)]
  · have hlt : vec.element_count < vec.element_capacity := by omega
    refine ⟨_, push_back_room vec x hlt, ?_⟩
    simp only [CVec.Holds, CVec_store, hdata, List.length_append, List.length_singleton]
    refine ⟨by omega, by omega, by omega, ?_⟩
    rw [if_neg (by omega)]

theorem get_holds {α : Type} {vec : CVec α} {xs : List α} (h : vec.Holds xs) (i : Nat) :
    CVec_get vec i = xs[i]? := by
  obtain ⟨-, -, hcount, hdata⟩ := h
  unfold CVec_get
  by_cases hi : i ≥ vec.element_count
  · rw [if_pos hi, List.getElem?_eq_none (by omega)]
  · rw [if_neg hi, hdata]

theorem array_new_holds : CSON_Array_new.Holds [] :=
  init_holds _ _ (by decide)

theorem appendAll_holds (vs : List CSON) : ∀ (array : CVec CSON) (pre : List CSON),
    array.Holds pre → ∃ array1, appendAll vs array = .ok array1 ∧ array1.Holds (pre ++ vs) := by
  induction vs with
  | nil => intro array pre h; exact ⟨array, rfl, by simpa using h⟩
  | cons v vs ih =>
    intro array pre h
    obtain ⟨a1, h1, h2⟩ := push_holds h v
    obtain ⟨a2, h3, h4⟩ := ih a1 (pre ++ [v]) h2
    refine ⟨a2, ?_, by simpa using h4⟩
    simp only [appendAll, CSON_Array_append, h1, h3]

/-- C7: for the array built from `CSON_Array_new` by appending `v_0 .. v_{n-1}`,
`CSON_get_by_index` returns `v_i` at every index `i < n` and the NULL pointer at every
index `i >= n`, never halting; the array keeps exactly the `n` values. -/
theorem C7_get_by_index_of_appended (vs : List CSON) :
    ∃ array, appendAll vs CSON_Array_new = .ok array ∧
      array.element_count = vs.length ∧
      (∀ i (h : i < vs.length), CSON_get_by_index (.Array array) i = .ok (some vs[i])) ∧
      (∀ i, vs.length ≤ i → CSON_get_by_index (.Array array) i = .ok none) := by
  obtain ⟨array, h1, h2⟩ := appendAll_holds vs CSON_Array_new [] array_new_holds
  simp only [List.nil_append] at h2
  refine ⟨array, h1, h2.2.2.1, ?_, ?_⟩
  · intro i hi
    simp only [CSON_get_by_index, get_holds h2, List.getElem?_eq_getElem hi]
  · intro i hi
    simp only [CSON_get_by_index, get_holds h2, List.getElem?_eq_none hi]

theorem object_new_holds : CSON_Object_new.1.Holds [] ∧ CSON_Object_new.2.Holds [] :=
  ⟨init_holds _ _ (by decide), init_holds _ _ (by decide)⟩

theorem insert_holds {o : CVec CSON_String × CVec CSON} {ks : List CSON_String}
    {vs : List CSON} (h : o.1.Holds ks ∧ o.2.Holds vs) (k : CSON_String) (v : CSON) :
    ∃ o1, CSON_Object_insert o k v = .ok o1 ∧
      o1.1.Holds (ks ++ [k]) ∧ o1.2.Holds (vs ++ [v]) := by
  obtain ⟨k1, hk1, hk2⟩ := push_holds h.1 k
  obtain ⟨d1, hd1, hd2⟩ := push_holds h.2 v
  exact ⟨(k1, d1), by simp only [CSON_Object_insert, hk1, hd1], hk2, hd2⟩

theorem insertAll_holds (kvs : List (CSON_String × CSON)) :
    ∀ (o : CVec CSON_String × CVec CSON) (ks : List CSON_String) (vs : List CSON),
    o.1.Holds ks ∧ o.2.Holds vs →
    ∃ o1, insertAll kvs o = .ok o1 ∧
      o1.1.Holds (ks ++ kvs.map Prod.fst) ∧ o1.2.Holds (vs ++ kvs.map Prod.snd) := by
  induction kvs with
  | nil => intro o ks vs h; exact ⟨o, rfl, by simpa using h⟩
  | cons kv kvs ih =>
    intro o ks vs h
    obtain ⟨k, v⟩ := kv
    obtain ⟨o1, h1, h2⟩ := insert_holds h k v
    obtain ⟨o2, h3, h4⟩ := ih o1 _ _ h2
    refine ⟨o2, ?_, by simpa using h4⟩
    simp only [insertAll, h1, h3]

theorem strlen_of_no_nul {key : List Nat} (h : 0 ∉ key) : strlen key = key.length := by
  unfold strlen
  rw [List.takeWhile_eq_self_iff.2]
  intro x hx
  have : x ≠ 0 := fun h0 => h (h0 ▸ hx)
  simpa using this

theorem sv_new_of_no_nul {key : List Nat} (h : 0 ∉ key) :
    CSON_SV_new key = ⟨key, key.length⟩ := by
  simp [CSON_SV_new, strlen_of_no_nul h]

theorem sv_eq_new {key : List Nat} (h : 0 ∉ key) (k : CSON_String) :
    CSON_SV_eq (CSON_SV_new key) k.sv = keyIs key k := by
  rw [sv_new_of_no_nul h]
  simp only [CSON_SV_eq, keyIs, CSON_SV.bytes, List.take_length]
  by_cases hl : k.sv.len = key.length
  · simp [hl, eq_comm]
  · have : key.length ≠ k.sv.len := fun h => hl h.symm
    simp [hl, this]

/-- The scan of `CSON_get_by_key` from index `i` finds the first later entry whose key
matches. -/
theorem get_by_key_loop_spec {keys : CVec CSON_String} {data : CVec CSON}
    {kvs : List (CSON_String × CSON)}
    (hk : keys.Holds (kvs.map Prod.fst)) (hd : data.Holds (kvs.map Prod.snd))
    {key : List Nat} (h0 : 0 ∉ key) :
    ∀ (n i : Nat), i + n = kvs.length →
      CSON_get_by_key_loop keys data (CSON_SV_new key) n i =
        .ok (((kvs.drop i).find? (fun kv => keyIs key kv.1)).map Prod.snd) := by
  intro n
  induction n with
  | zero =>
    intro i hi
    simp only [CSON_get_by_key_loop]
    rw [List.drop_of_length_le (by omega)]
    rfl
  | succ n ih =>
    intro i hi
    have hlt : i < kvs.length := by omega
    simp only [CSON_get_by_key_loop, get_holds hk, get_holds hd]
    rw [List.getElem?_eq_getElem (by simpa using hlt)]
    simp only [List.getElem_map, sv_eq_new h0]
    rw [List.drop_eq_getElem_cons hlt, List.find?_cons]
    by_cases hm : keyIs key kvs[i].1 = true
    · simp [hm, List.getElem?_eq_getElem hlt]
    · simp only [hm]
      exact ih (i + 1) (by omega)

/-- C6: for the object built from `CSON_Object_new` by the inserts `(k_1,v_1) .. (k_n,v_n)`
(all `n` pairs are kept, duplicates included), `CSON_get_by_key` with a C string `key`
returns the value of the first pair whose key equals `key` byte-wise, and the NULL pointer
when no key does; it never halts. -/
theorem C6_get_by_key_first_match (kvs : List (CSON_String × CSON)) (key : List Nat)
    (h0 : 0 ∉ key) :
    ∃ object, insertAll kvs CSON_Object_new = .ok object ∧
      object.1.element_count = kvs.length ∧ object.2.element_count = kvs.length ∧
      CSON_get_by_key (.Object object.1 object.2) key =
        .ok ((kvs.find? (fun kv => keyIs key kv.1)).map Prod.snd) := by
  obtain ⟨o, h1, hk, hd⟩ := insertAll_holds kvs CSON_Object_new [] [] object_new_holds
  simp only [List.nil_append] at hk hd
  refine ⟨o, h1, by simpa using hk.2.2.1, by simpa using hd.2.2.1, ?_⟩
  simp only [CSON_get_by_key]
  have := get_by_key_loop_spec hk hd h0 kvs.length 0 (by simp)
  rw [hk.2.2.1]
  simpa using this

theorem C6_get_by_key_first_match_witness :
    0 ∉ cstr "a" ∧
    ∃ object, insertAll duplicatePairs CSON_Object_new = .ok object ∧
      object.1.element_count = duplicatePairs.length ∧
      object.2.element_count = duplicatePairs.length ∧
      CSON_get_by_key (.Object object.1 object.2) (cstr "a") =
        .ok ((duplicatePairs.find? (fun kv => keyIs (cstr "a") kv.1)).map Prod.snd) :=
  ⟨by decide, C6_get_by_key_first_match duplicatePairs (cstr "a") (by decide)⟩


/-! ### The variant of a parsed value -/

theorem identify_cases (c : Nat) :
    (CSON_Tokenizer_identify_token_type c = .WS ∧ (c = 32 ∨ c = 9 ∨ c = 10 ∨ c = 13)) ∨
    (CSON_Tokenizer_identify_token_type c = .CURLY_OPEN ∧ c = 123) ∨
    (CSON_Tokenizer_identify_token_type c = .CURLY_CLOSE ∧ c = 125) ∨
    (CSON_Tokenizer_identify_token_type c = .SQUARE_OPEN ∧ c = 91) ∨
    (CSON_Tokenizer_identify_token_type c = .SQUARE_CLOSE ∧ c = 93) ∨
    (CSON_Tokenizer_identify_token_type c = .COMMA ∧ c = 44) ∨
    (CSON_Tokenizer_identify_token_type c = .COLON ∧ c = 58) ∨
    (CSON_Tokenizer_identify_token_type c = .STRING ∧ c = 34) ∨
    (CSON_Tokenizer_identify_token_type c = .EOF ∧ c = 0) ∨
    (CSON_Tokenizer_identify_token_type c = .NUMBER ∧ ((48 ≤ c ∧ c ≤ 57) ∨ c = 45)) ∨
    (CSON_Tokenizer_identify_token_type c = .WORD ∧
      c ≠ 32 ∧ c ≠ 9 ∧ c ≠ 10 ∧ c ≠ 13 ∧ c ≠ 123 ∧ c ≠ 125 ∧ c ≠ 91 ∧ c ≠ 93 ∧ c ≠ 44 ∧
      c ≠ 58 ∧ c ≠ 34 ∧ c ≠ 0 ∧ c ≠ 45 ∧ ¬ (48 ≤ c ∧ c ≤ 57)) := by
  unfold CSON_Tokenizer_identify_token_type
  by_cases h1 : c = 32 ∨ c = 9 ∨ c = 10 ∨ c = 13
  · rw [if_pos h1]; exact Or.inl ⟨rfl, h1⟩
  rw [if_neg h1]
  by_cases h2 : c = 123
  · rw [if_pos h2]; exact Or.inr (Or.inl ⟨rfl, h2⟩)
  rw [if_neg h2]
  by_cases h3 : c = 125
  · rw [if_pos h3]; exact Or.inr (Or.inr (Or.inl ⟨rfl, h3⟩))
  rw [if_neg h3]
  by_cases h4 : c = 91
  · rw [if_pos h4]; exact Or.inr (Or.inr (Or.inr (Or.inl ⟨rfl, h4⟩)))
  rw [if_neg h4]
  by_cases h5 : c = 93
  · rw [if_pos h5]; exact Or.inr (Or.inr (Or.inr (Or.inr (Or.inl ⟨rfl, h5⟩))))
  rw [if_neg h5]
  by_cases h6 : c = 44
  · rw [if_pos h6]; exact Or.inr (Or.inr (Or.inr (Or.inr (Or.inr (Or.inl ⟨rfl, h6⟩)))))
  rw [if_neg h6]
  by_cases h7 : c = 58
  · rw [if_pos h7]
    exact Or.inr (Or.inr (Or.inr (Or.inr (Or.inr (Or.inr (Or.inl ⟨rfl, h7⟩))))))
  rw [if_neg h7]
  by_cases h8 : c = 34
  · rw [if_pos h8]
    exact Or.inr (Or.inr (Or.inr (Or.inr (Or.inr (Or.inr (Or.inr (Or.inl ⟨rfl, h8⟩)))))))
  rw [if_neg h8]
  by_cases h9 : c = 0
  · rw [if_pos h9]
    exact Or.inr (Or.inr (Or.inr (Or.inr (Or.inr (Or.inr (Or.inr (Or.inr
      (Or.inl ⟨rfl, h9⟩))))))))
  rw [if_neg h9]
  by_cases h10 : (48 ≤ c ∧ c ≤ 57) ∨ c = 45
  · rw [if_pos h10]
    exact Or.inr (Or.inr (Or.inr (Or.inr (Or.inr (Or.inr (Or.inr (Or.inr
      (Or.inr (Or.inl ⟨rfl, h10⟩)))))))))
  rw [if_neg h10]
  have h11 : (65 ≤ c ∧ c ≤ 90) ∨ (97 ≤ c ∨ c ≤ 122) := by omega
  rw [if_pos h11]
  refine Or.inr (Or.inr (Or.inr (Or.inr (Or.inr (Or.inr (Or.inr (Or.inr
      (Or.inr (Or.inr ⟨rfl, ?_⟩)))))))))
  omega

theorem array_loop_variant : ∀ (fuel : Nat) (a : CVec CSON) (t : CSON_Token)
    (tk : CSON_Tokenizer) (v : CSON) (tk1 : CSON_Tokenizer),
    CSON_parse_array_loop fuel a t tk = .ok (.CSON_SUCCES v, tk1) → v.type = .ARRAY := by
  intro fuel
  induction fuel with
  | zero => intro a t tk v tk1 h; simp [CSON_parse_array_loop] at h
  | succ n ih =>
    intro a t tk v tk1 h
    rw [CSON_parse_array_loop] at h
    split at h
    · simp at h; rw [← h.1]; rfl
    · cases he : CSON_parse_element n tk with
      | error f => simp [he] at h
      | ok p =>
        obtain ⟨res, tk2⟩ := p
        simp only [he] at h
        cases res with
        | CSON_ERROR => simp at h
        | CSON_SUCCES value =>
          simp only at h
          cases hap : CSON_Array_append a value with
          | error f => simp [hap] at h
          | ok a2 =>
            simp only [hap] at h
            cases hc : CSON_Tokenizer_consume tk2 with
            | error f => simp [hc] at h
            | ok q =>
              obtain ⟨t2, tk3⟩ := q
              simp only [hc] at h
              cases ht : t2.type <;> simp only [ht] at h
              case COMMA => exact ih _ _ _ _ _ h
              case SQUARE_CLOSE => exact ih _ _ _ _ _ h
              all_goals simp at h

theorem array_variant {fuel : Nat} {tk tk1 : CSON_Tokenizer} {v : CSON}
    (h : CSON_parse_array fuel tk = .ok (.CSON_SUCCES v, tk1)) : v.type = .ARRAY := by
  cases fuel with
  | zero => simp [CSON_parse_array] at h
  | succ n =>
    rw [CSON_parse_array] at h
    cases hp : CSON_Tokenizer_peek tk with
    | error f => simp [hp] at h
    | ok token =>
      simp only [hp] at h
      split at h
      · cases hc : CSON_Tokenizer_consume tk with
        | error f => simp [hc] at h
        | ok p =>
          obtain ⟨t2, tk2⟩ := p
          simp only [hc] at h
          exact array_loop_variant _ _ _ _ _ _ h
      · exact array_loop_variant _ _ _ _ _ _ h

theorem object_loop_variant : ∀ (fuel : Nat) (o : CVec CSON_String × CVec CSON)
    (t : CSON_Token) (tk : CSON_Tokenizer) (v : CSON) (tk1 : CSON_Tokenizer),
    CSON_parse_object_loop fuel o t tk = .ok (.CSON_SUCCES v, tk1) → v.type = .OBJECT := by
  intro fuel
  induction fuel with
  | zero => intro o t tk v tk1 h; simp [CSON_parse_object_loop] at h
  | succ n ih =>
    intro o t tk v tk1 h
    rw [CSON_parse_object_loop] at h
    split at h
    · simp at h; rw [← h.1]; rfl
    · cases he : CSON_parse_element n tk with
      | error f => simp [he] at h
      | ok p =>
        obtain ⟨res, tk2⟩ := p
        simp only [he] at h
        cases res with
        | CSON_ERROR => simp at h
        | CSON_SUCCES key =>
          cases key with
          | String key =>
            simp only at h
            cases hc : CSON_Tokenizer_consume tk2 with
            | error f => simp [hc] at h
            | ok q =>
              obtain ⟨t2, tk3⟩ := q
              simp only [hc] at h
              split at h
              · simp at h
              · cases he2 : CSON_parse_element n tk3 with
                | error f => simp [he2] at h
                | ok p2 =>
                  obtain ⟨res2, tk4⟩ := p2
                  simp only [he2] at h
                  cases res2 with
                  | CSON_ERROR => simp at h
                  | CSON_SUCCES value =>
                    simp only at h
                    cases hins : CSON_Object_insert o key value with
                    | error f => simp [hins] at h
                    | ok o2 =>
                      simp only [hins] at h
                      cases hc3 : CSON_Tokenizer_consume tk4 with
                      | error f => simp [hc3] at h
                      | ok q3 =>
                        obtain ⟨t3, tk5⟩ := q3
                        simp only [hc3] at h
                        cases ht : t3.type <;> simp only [ht] at h
                        case COMMA => exact ih _ _ _ _ _ h
                        case CURLY_CLOSE => exact ih _ _ _ _ _ h
                        all_goals simp at h
          | _ => simp at h

theorem object_variant {fuel : Nat} {tk tk1 : CSON_Tokenizer} {v : CSON}
    (h : CSON_parse_object fuel tk = .ok (.CSON_SUCCES v, tk1)) : v.type = .OBJECT := by
  cases fuel with
  | zero => simp [CSON_parse_object] at h
  | succ n =>
    rw [CSON_parse_object] at h
    cases hp : CSON_Tokenizer_peek tk with
    | error f => simp [hp] at h
    | ok token =>
      simp only [hp] at h
      split at h
      · cases hc : CSON_Tokenizer_consume tk with
        | error f => simp [hc] at h
        | ok p =>
          obtain ⟨t2, tk2⟩ := p
          simp only [hc] at h
          exact object_loop_variant _ _ _ _ _ _ h
      · exact object_loop_variant _ _ _ _ _ _ h

/-- Comparing a view that lies in its buffer with a literal compares the covered bytes. -/
theorem sv_eq_literal {sv : CSON_SV} (hlen : sv.len ≤ sv.str.length) {w : List Nat}
    (h0 : 0 ∉ w) : CSON_SV_eq sv (CSON_SV_init w) = true ↔ sv.bytes = w := by
  simp only [CSON_SV_eq, CSON_SV_init, strlen_of_no_nul h0, CSON_SV.bytes]
  constructor
  · intro h
    by_cases hl : sv.len = w.length
    · simp [hl] at h
      rw [hl]; exact h
    · simp [hl] at h
  · intro h
    have hl : sv.len = w.length := by
      have := congrArg List.length h
      simp only [List.length_take] at this
      omega
    simp [hl]
    rw [← hl]; exact h

/-- The element kinds, by the type of the first token. -/
theorem element_variant {fuel : Nat} {tk tk1 : CSON_Tokenizer} {v : CSON}
    (h : CSON_parse_element fuel tk = .ok (.CSON_SUCCES v, tk1)) :
    ∃ tok, CSON_Tokenizer_peek tk = .ok tok ∧
      ((tok.type = .CURLY_OPEN ∧ v.type = .OBJECT) ∨
       (tok.type = .SQUARE_OPEN ∧ v.type = .ARRAY) ∨
       (tok.type = .STRING ∧ v = .String (CSON_String_from_sv tok.sv)) ∨
       (tok.type = .NUMBER ∧ v = .Number { src := tok.sv.str }) ∨
       (tok.type = .WORD ∧
         ((CSON_SV_eq tok.sv (CSON_SV_init (cstr "true")) = true ∧ v = .Literal .TRUE) ∨
          (CSON_SV_eq tok.sv (CSON_SV_init (cstr "true")) = false ∧
            CSON_SV_eq tok.sv (CSON_SV_init (cstr "false")) = true ∧ v = .Literal .FALSE) ∨
          (CSON_SV_eq tok.sv (CSON_SV_init (cstr "true")) = false ∧
            CSON_SV_eq tok.sv (CSON_SV_init (cstr "false")) = false ∧
            CSON_SV_eq tok.sv (CSON_SV_init (cstr "null")) = true ∧ v = .Literal .NULL)))) := by
  cases fuel with
  | zero => simp [CSON_parse_element] at h
  | succ n =>
    rw [CSON_parse_element] at h
    cases hc : CSON_Tokenizer_consume tk with
    | error f => simp [hc] at h
    | ok p =>
      obtain ⟨tok, tk2⟩ := p
      obtain ⟨hp, -⟩ := consume_ok_iff.1 hc
      refine ⟨tok, hp, ?_⟩
      simp only [hc] at h
      cases ht : tok.type <;> simp only [ht] at h
      case CURLY_OPEN => exact Or.inl ⟨rfl, object_variant h⟩
      case SQUARE_OPEN => exact Or.inr (Or.inl ⟨rfl, array_variant h⟩)
      case STRING => simp at h; simp [h.1]
      case NUMBER => simp [CSON_Number_new] at h; simp [h.1]
      case WORD =>
        simp only [CSON_Literal_new] at h
        by_cases h1 : CSON_SV_eq tok.sv (CSON_SV_init (cstr "true")) = true
        · simp [h1] at h; simp [h1, h.1]
        · by_cases h2 : CSON_SV_eq tok.sv (CSON_SV_init (cstr "false")) = true
          · simp [h1, h2] at h; simp [h1, h2, h.1]
          · by_cases h3 : CSON_SV_eq tok.sv (CSON_SV_init (cstr "null")) = true
            · simp [h1, h2, h3] at h; simp [h1, h2, h3, h.1]
            · simp [h1, h2, h3] at h
      all_goals simp at h


/-- The type of the first token of a text, read off its first byte. -/
theorem peek_head {text : List Nat} {tok : CSON_Token}
    (hp : CSON_Tokenizer_peek (CSON_Tokenizer_new text) = .ok tok) :
    (tok.type = .CURLY_OPEN ↔ text.head? = some 123) ∧
    (tok.type = .SQUARE_OPEN ↔ text.head? = some 91) ∧
    (tok.type = .STRING → text.head? = some 34) ∧
    (text.head? = some 34 → tok.type = .STRING ∨ tok.type = .EOF) ∧
    (tok.type = .NUMBER ↔ ∃ c, text.head? = some c ∧ ((48 ≤ c ∧ c ≤ 57) ∨ c = 45)) ∧
    (tok.type = .WORD → tok.sv.len ≤ tok.sv.str.length) := by
  unfold CSON_Tokenizer_new CSON_SV_init at hp
  cases text with
  | nil =>
    rw [peek_nil] at hp
    simp at hp
    subst hp
    simp
  | cons c rest =>
    rw [peek_cons] at hp
    have hw := scanWord_bound rest 1
    have hstr : CSON_Tokenizer_identify_token_type c = .STRING →
        (match rest with
          | [] => (Except.error Fault.outOfBounds : Except Fault CSON_Token)
          | _ :: rest2 =>
            match scanString rest2 1 with
            | none => .ok ⟨⟨rest, 0⟩, .EOF⟩
            | some i => .ok ⟨⟨rest, i⟩, .STRING⟩) = .ok tok →
        tok.type = .STRING ∨ tok.type = .EOF := by
      intro _ h
      cases rest with
      | nil => simp at h
      | cons d rest2 =>
        simp only at h
        cases hs : scanString rest2 1 <;> simp [hs] at h <;> subst h <;> simp
    rcases identify_cases c with h | h | h | h | h | h | h | h | h | h | h
    all_goals
      obtain ⟨hT, hc⟩ := h
      simp only [hT] at hp
      first
      | (have h2 := hstr hT hp
         rcases h2 with h2 | h2 <;> simp [h2, hc])
      | (simp at hp
         subst hp
         simp
         try omega)

theorem no_nul_true : 0 ∉ cstr "true" := by decide
theorem no_nul_false : 0 ∉ cstr "false" := by decide
theorem no_nul_null : 0 ∉ cstr "null" := by decide

/-- C1: when `CSON_parse` returns success, the variant of the value is the syntactic
category of the text: Object iff the text starts with `{`, Array iff with `[`, String iff
with `"`, Number iff with a digit or `-`, and True / False / Null iff the leading word
token is exactly `true` / `false` / `null`. -/
theorem C1_variant_matches_category (text : List Nat) (v : CSON)
    (h : CSON_parse text = .ok (.CSON_SUCCES v)) :
    (v.type = .OBJECT ↔ text.head? = some 123) ∧
    (v.type = .ARRAY ↔ text.head? = some 91) ∧
    (v.type = .STRING ↔ text.head? = some 34) ∧
    (v.type = .NUMBER ↔ ∃ c, text.head? = some c ∧ ((48 ≤ c ∧ c ≤ 57) ∨ c = 45)) ∧
    (v.type = .TRUE ↔ leadingWord text = some (cstr "true")) ∧
    (v.type = .FALSE ↔ leadingWord text = some (cstr "false")) ∧
    (v.type = .NULL ↔ leadingWord text = some (cstr "null")) := by
  obtain ⟨tk1, he⟩ := element_of_parse h
  obtain ⟨tok, hp, hv⟩ := element_variant he
  obtain ⟨hO, hA, hS1, hS2, hN, hW⟩ := peek_head hp
  have hlw : leadingWord text = if tok.type = .WORD then some tok.sv.bytes else none := by
    simp only [leadingWord, hp]
  rw [hlw, ← hO, ← hA, ← hN]
  have ne1 : cstr "true" ≠ cstr "false" := by decide
  have ne2 : cstr "true" ≠ cstr "null" := by decide
  have ne3 : cstr "false" ≠ cstr "null" := by decide
  rcases hv with ⟨ht, hv⟩ | ⟨ht, hv⟩ | ⟨ht, hv⟩ | ⟨ht, hv⟩ | ⟨ht, hv⟩
  · have hne : ¬ text.head? = some 34 := by
      intro h34; rcases hS2 h34 with h' | h' <;> rw [ht] at h' <;> cases h'
    simp [ht, hv, hne]
  · have hne : ¬ text.head? = some 34 := by
      intro h34; rcases hS2 h34 with h' | h' <;> rw [ht] at h' <;> cases h'
    simp [ht, hv, hne]
  · simp [ht, hv, hS1 ht, CSON.type]
  · have hne : ¬ text.head? = some 34 := by
      intro h34; rcases hS2 h34 with h' | h' <;> rw [ht] at h' <;> cases h'
    simp [ht, hv, hne, CSON.type]
  · have hne : ¬ text.head? = some 34 := by
      intro h34; rcases hS2 h34 with h' | h' <;> rw [ht] at h' <;> cases h'
    have hlen := hW ht
    have e1 := sv_eq_literal hlen no_nul_true
    have e2 := sv_eq_literal hlen no_nul_false
    have e3 := sv_eq_literal hlen no_nul_null
    rcases hv with ⟨h1, hv⟩ | ⟨h1, h2, hv⟩ | ⟨h1, h2, h3, hv⟩
    · have b := e1.1 h1
      simp [ht, hv, hne, CSON.type, b, ne1, ne2]
    · have b := e2.1 h2
      simp [ht, hv, hne, CSON.type, b, ne1.symm, ne3]
    · have b := e3.1 h3
      simp [ht, hv, hne, CSON.type, b, ne2.symm, ne3.symm]

theorem C1_variant_matches_category_witness :
    CSON_parse (cstr "true") = .ok (.CSON_SUCCES (.Literal .TRUE)) ∧
    ((CSON.Literal .TRUE).type = .OBJECT ↔ (cstr "true").head? = some 123) ∧
    ((CSON.Literal .TRUE).type = .ARRAY ↔ (cstr "true").head? = some 91) ∧
    ((CSON.Literal .TRUE).type = .STRING ↔ (cstr "true").head? = some 34) ∧
    ((CSON.Literal .TRUE).type = .NUMBER ↔
      ∃ c, (cstr "true").head? = some c ∧ ((48 ≤ c ∧ c ≤ 57) ∨ c = 45)) ∧
    ((CSON.Literal .TRUE).type = .TRUE ↔ leadingWord (cstr "true") = some (cstr "true")) ∧
    ((CSON.Literal .TRUE).type = .FALSE ↔ leadingWord (cstr "true") = some (cstr "false")) ∧
    ((CSON.Literal .TRUE).type = .NULL ↔ leadingWord (cstr "true") = some (cstr "null")) :=
  ⟨rfl, C1_variant_matches_category (cstr "true") (.Literal .TRUE) rfl⟩


/-! ### Tokens of given texts -/

/-- A one-byte token is consumed as such: `{`, `}`, `[`, `]`, `,` or `:`. -/
theorem consume_punct {c : Nat} {T : CSON_TokenType} (rest : List Nat) (len : Nat)
    (hT : CSON_Tokenizer_identify_token_type c = T)
    (hp : T = .CURLY_OPEN ∨ T = .CURLY_CLOSE ∨ T = .SQUARE_OPEN ∨ T = .SQUARE_CLOSE ∨
      T = .COMMA ∨ T = .COLON) :
    CSON_Tokenizer_consume ⟨⟨c :: rest, len⟩⟩ = .ok (⟨⟨c :: rest, 1⟩, T⟩, ⟨⟨rest, len⟩⟩) := by
  have hpeek : CSON_Tokenizer_peek ⟨⟨c :: rest, len⟩⟩ = .ok ⟨⟨c :: rest, 1⟩, T⟩ := by
    rw [peek_cons, hT]
    rcases hp with h | h | h | h | h | h <;> subst h <;> rfl
  rw [consume_of_peek hpeek]
  have : tokenAdvance ⟨⟨c :: rest, 1⟩, T⟩ = 1 := by
    rcases hp with h | h | h | h | h | h <;> subst h <;> rfl
  rw [this]
  rfl

theorem consume_comma (rest : List Nat) (len : Nat) :
    CSON_Tokenizer_consume ⟨⟨44 :: rest, len⟩⟩ =
      .ok (⟨⟨44 :: rest, 1⟩, .COMMA⟩, ⟨⟨rest, len⟩⟩) :=
  consume_punct rest len (by decide) (by simp)

theorem consume_colon (rest : List Nat) (len : Nat) :
    CSON_Tokenizer_consume ⟨⟨58 :: rest, len⟩⟩ =
      .ok (⟨⟨58 :: rest, 1⟩, .COLON⟩, ⟨⟨rest, len⟩⟩) :=
  consume_punct rest len (by decide) (by simp)

theorem consume_square_open (rest : List Nat) (len : Nat) :
    CSON_Tokenizer_consume ⟨⟨91 :: rest, len⟩⟩ =
      .ok (⟨⟨91 :: rest, 1⟩, .SQUARE_OPEN⟩, ⟨⟨rest, len⟩⟩) :=
  consume_punct rest len (by decide) (by simp)

theorem consume_square_close (rest : List Nat) (len : Nat) :
    CSON_Tokenizer_consume ⟨⟨93 :: rest, len⟩⟩ =
      .ok (⟨⟨93 :: rest, 1⟩, .SQUARE_CLOSE⟩, ⟨⟨rest, len⟩⟩) :=
  consume_punct rest len (by decide) (by simp)

theorem consume_curly_open (rest : List Nat) (len : Nat) :
    CSON_Tokenizer_consume ⟨⟨123 :: rest, len⟩⟩ =
      .ok (⟨⟨123 :: rest, 1⟩, .CURLY_OPEN⟩, ⟨⟨rest, len⟩⟩) :=
  consume_punct rest len (by decide) (by simp)

theorem consume_curly_close (rest : List Nat) (len : Nat) :
    CSON_Tokenizer_consume ⟨⟨125 :: rest, len⟩⟩ =
      .ok (⟨⟨125 :: rest, 1⟩, .CURLY_CLOSE⟩, ⟨⟨rest, len⟩⟩) :=
  consume_punct rest len (by decide) (by simp)

/-- A whitespace byte starts a whitespace token. -/
theorem consume_ws {c : Nat} (hc : c = 32 ∨ c = 9 ∨ c = 10 ∨ c = 13) (rest : List Nat)
    (len : Nat) :
    ∃ tok tk1, CSON_Tokenizer_consume ⟨⟨c :: rest, len⟩⟩ = .ok (tok, tk1) ∧ tok.type = .WS := by
  have hT : CSON_Tokenizer_identify_token_type c = .WS := by
    unfold CSON_Tokenizer_identify_token_type
    rw [if_pos hc]
  have hpeek : CSON_Tokenizer_peek ⟨⟨c :: rest, len⟩⟩ =
      .ok ⟨⟨c :: rest, scanWS rest 1⟩, .WS⟩ := by
    rw [peek_cons, hT]
  exact ⟨_, _, consume_of_peek hpeek, rfl⟩

/-- The string scan stops at the first quote after a quote-free, NUL-free run. -/
theorem scanString_run (s rest : List Nat) (hq : 34 ∉ s) (h0 : 0 ∉ s) :
    ∀ i, scanString (s ++ 34 :: rest) i = some (i + s.length) := by
  induction s with
  | nil => intro i; simp [scanString]
  | cons c s ih =>
    intro i
    have hc1 : c ≠ 34 := fun h => hq (by simp [h])
    have hc2 : c ≠ 0 := fun h => h0 (by simp [h])
    have hq2 : 34 ∉ s := fun h => hq (by simp [h])
    have h02 : 0 ∉ s := fun h => h0 (by simp [h])
    rw [List.cons_append, scanString, if_neg hc1, if_neg hc2, ih hq2 h02 (i + 1),
      List.length_cons]
    exact congrArg some (by omega)

/-- A quoted, non-empty, quote-free and NUL-free run `s` is one string token with the
content `s`; consuming it leaves the cursor after the closing quote. -/
theorem consume_string (s rest : List Nat) (hne : s ≠ []) (hq : 34 ∉ s) (h0 : 0 ∉ s)
    (len : Nat) :
    CSON_Tokenizer_consume ⟨⟨34 :: (s ++ 34 :: rest), len⟩⟩ =
      .ok (⟨⟨s ++ 34 :: rest, s.length⟩, .STRING⟩, ⟨⟨rest, len⟩⟩) := by
  cases s with
  | nil => exact absurd rfl hne
  | cons d s =>
    have hq2 : 34 ∉ s := fun h => hq (by simp [h])
    have h02 : 0 ∉ s := fun h => h0 (by simp [h])
    have hpeek : CSON_Tokenizer_peek ⟨⟨34 :: (d :: s ++ 34 :: rest), len⟩⟩ =
        .ok ⟨⟨d :: s ++ 34 :: rest, (d :: s).length⟩, .STRING⟩ := by
      rw [peek_cons]
      have : CSON_Tokenizer_identify_token_type 34 = .STRING := by decide
      simp only [this, List.cons_append, scanString_run s rest hq2 h02, List.length_cons]
      rw [Nat.add_comm 1 s.length]
    rw [consume_of_peek hpeek]
    simp [tokenAdvance]

/-- The element `"s"`, for a non-empty run `s` without quote and NUL, is the string `s`. -/
theorem element_string (s rest : List Nat) (hne : s ≠ []) (hq : 34 ∉ s) (h0 : 0 ∉ s)
    (len : Nat) :
    ElementReturns ⟨⟨34 :: (s ++ 34 :: rest), len⟩⟩
      (.CSON_SUCCES (.String ⟨⟨s, s.length⟩⟩), ⟨⟨rest, len⟩⟩) := by
  have := elem_string (consume_string s rest hne hq h0 len) rfl
  simpa [CSON_String_from_sv] using this


/-! ### Strings -/

/-- Every non-empty string literal without quote and NUL parses to the string of its
content, whatever follows the closing quote. -/
theorem parse_string_nonempty (s tail : List Nat) (hne : s ≠ []) (hq : 34 ∉ s)
    (h0 : 0 ∉ s) :
    CSON_parse (34 :: (s ++ 34 :: tail)) = .ok (.CSON_SUCCES (.String ⟨⟨s, s.length⟩⟩)) ∧
    CSON_get_string (.String ⟨⟨s, s.length⟩⟩) = .ok s :=
  ⟨parse_of_element (element_string s tail hne hq h0 _), rfl⟩

/-- C2 (defect of the code): the empty string literal, the text of two quote characters,
is not parsed to a string of length 0. `CSON_Tokenizer_peek` steps over the opening
quote and starts its scan one byte further, so the closing quote is never tested, the
scan meets the terminator, and `CSON_parse` returns `CSON_ERROR`. -/
theorem C2_empty_string_rejected : CSON_parse (cstr "\"\"") = .ok .CSON_ERROR := by
  rfl


/-! ### Arrays -/

theorem loop_step {a a2 : CVec CSON} {tok : CSON_Token} {tk tk1 : CSON_Tokenizer}
    {v : CSON} {r : CSON_Result × CSON_Tokenizer}
    (ht : tok.type ≠ .SQUARE_CLOSE) (he : ElementReturns tk (.CSON_SUCCES v, tk1))
    (ha : CSON_Array_append a v = .ok a2) (h : ArraySepReturns a2 tk1 r) :
    ArrayLoopReturns a tok tk r := by
  obtain ⟨t2, tk2, hc, h | h⟩ := h
  · exact loop_next ht he ha hc h.1 h.2
  · obtain ⟨h1, h2, rfl⟩ := h
    exact loop_bad_sep ht he ha hc ⟨h1, h2⟩

/-- An element that parses starts with a token that opens an element. -/
theorem first_token_of_element {tk tk1 : CSON_Tokenizer} {v : CSON}
    (h : ElementReturns tk (.CSON_SUCCES v, tk1)) :
    ∃ tok, CSON_Tokenizer_peek tk = .ok tok ∧ tok.type ≠ .SQUARE_CLOSE ∧
      tok.type ≠ .CURLY_CLOSE ∧ tok.type ≠ .EOF := by
  obtain ⟨fuel, hf⟩ := h
  obtain ⟨tok, hp, hv⟩ := element_variant hf
  refine ⟨tok, hp, ?_⟩
  rcases hv with ⟨ht, -⟩ | ⟨ht, -⟩ | ⟨ht, -⟩ | ⟨ht, -⟩ | ⟨ht, -⟩ <;> rw [ht] <;> decide

/-- The loop of `CSON_parse_array` over items that parse: the values are appended in
order, and the loop goes on with the token found at `close`. -/
theorem array_items (len : Nat) (close : List Nat) :
    ∀ (items : List (List Nat × CSON)), items ≠ [] → ItemsParse items close →
    ∀ (a : CVec CSON) (pre : List CSON) (tok : CSON_Token),
      a.Holds pre → tok.type ≠ .SQUARE_CLOSE →
      ∃ a1 : CVec CSON, a1.Holds (pre ++ items.map Prod.snd) ∧
        ∀ r, ArraySepReturns a1 ⟨⟨close, len⟩⟩ r →
          ArrayLoopReturns a tok ⟨⟨itemsText items close, len⟩⟩ r := by
  intro items
  induction items with
  | nil => intro h; exact absurd rfl h
  | cons it its ih =>
    intro _ hparse a pre tok ha ht
    obtain ⟨e, v⟩ := it
    cases its with
    | nil =>
      obtain ⟨a1, h1, h2⟩ := push_holds ha v
      refine ⟨a1, by simpa using h2, ?_⟩
      intro r hr
      exact loop_step ht (hparse len) h1 hr
    | cons it2 its2 =>
      obtain ⟨hp1, hp2⟩ := hparse
      obtain ⟨a1, h1, h2⟩ := push_holds ha v
      obtain ⟨a2, h3, h4⟩ := ih (by simp) hp2 a1 (pre ++ [v]) ⟨⟨44 :: itemsText (it2 :: its2) close, 1⟩, .COMMA⟩
        h2 (by simp)
      refine ⟨a2, by simpa using h3, ?_⟩
      intro r hr
      refine loop_step ht (hp1 len) h1 ?_
      exact ⟨_, _, consume_comma _ _, Or.inl ⟨Or.inl rfl, h4 r hr⟩⟩

/-- The first token of a non-empty list of items that parse is no `]`. -/
theorem items_first_token {items : List (List Nat × CSON)} {close : List Nat}
    (hne : items ≠ []) (h : ItemsParse items close) (len : Nat) :
    ∃ tok, CSON_Tokenizer_peek ⟨⟨itemsText items close, len⟩⟩ = .ok tok ∧
      tok.type ≠ .SQUARE_CLOSE ∧ tok.type ≠ .CURLY_CLOSE ∧ tok.type ≠ .EOF := by
  cases items with
  | nil => exact absurd rfl hne
  | cons it its =>
    obtain ⟨e, v⟩ := it
    cases its with
    | nil => exact first_token_of_element (h len)
    | cons it2 its2 => exact first_token_of_element (h.1 len)

/-- The array text `[ items close`: what the separator step at `close` returns is what
`CSON_parse_element` returns for the whole text. -/
theorem array_text_returns {items : List (List Nat × CSON)} {close : List Nat}
    (hne : items ≠ []) (h : ItemsParse items close) (len : Nat) :
    ∃ a1 : CVec CSON, a1.Holds (items.map Prod.snd) ∧
      ∀ r, ArraySepReturns a1 ⟨⟨close, len⟩⟩ r →
        ElementReturns ⟨⟨91 :: itemsText items close, len⟩⟩ r := by
  obtain ⟨tok, hp, ht, -, -⟩ := items_first_token hne h len
  obtain ⟨a1, h1, h2⟩ := array_items len close items hne h CSON_Array_new [] tok
    array_new_holds ht
  refine ⟨a1, by simpa using h1, ?_⟩
  intro r hr
  exact elem_array (consume_square_open _ _) rfl (array_open hp ht (h2 r hr))

/-- C4: for element texts `e_1 .. e_n` (`n >= 0`) that `CSON_parse_element` parses to
`v_1 .. v_n` where they stand (each followed by `,` or by the closing `]`), `CSON_parse`
on `[ e_1 , ... , e_n ]` returns success with an Array of exactly `n` elements in source
order: `CSON_get_by_index` gives `v_i` at index `i - 1` and the NULL pointer from index
`n` on. -/
theorem C4_array_in_source_order (items : List (List Nat × CSON)) (tail : List Nat)
    (h : ItemsParse items (93 :: tail)) :
    ∃ array, CSON_parse (91 :: itemsText items (93 :: tail)) =
        .ok (.CSON_SUCCES (.Array array)) ∧
      array.element_count = items.length ∧
      (∀ i (hi : i < items.length),
        CSON_get_by_index (.Array array) i = .ok (some items[i].2)) ∧
      (∀ i, items.length ≤ i → CSON_get_by_index (.Array array) i = .ok none) := by
  have key : ∃ array : CVec CSON, array.Holds (items.map Prod.snd) ∧
      CSON_parse (91 :: itemsText items (93 :: tail)) =
        .ok (.CSON_SUCCES (.Array array)) := by
    by_cases hne : items = []
    · subst hne
      refine ⟨CSON_Array_new, array_new_holds, ?_⟩
      refine @parse_of_element _ _ ⟨⟨tail, strlen (91 :: 93 :: tail)⟩⟩ ?_
      refine elem_array (consume_square_open _ _) rfl ?_
      have hpeek : CSON_Tokenizer_peek ⟨⟨93 :: tail, strlen (91 :: 93 :: tail)⟩⟩ =
          .ok ⟨⟨93 :: tail, 1⟩, .SQUARE_CLOSE⟩ := (consume_ok_iff.1 (consume_square_close _ _)).1
      exact array_empty hpeek rfl (consume_square_close _ _)
    · obtain ⟨a1, h1, h2⟩ := array_text_returns hne h
        (strlen (91 :: itemsText items (93 :: tail)))
      refine ⟨a1, h1, ?_⟩
      refine @parse_of_element _ _
        ⟨⟨tail, strlen (91 :: itemsText items (93 :: tail))⟩⟩ ?_
      apply h2
      exact ⟨_, _, consume_square_close _ _, Or.inl ⟨Or.inr rfl, loop_close _ _ rfl⟩⟩
  obtain ⟨array, hh, hparse⟩ := key
  refine ⟨array, hparse, by simpa using hh.2.2.1, ?_, ?_⟩
  · intro i hi
    simp only [CSON_get_by_index, get_holds hh]
    rw [List.getElem?_eq_getElem (by simpa using hi)]
    simp
  · intro i hi
    simp only [CSON_get_by_index, get_holds hh]
    rw [List.getElem?_eq_none (by simpa using hi)]

theorem C4_array_in_source_order_witness :
    (ItemsParse sevenItems [93] ∧
     91 :: itemsText sevenItems [93] = cstr "[\"true\",true,false,null,32,[],\x7b\x7d]" ∧
     ∃ array, CSON_parse (91 :: itemsText sevenItems [93]) =
         .ok (.CSON_SUCCES (.Array array)) ∧
       array.element_count = sevenItems.length ∧
       (∀ i (hi : i < sevenItems.length),
         CSON_get_by_index (.Array array) i = .ok (some sevenItems[i].2)) ∧
       (∀ i, sevenItems.length ≤ i → CSON_get_by_index (.Array array) i = .ok none)) ∧
    (ItemsParse [] [93] ∧ 91 :: itemsText [] [93] = cstr "[]" ∧
     ∃ array, CSON_parse (91 :: itemsText [] [93]) = .ok (.CSON_SUCCES (.Array array)) ∧
       array.element_count = 0 ∧
       (∀ i (hi : i < 0),
         CSON_get_by_index (.Array array) i =
           .ok (some ([] : List (List Nat × CSON))[i].2)) ∧
       (∀ i, 0 ≤ i → CSON_get_by_index (.Array array) i = .ok none)) :=
  have h : ItemsParse sevenItems [93] :=
    ⟨fun _ => ⟨1, rfl⟩, fun _ => ⟨1, rfl⟩, fun _ => ⟨1, rfl⟩, fun _ => ⟨1, rfl⟩,
     fun _ => ⟨1, rfl⟩, fun _ => ⟨3, rfl⟩, fun _ => ⟨3, rfl⟩⟩
  ⟨⟨h, by decide, C4_array_in_source_order sevenItems [] h⟩,
   ⟨trivial, by decide, C4_array_in_source_order [] [] trivial⟩⟩


/-! ### Trailing comma -/

theorem oloop_step {o o2 : CVec CSON_String × CVec CSON} {tok t2 : CSON_Token}
    {tk tk1 tk2 tk3 : CSON_Tokenizer} {key : CSON_String} {v : CSON}
    {r : CSON_Result × CSON_Tokenizer}
    (ht : tok.type ≠ .CURLY_CLOSE) (he : ElementReturns tk (.CSON_SUCCES (.String key), tk1))
    (hc : CSON_Tokenizer_consume tk1 = .ok (t2, tk2)) (h2 : t2.type = .COLON)
    (hv : ElementReturns tk2 (.CSON_SUCCES v, tk3))
    (hi : CSON_Object_insert o key v = .ok o2)
    (h : ObjectSepReturns o2 tk3 r) : ObjectLoopReturns o tok tk r := by
  obtain ⟨t4, tk4, hc4, h | h⟩ := h
  · exact oloop_next ht he hc h2 hv hi hc4 h.1 h.2
  · obtain ⟨h1, h3, rfl⟩ := h
    exact oloop_bad_sep ht he hc h2 hv hi hc4 ⟨h1, h3⟩

/-- One member `"k":e` in the loop of `CSON_parse_object`. -/
theorem object_member {o : CVec CSON_String × CVec CSON} {ks : List CSON_String}
    {vs : List CSON} (ho : o.1.Holds ks ∧ o.2.Holds vs) {tok : CSON_Token}
    (ht : tok.type ≠ .CURLY_CLOSE) {k e rest : List Nat} {v : CSON} (hk : KeyOk k)
    (hv : ParsesTo e rest v) (len : Nat) :
    ∃ o1 : CVec CSON_String × CVec CSON,
      (o1.1.Holds (ks ++ [keyString k]) ∧ o1.2.Holds (vs ++ [v])) ∧
      ∀ r, ObjectSepReturns o1 ⟨⟨rest, len⟩⟩ r →
        ObjectLoopReturns o tok ⟨⟨34 :: (k ++ 34 :: 58 :: (e ++ rest)), len⟩⟩ r := by
  obtain ⟨o1, h1, h2⟩ := insert_holds ho (keyString k) v
  refine ⟨o1, h2, ?_⟩
  intro r hr
  exact oloop_step ht (element_string k _ hk.1 hk.2.1 hk.2.2 len) (consume_colon _ _) rfl
    (hv len) h1 hr

/-- The loop of `CSON_parse_object` over members that parse: the pairs are inserted in
order, and the loop goes on with the token found at `close`. -/
theorem object_members (len : Nat) (close : List Nat) :
    ∀ (members : List (List Nat × List Nat × CSON)), members ≠ [] →
    MembersParse members close →
    ∀ (o : CVec CSON_String × CVec CSON) (ks : List CSON_String) (vs : List CSON)
      (tok : CSON_Token), o.1.Holds ks ∧ o.2.Holds vs → tok.type ≠ .CURLY_CLOSE →
      ∃ o1 : CVec CSON_String × CVec CSON,
        (o1.1.Holds (ks ++ members.map (fun m => keyString m.1)) ∧
         o1.2.Holds (vs ++ members.map (fun m => m.2.2))) ∧
        ∀ r, ObjectSepReturns o1 ⟨⟨close, len⟩⟩ r →
          ObjectLoopReturns o tok ⟨⟨membersText members close, len⟩⟩ r := by
  intro members
  induction members with
  | nil => intro h; exact absurd rfl h
  | cons m ms ih =>
    intro _ hparse o ks vs tok ho ht
    obtain ⟨k, e, v⟩ := m
    cases ms with
    | nil =>
      obtain ⟨o1, h1, h2⟩ := object_member ho ht hparse.1 hparse.2 len
      exact ⟨o1, by simpa using h1, h2⟩
    | cons m2 ms2 =>
      obtain ⟨hk, hp1, hp2⟩ := hparse
      obtain ⟨o1, h1, h2⟩ := object_member ho ht hk hp1 len
      obtain ⟨o2, h3, h4⟩ := ih (by simp) hp2 o1 _ _
        ⟨⟨44 :: membersText (m2 :: ms2) close, 1⟩, .COMMA⟩ h1 (by simp)
      refine ⟨o2, by simpa using h3, ?_⟩
      intro r hr
      apply h2
      exact ⟨_, _, consume_comma _ _, Or.inl ⟨Or.inl rfl, h4 r hr⟩⟩

/-- The first token of a non-empty list of members is the quote of the first key. -/
theorem members_first_token {members : List (List Nat × List Nat × CSON)}
    {close : List Nat} (hne : members ≠ []) (h : MembersParse members close) (len : Nat) :
    ∃ tok, CSON_Tokenizer_peek ⟨⟨membersText members close, len⟩⟩ = .ok tok ∧
      tok.type ≠ .CURLY_CLOSE := by
  cases members with
  | nil => exact absurd rfl hne
  | cons m ms =>
    obtain ⟨k, e, v⟩ := m
    cases ms with
    | nil =>
      obtain ⟨tok, hp, -, h2, -⟩ :=
        first_token_of_element (element_string k _ h.1.1 h.1.2.1 h.1.2.2 len)
      exact ⟨tok, hp, h2⟩
    | cons m2 ms2 =>
      obtain ⟨tok, hp, -, h2, -⟩ :=
        first_token_of_element (element_string k _ h.1.1 h.1.2.1 h.1.2.2 len)
      exact ⟨tok, hp, h2⟩

/-- The object text `{ members close`: what the separator step at `close` returns is what
`CSON_parse_element` returns for the whole text. -/
theorem object_text_returns {members : List (List Nat × List Nat × CSON)}
    {close : List Nat} (hne : members ≠ []) (h : MembersParse members close) (len : Nat) :
    ∃ o1 : CVec CSON_String × CVec CSON,
      (o1.1.Holds (members.map (fun m => keyString m.1)) ∧
       o1.2.Holds (members.map (fun m => m.2.2))) ∧
      ∀ r, ObjectSepReturns o1 ⟨⟨close, len⟩⟩ r →
        ElementReturns ⟨⟨123 :: membersText members close, len⟩⟩ r := by
  obtain ⟨tok, hp, ht⟩ := members_first_token hne h len
  obtain ⟨o1, h1, h2⟩ := object_members len close members hne h CSON_Object_new [] [] tok
    object_new_holds ht
  refine ⟨o1, by simpa using h1, ?_⟩
  intro r hr
  exact elem_object (consume_curly_open _ _) rfl (object_open hp ht (h2 r hr))


theorem keyIs_keyString (key k : List Nat) : keyIs key (keyString k) = decide (k = key) := by
  simp only [keyIs, keyString, CSON_SV.bytes, List.take_length]
  by_cases h : k = key
  · subst h; simp
  · simp [h]

theorem find_member (key : List Nat) (members : List (List Nat × List Nat × CSON)) :
    ((members.map (fun m => (keyString m.1, m.2.2))).find?
        (fun kv => keyIs key kv.1)).map Prod.snd =
      (members.find? (fun m => decide (m.1 = key))).map (fun m => m.2.2) := by
  induction members with
  | nil => rfl
  | cons m ms ih =>
    simp only [List.map_cons, List.find?_cons, keyIs_keyString]
    by_cases h : m.1 = key
    · simp [h]
    · simp only [h, decide_False]
      exact ih

/-- C5: for keys `k_1 .. k_n` (`n >= 0`) that are not empty and hold no quote and no NUL,
and value texts `e_1 .. e_n` that `CSON_parse_element` parses to `v_1 .. v_n` where they
stand (each followed by `,` or by the closing `}`), `CSON_parse` on
`{ "k_1" : e_1 , ... , "k_n" : e_n }` returns success with an Object that holds exactly
the `n` pairs `(k_i, v_i)` in source order, and `CSON_get_by_key` returns the value of the
first pair whose key is the given one (the NULL pointer when there is none). -/
theorem C5_object_in_source_order (members : List (List Nat × List Nat × CSON))
    (tail : List Nat) (h : MembersParse members (125 :: tail)) :
    ∃ keys data, CSON_parse (123 :: membersText members (125 :: tail)) =
        .ok (.CSON_SUCCES (.Object keys data)) ∧
      keys.element_count = members.length ∧ data.element_count = members.length ∧
      (∀ i (hi : i < members.length),
        CVec_get keys i = some (keyString members[i].1) ∧
        CVec_get data i = some members[i].2.2) ∧
      (∀ key, 0 ∉ key → CSON_get_by_key (.Object keys data) key =
        .ok ((members.find? (fun m => decide (m.1 = key))).map (fun m => m.2.2))) := by
  have key : ∃ o : CVec CSON_String × CVec CSON,
      (o.1.Holds (members.map (fun m => keyString m.1)) ∧
       o.2.Holds (members.map (fun m => m.2.2))) ∧
      CSON_parse (123 :: membersText members (125 :: tail)) =
        .ok (.CSON_SUCCES (.Object o.1 o.2)) := by
    by_cases hne : members = []
    · subst hne
      refine ⟨CSON_Object_new, object_new_holds, ?_⟩
      refine @parse_of_element _ _ ⟨⟨tail, strlen (123 :: 125 :: tail)⟩⟩ ?_
      refine elem_object (consume_curly_open _ _) rfl ?_
      have hpeek : CSON_Tokenizer_peek ⟨⟨125 :: tail, strlen (123 :: 125 :: tail)⟩⟩ =
          .ok ⟨⟨125 :: tail, 1⟩, .CURLY_CLOSE⟩ := (consume_ok_iff.1 (consume_curly_close _ _)).1
      exact object_empty hpeek rfl (consume_curly_close _ _)
    · obtain ⟨o1, h1, h2⟩ := object_text_returns hne h
        (strlen (123 :: membersText members (125 :: tail)))
      refine ⟨o1, h1, ?_⟩
      refine @parse_of_element _ _
        ⟨⟨tail, strlen (123 :: membersText members (125 :: tail))⟩⟩ ?_
      apply h2
      exact ⟨_, _, consume_curly_close _ _, Or.inl ⟨Or.inr rfl, oloop_close _ _ rfl⟩⟩
  obtain ⟨o, ⟨hk, hd⟩, hparse⟩ := key
  refine ⟨o.1, o.2, hparse, by simpa using hk.2.2.1, by simpa using hd.2.2.1, ?_, ?_⟩
  · intro i hi
    rw [get_holds hk, get_holds hd, List.getElem?_eq_getElem (by simpa using hi),
      List.getElem?_eq_getElem (by simpa using hi)]
    simp
  · intro key h0
    have hk2 : o.1.Holds ((members.map (fun m => (keyString m.1, m.2.2))).map Prod.fst) := by
      simpa [List.map_map] using hk
    have hd2 : o.2.Holds ((members.map (fun m => (keyString m.1, m.2.2))).map Prod.snd) := by
      simpa [List.map_map] using hd
    have := get_by_key_loop_spec hk2 hd2 h0
      (members.map (fun m => (keyString m.1, m.2.2))).length 0 (by simp)
    simp only [CSON_get_by_key]
    rw [hk.2.2.1]
    rw [List.length_map] at this ⊢
    rw [this, List.drop_zero, find_member]

theorem C5_object_in_source_order_witness :
    (MembersParse twoMembers [125] ∧
     123 :: membersText twoMembers [125] = cstr "\x7b\"a\":1,\"b\":[2,3]\x7d" ∧
     ∃ keys data, CSON_parse (123 :: membersText twoMembers [125]) =
         .ok (.CSON_SUCCES (.Object keys data)) ∧
       keys.element_count = twoMembers.length ∧ data.element_count = twoMembers.length ∧
       (∀ i (hi : i < twoMembers.length),
         CVec_get keys i = some (keyString twoMembers[i].1) ∧
         CVec_get data i = some twoMembers[i].2.2) ∧
       (∀ key, 0 ∉ key → CSON_get_by_key (.Object keys data) key =
         .ok ((twoMembers.find? (fun m => decide (m.1 = key))).map (fun m => m.2.2)))) ∧
    (MembersParse [] [125] ∧ 123 :: membersText [] [125] = cstr "\x7b\x7d" ∧
     ∃ keys data, CSON_parse (123 :: membersText [] [125]) =
         .ok (.CSON_SUCCES (.Object keys data)) ∧
       keys.element_count = 0 ∧ data.element_count = 0 ∧
       (∀ i (hi : i < 0),
         CVec_get keys i =
           some (keyString ([] : List (List Nat × List Nat × CSON))[i].1) ∧
         CVec_get data i = some ([] : List (List Nat × List Nat × CSON))[i].2.2) ∧
       (∀ key, 0 ∉ key → CSON_get_by_key (.Object keys data) key =
         .ok ((([] : List (List Nat × List Nat × CSON)).find?
           (fun m => decide (m.1 = key))).map (fun m => m.2.2)))) ∧
    (sscanf_lf (cstr "1,\"b\":[2,3]\x7d") = some 1 ∧ sscanf_lf (cstr "2,3]\x7d") = some 2 ∧
     sscanf_lf (cstr "3]\x7d") = some 3) :=
  have h : MembersParse twoMembers [125] :=
    ⟨⟨by decide, by decide, by decide⟩, fun _ => ⟨1, rfl⟩,
     ⟨by decide, by decide, by decide⟩, fun _ => ⟨5, rfl⟩⟩
  ⟨⟨h, by decide, C5_object_in_source_order twoMembers [] h⟩,
   ⟨trivial, by decide, C5_object_in_source_order [] [] trivial⟩,
   ⟨by decide, by decide, by decide⟩⟩


/-! ### Keys that are no strings -/

/-- After members that parse, the loop of `CSON_parse_object` stands at the key position
with a token that is no `}`. -/
theorem object_at_key (members : List (List Nat × List Nat × CSON)) (next : List Nat)
    (hm : MembersParse members (44 :: next)) (len : Nat)
    {tok : CSON_Token} (hp : CSON_Tokenizer_peek ⟨⟨next, len⟩⟩ = .ok tok)
    (ht : tok.type ≠ .CURLY_CLOSE) :
    ∃ (o : CVec CSON_String × CVec CSON) (t : CSON_Token), t.type ≠ .CURLY_CLOSE ∧
      ∀ r, ObjectLoopReturns o t ⟨⟨next, len⟩⟩ r →
        ObjectReturns ⟨⟨beforeKey members next, len⟩⟩ r := by
  cases members with
  | nil =>
    exact ⟨CSON_Object_new, tok, ht, fun r hr => object_open hp ht hr⟩
  | cons m ms =>
    obtain ⟨tok1, hp1, ht1⟩ := members_first_token (by simp) hm len
    obtain ⟨o1, -, h2⟩ := object_members len (44 :: next) (m :: ms) (by simp) hm
      CSON_Object_new [] [] tok1 object_new_holds ht1
    refine ⟨o1, ⟨⟨44 :: next, 1⟩, .COMMA⟩, by simp, ?_⟩
    intro r hr
    refine object_open hp1 ht1 (h2 r ?_)
    exact ⟨_, _, consume_comma _ _, Or.inl ⟨Or.inl rfl, hr⟩⟩

/-- C9: an object text in which, after `n >= 0` members that parse, the element at the
next key position parses to a value that is no String (a number, a literal, an array or an
object) makes `CSON_parse_object` (run on the text after the `{`, with any budget that
is enough for it), and so `CSON_parse`, return `CSON_ERROR`. -/
theorem C9_non_string_key_rejected (members : List (List Nat × List Nat × CSON))
    (e rest : List Nat) (v : CSON) (hm : MembersParse members (44 :: (e ++ rest)))
    (he : ParsesTo e rest v) (hv : v.type ≠ .STRING) :
    (∀ len fuel, 3 * (beforeKey members (e ++ rest)).length + 3 ≤ fuel →
      CSON_parse_object fuel ⟨⟨beforeKey members (e ++ rest), len⟩⟩ =
        .ok (.CSON_ERROR, ⟨⟨rest, len⟩⟩)) ∧
    CSON_parse (123 :: beforeKey members (e ++ rest)) = .ok .CSON_ERROR := by
  have hobj : ∀ len, ObjectReturns ⟨⟨beforeKey members (e ++ rest), len⟩⟩
      (.CSON_ERROR, ⟨⟨rest, len⟩⟩) := by
    intro len
    obtain ⟨tok, hp, -, ht, -⟩ := first_token_of_element (he len)
    obtain ⟨o, t, ht2, h⟩ := object_at_key members (e ++ rest) hm len hp ht
    exact h _ (oloop_key_not_string ht2 (he len) hv)
  refine ⟨fun len fuel hf => object_enough (hobj len) fuel hf, ?_⟩
  exact parse_of_element (elem_object (consume_curly_open _ _) rfl (hobj _))

theorem C9_non_string_key_rejected_witness :
    MembersParse [] (44 :: (cstr "1" ++ cstr ":2\x7d")) ∧
    ParsesTo (cstr "1") (cstr ":2\x7d") (.Number ⟨cstr "1:2\x7d"⟩) ∧
    (CSON.Number ⟨cstr "1:2\x7d"⟩).type ≠ .STRING ∧
    123 :: beforeKey [] (cstr "1" ++ cstr ":2\x7d") = cstr "\x7b1:2\x7d" ∧
    (∀ len fuel, 3 * (beforeKey [] (cstr "1" ++ cstr ":2\x7d")).length + 3 ≤ fuel →
      CSON_parse_object fuel ⟨⟨beforeKey [] (cstr "1" ++ cstr ":2\x7d"), len⟩⟩ =
        .ok (.CSON_ERROR, ⟨⟨cstr ":2\x7d", len⟩⟩)) ∧
    CSON_parse (123 :: beforeKey [] (cstr "1" ++ cstr ":2\x7d")) = .ok .CSON_ERROR :=
  have he : ParsesTo (cstr "1") (cstr ":2\x7d") (.Number ⟨cstr "1:2\x7d"⟩) :=
    fun _ => ⟨1, rfl⟩
  ⟨trivial, he, by decide, by decide,
    C9_non_string_key_rejected [] _ _ _ trivial he (by decide)⟩


/-! ### Whitespace and the end of input inside a run -/

/-- A whitespace token and the end-of-input token are consumed where they stand, and open
no element. -/
theorem element_at_useless {T : CSON_TokenType} (hT : T = .WS ∨ T = .EOF)
    {tk : CSON_Tokenizer} (h : NextIs T tk) :
    ∃ tok tk1, CSON_Tokenizer_consume tk = .ok (tok, tk1) ∧ tok.type = T ∧
      ElementReturns tk (.CSON_ERROR, tk1) := by
  obtain ⟨tok, hp, ht⟩ := h
  have hc := consume_of_peek hp
  refine ⟨tok, _, hc, ht, ⟨1, elem_error hc ?_ 0⟩⟩
  rw [ht]
  rcases hT with h | h <;> subst h <;> simp

/-- Every run that is handed a whitespace token, or the end-of-input token, returns
`CSON_ERROR`: no place of the parser accepts either. -/
theorem meets_rejects {T : CSON_TokenType} (hT : T = .WS ∨ T = .EOF) {place : Place}
    {tk : CSON_Tokenizer} (h : Meets T place tk) : Rejects place tk := by
  have hsep : T ≠ .COMMA ∧ T ≠ .SQUARE_CLOSE ∧ T ≠ .CURLY_CLOSE ∧ T ≠ .COLON := by
    rcases hT with h | h <;> subst h <;> simp
  induction h with
  | here hn =>
    obtain ⟨_, tk1, _, _, he⟩ := element_at_useless hT hn
    exact ⟨tk1, he⟩
  | inArray hc ht _ ih =>
    obtain ⟨tk2, h2⟩ := ih
    exact ⟨tk2, elem_array hc ht h2⟩
  | inObject hc ht _ ih =>
    obtain ⟨tk2, h2⟩ := ih
    exact ⟨tk2, elem_object hc ht h2⟩
  | arrayLoop hp ht _ ih =>
    obtain ⟨tk2, h2⟩ := ih CSON_Array_new [] _ array_new_holds ht
    exact ⟨tk2, array_open hp ht h2⟩
  | item _ ih =>
    intro a pre tok _ ht
    obtain ⟨tk1, he⟩ := ih
    exact ⟨tk1, loop_elem_error ht he⟩
  | afterItem he hn =>
    intro a pre tok ha ht
    obtain ⟨a2, h1, -⟩ := push_holds ha _
    obtain ⟨t2, tk2, hc, ht2, -⟩ := element_at_useless hT hn
    exact ⟨tk2, loop_bad_sep ht he h1 hc (by rw [ht2]; exact ⟨hsep.1, hsep.2.1⟩)⟩
  | nextItem he hc hcomma _ ih =>
    intro a pre tok ha ht
    obtain ⟨a2, h1, h2⟩ := push_holds ha _
    obtain ⟨tk3, h3⟩ := ih a2 _ _ h2 (by rw [hcomma]; simp)
    exact ⟨tk3, loop_next ht he h1 hc (Or.inl hcomma) h3⟩
  | objectLoop hp ht _ ih =>
    obtain ⟨tk2, h2⟩ := ih CSON_Object_new [] [] _ object_new_holds ht
    exact ⟨tk2, object_open hp ht h2⟩
  | key _ ih =>
    intro o ks vs tok _ ht
    obtain ⟨tk1, he⟩ := ih
    exact ⟨tk1, oloop_key_error ht he⟩
  | afterKey he hn =>
    intro o ks vs tok _ ht
    obtain ⟨t2, tk2, hc, ht2, -⟩ := element_at_useless hT hn
    exact ⟨tk2, oloop_no_colon ht he hc (by rw [ht2]; exact hsep.2.2.2)⟩
  | value he hc hcolon _ ih =>
    intro o ks vs tok _ ht
    obtain ⟨tk3, hv⟩ := ih
    exact ⟨tk3, oloop_value_error ht he hc hcolon hv⟩
  | afterValue he hc hcolon hv hn =>
    intro o ks vs tok ho ht
    obtain ⟨o2, h1, -⟩ := insert_holds ho _ _
    obtain ⟨t4, tk4, hc4, ht4, -⟩ := element_at_useless hT hn
    exact ⟨tk4, oloop_bad_sep ht he hc hcolon hv h1 hc4
      (by rw [ht4]; exact ⟨hsep.1, hsep.2.2.1⟩)⟩
  | nextMember he hc hcolon hv hc4 hcomma _ ih =>
    intro o ks vs tok ho ht
    obtain ⟨o2, h1, h2⟩ := insert_holds ho _ _
    obtain ⟨tk5, h5⟩ := ih o2 _ _ _ h2 (by rw [hcomma]; simp)
    exact ⟨tk5, oloop_next ht he hc hcolon hv h1 hc4 (Or.inl hcomma) h5⟩

/-- C3, as it fails: `[1,2]` parses, and with one space after the comma it does not. -/
theorem C3_space_in_array_rejected :
    (∃ v, CSON_parse (cstr "[1,2]") = .ok (.CSON_SUCCES v)) ∧
    CSON_parse (cstr "[1, 2]") = .ok .CSON_ERROR :=
  ⟨⟨_, rfl⟩, rfl⟩

/-- C3, amended: whitespace is significant. The tokenizer hands a run of whitespace
characters (space, tab, newline, carriage return) to the parser as a token, and no parser
function skips it: whenever the run of `CSON_parse` on a text is handed a whitespace
token (before the first token, or between two tokens inside an array or an object)
`CSON_parse` returns `CSON_ERROR`; so does every text that has a non-empty run of
whitespace characters put before its first token. -/
theorem C3_whitespace_rejected :
    (∀ text, Meets .WS .element (CSON_Tokenizer_new text) →
      CSON_parse text = .ok .CSON_ERROR) ∧
    (∀ ws text, ws ≠ [] → (∀ c ∈ ws, c = 32 ∨ c = 9 ∨ c = 10 ∨ c = 13) →
      CSON_parse (ws ++ text) = .ok .CSON_ERROR) := by
  have h1 : ∀ text, Meets .WS .element (CSON_Tokenizer_new text) →
      CSON_parse text = .ok .CSON_ERROR := by
    intro text h
    obtain ⟨tk1, h1⟩ := meets_rejects (Or.inl rfl) h
    exact parse_of_element h1
  refine ⟨h1, ?_⟩
  intro ws text hne hws
  cases ws with
  | nil => exact absurd rfl hne
  | cons c ws =>
    obtain ⟨tok, tk1, hc, ht⟩ := consume_ws (hws c (by simp)) (ws ++ text)
      (strlen (c :: ws ++ text))
    exact h1 _ (.here ⟨tok, (consume_ok_iff.1 hc).1, ht⟩)

theorem C3_whitespace_rejected_witness :
    Meets .WS .element (CSON_Tokenizer_new (cstr "[1, 2]")) ∧
    CSON_parse (cstr "[1, 2]") = .ok .CSON_ERROR ∧
    cstr " \n" ≠ [] ∧ (∀ c ∈ cstr " \n", c = 32 ∨ c = 9 ∨ c = 10 ∨ c = 13) ∧
    CSON_parse (cstr " \n" ++ cstr "1") = .ok .CSON_ERROR :=
  have h : Meets .WS .element (CSON_Tokenizer_new (cstr "[1, 2]")) :=
    .inArray rfl rfl
      (.arrayLoop rfl (by decide)
        (.nextItem ⟨1, rfl⟩ rfl rfl (.item (.here ⟨_, rfl, rfl⟩))))
  ⟨h, C3_whitespace_rejected.1 _ h, by decide, by decide,
    C3_whitespace_rejected.2 (cstr " \n") (cstr "1") (by decide) (by decide)⟩

/-- C10: truncated input is rejected. Whenever the run of `CSON_parse` on a text is handed
the end-of-input token where it asks for a token, and so whenever that token is reached
while an array or an object is open (its closing `]` or `}` not yet consumed),
`CSON_parse` returns `CSON_ERROR`; and each of the five malformed texts `[1,]`, `{`,
`[1,2`, `{"a" 1}` and `{1:2}` makes it return `CSON_ERROR`. -/
theorem C10_truncated_input_rejected :
    (∀ text, Meets .EOF .element (CSON_Tokenizer_new text) →
      CSON_parse text = .ok .CSON_ERROR) ∧
    CSON_parse (cstr "[1,]") = .ok .CSON_ERROR ∧
    CSON_parse (cstr "\x7b") = .ok .CSON_ERROR ∧
    CSON_parse (cstr "[1,2") = .ok .CSON_ERROR ∧
    CSON_parse (cstr "\x7b\"a\" 1\x7d") = .ok .CSON_ERROR ∧
    CSON_parse (cstr "\x7b1:2\x7d") = .ok .CSON_ERROR := by
  refine ⟨?_, rfl, rfl, rfl, rfl, rfl⟩
  intro text h
  obtain ⟨tk1, h1⟩ := meets_rejects (Or.inr rfl) h
  exact parse_of_element h1

theorem C10_truncated_input_rejected_witness :
    Meets .EOF .element (CSON_Tokenizer_new (cstr "[1,2")) ∧
    CSON_parse (cstr "[1,2") = .ok .CSON_ERROR ∧
    Meets .EOF .element (CSON_Tokenizer_new (cstr "\x7b\"a\":[1,")) ∧
    CSON_parse (cstr "\x7b\"a\":[1,") = .ok .CSON_ERROR :=
  have h : Meets .EOF .element (CSON_Tokenizer_new (cstr "[1,2")) :=
    .inArray rfl rfl
      (.arrayLoop rfl (by decide)
        (.nextItem ⟨1, rfl⟩ rfl rfl (.afterItem ⟨1, rfl⟩ ⟨_, rfl, rfl⟩)))
  have h2 : Meets .EOF .element (CSON_Tokenizer_new (cstr "\x7b\"a\":[1,")) :=
    .inObject rfl rfl
      (.objectLoop rfl (by decide)
        (.value ⟨1, rfl⟩ rfl rfl
          (.inArray rfl rfl
            (.arrayLoop rfl (by decide)
              (.nextItem ⟨1, rfl⟩ rfl rfl (.item (.here ⟨_, rfl, rfl⟩)))))))
  ⟨h, C10_truncated_input_rejected.1 _ h, h2, C10_truncated_input_rejected.1 _ h2⟩


/-! ### Word tokens -/

/-- A word token is a view on the cursor itself. -/
theorem peek_word {tk : CSON_Tokenizer} {tok : CSON_Token}
    (hp : CSON_Tokenizer_peek tk = .ok tok) (ht : tok.type = .WORD) :
    tok.sv.str = tk.sv.str ∧ tok.sv.len ≤ tk.sv.str.length ∧ tokenAdvance tok = tok.sv.len := by
  have hadv := (peek_advance hp).1
  have h3 : tokenAdvance tok = tok.sv.len := by simp [tokenAdvance, ht]
  refine ⟨?_, by omega, h3⟩
  obtain ⟨⟨str, len⟩⟩ := tk
  cases str with
  | nil =>
    rw [peek_nil] at hp
    simp at hp
    subst hp
    simp at ht
  | cons c rest =>
    rw [peek_cons] at hp
    cases hc : CSON_Tokenizer_identify_token_type c <;> simp only [hc] at hp
    case STRING =>
      cases rest with
      | nil => simp at hp
      | cons d rest2 =>
        simp only at hp
        cases hs : scanString rest2 1 <;> simp [hs] at hp <;> subst hp <;> simp at ht
    case UNKNOWN => simp at hp
    case WORD =>
      simp at hp
      subst hp
      rfl
    all_goals
      simp at hp
      subst hp
      simp at ht

/-- C11: when the first token at the cursor is a word token, `CSON_parse_element` returns
success exactly when the text of the word is `true`, `false` or `null`, with the True,
False or Null variant in this order, and returns `CSON_ERROR` for every other word; the
cursor is left after the word. `CSON_get_bool` is true for True and false for False. -/
theorem C11_word_literals (tk : CSON_Tokenizer) (tok : CSON_Token)
    (hp : CSON_Tokenizer_peek tk = .ok tok) (ht : tok.type = .WORD) (fuel : Nat) :
    (tok.sv.bytes = cstr "true" →
      CSON_parse_element (fuel + 1) tk =
        .ok (.CSON_SUCCES (.Literal .TRUE), ⟨⟨tk.sv.str.drop tok.sv.len, tk.sv.len⟩⟩)) ∧
    (tok.sv.bytes = cstr "false" →
      CSON_parse_element (fuel + 1) tk =
        .ok (.CSON_SUCCES (.Literal .FALSE), ⟨⟨tk.sv.str.drop tok.sv.len, tk.sv.len⟩⟩)) ∧
    (tok.sv.bytes = cstr "null" →
      CSON_parse_element (fuel + 1) tk =
        .ok (.CSON_SUCCES (.Literal .NULL), ⟨⟨tk.sv.str.drop tok.sv.len, tk.sv.len⟩⟩)) ∧
    (tok.sv.bytes ≠ cstr "true" → tok.sv.bytes ≠ cstr "false" →
      tok.sv.bytes ≠ cstr "null" →
      CSON_parse_element (fuel + 1) tk =
        .ok (.CSON_ERROR, ⟨⟨tk.sv.str.drop tok.sv.len, tk.sv.len⟩⟩)) ∧
    ((∃ v tk1, CSON_parse_element (fuel + 1) tk = .ok (.CSON_SUCCES v, tk1)) ↔
      (tok.sv.bytes = cstr "true" ∨ tok.sv.bytes = cstr "false" ∨
        tok.sv.bytes = cstr "null")) ∧
    CSON_get_bool (.Literal .TRUE) = .ok true ∧
    CSON_get_bool (.Literal .FALSE) = .ok false := by
  obtain ⟨hstr, hlen, hadv⟩ := peek_word hp ht
  have hlen2 : tok.sv.len ≤ tok.sv.str.length := by rw [hstr]; exact hlen
  have e1 := sv_eq_literal hlen2 no_nul_true
  have e2 := sv_eq_literal hlen2 no_nul_false
  have e3 := sv_eq_literal hlen2 no_nul_null
  have ne1 : cstr "true" ≠ cstr "false" := by decide
  have ne2 : cstr "true" ≠ cstr "null" := by decide
  have ne3 : cstr "false" ≠ cstr "null" := by decide
  have hc := consume_of_peek hp
  rw [hadv] at hc
  have hT : tok.sv.bytes = cstr "true" →
      CSON_parse_element (fuel + 1) tk =
        .ok (.CSON_SUCCES (.Literal .TRUE), ⟨⟨tk.sv.str.drop tok.sv.len, tk.sv.len⟩⟩) := by
    intro hb
    rw [CSON_parse_element]
    simp only [hc, ht, e1.2 hb, if_true, CSON_Literal_new]
  have hF : tok.sv.bytes = cstr "false" →
      CSON_parse_element (fuel + 1) tk =
        .ok (.CSON_SUCCES (.Literal .FALSE), ⟨⟨tk.sv.str.drop tok.sv.len, tk.sv.len⟩⟩) := by
    intro hb
    have n1 : ¬ CSON_SV_eq tok.sv (CSON_SV_init (cstr "true")) = true :=
      fun h => ne1 ((e1.1 h).symm.trans hb)
    rw [CSON_parse_element]
    simp [hc, ht, n1, e2.2 hb, CSON_Literal_new]
  have hN : tok.sv.bytes = cstr "null" →
      CSON_parse_element (fuel + 1) tk =
        .ok (.CSON_SUCCES (.Literal .NULL), ⟨⟨tk.sv.str.drop tok.sv.len, tk.sv.len⟩⟩) := by
    intro hb
    have n1 : ¬ CSON_SV_eq tok.sv (CSON_SV_init (cstr "true")) = true :=
      fun h => ne2 ((e1.1 h).symm.trans hb)
    have n2 : ¬ CSON_SV_eq tok.sv (CSON_SV_init (cstr "false")) = true :=
      fun h => ne3 ((e2.1 h).symm.trans hb)
    rw [CSON_parse_element]
    simp [hc, ht, n1, n2, e3.2 hb, CSON_Literal_new]
  have hE : tok.sv.bytes ≠ cstr "true" → tok.sv.bytes ≠ cstr "false" →
      tok.sv.bytes ≠ cstr "null" →
      CSON_parse_element (fuel + 1) tk =
        .ok (.CSON_ERROR, ⟨⟨tk.sv.str.drop tok.sv.len, tk.sv.len⟩⟩) := by
    intro h1 h2 h3
    have n1 : ¬ CSON_SV_eq tok.sv (CSON_SV_init (cstr "true")) = true := fun h => h1 (e1.1 h)
    have n2 : ¬ CSON_SV_eq tok.sv (CSON_SV_init (cstr "false")) = true := fun h => h2 (e2.1 h)
    have n3 : ¬ CSON_SV_eq tok.sv (CSON_SV_init (cstr "null")) = true := fun h => h3 (e3.1 h)
    rw [CSON_parse_element]
    simp [hc, ht, n1, n2, n3]
  refine ⟨hT, hF, hN, hE, ?_, rfl, rfl⟩
  constructor
  · rintro ⟨v, tk1, hv⟩
    by_contra hnot
    simp only [not_or] at hnot
    rw [hE hnot.1 hnot.2.1 hnot.2.2] at hv
    simp at hv
  · rintro (h | h | h)
    · exact ⟨_, _, hT h⟩
    · exact ⟨_, _, hF h⟩
    · exact ⟨_, _, hN h⟩

theorem C11_word_literals_witness :
    CSON_Tokenizer_peek (CSON_Tokenizer_new (cstr "nullx")) =
      .ok ⟨⟨cstr "nullx", 5⟩, .WORD⟩ ∧
    (⟨⟨cstr "nullx", 5⟩, .WORD⟩ : CSON_Token).type = .WORD ∧
    CSON_parse_element 1 (CSON_Tokenizer_new (cstr "nullx")) =
      .ok (.CSON_ERROR, ⟨⟨[], 5⟩⟩) ∧
    CSON_parse_element 1 (CSON_Tokenizer_new (cstr "false,")) =
      .ok (.CSON_SUCCES (.Literal .FALSE), ⟨⟨cstr ",", 6⟩⟩) :=
  ⟨rfl, rfl,
   (C11_word_literals (CSON_Tokenizer_new (cstr "nullx")) ⟨⟨cstr "nullx", 5⟩, .WORD⟩ rfl rfl
      0).2.2.2.1 (by decide) (by decide) (by decide),
   (C11_word_literals (CSON_Tokenizer_new (cstr "false,")) ⟨⟨cstr "false,", 5⟩, .WORD⟩ rfl rfl
      0).2.1 (by decide)⟩


/-! ### Numbers -/

/-- A digit or `-` is classified as the start of a number. -/
theorem identify_number {c : Nat} (h : (48 ≤ c ∧ c ≤ 57) ∨ c = 45) :
    CSON_Tokenizer_identify_token_type c = .NUMBER := by
  rcases identify_cases c with h1 | h1 | h1 | h1 | h1 | h1 | h1 | h1 | h1 | h1 | h1
  all_goals first
    | exact h1.1
    | (exfalso; omega)

/-- The number loop counts the maximal run of digits and dots. -/
theorem scanNumber_run (cs : List Nat) : ∀ i,
    scanNumber cs i = i + (cs.takeWhile numberTail).length := by
  induction cs with
  | nil => intro i; simp [scanNumber]
  | cons c cs ih =>
    intro i
    by_cases h : (48 ≤ c ∧ c ≤ 57) ∨ c = 46
    · have h0 : c ≠ 0 := by omega
      have hd : numberTail c = true := by simpa [numberTail] using h
      rw [scanNumber, if_pos ⟨h, h0⟩, ih (i + 1), List.takeWhile_cons, if_pos hd,
        List.length_cons]
      omega
    · have hn : ¬ (((48 ≤ c ∧ c ≤ 57) ∨ c = 46) ∧ c ≠ 0) := fun hh => h hh.1
      have hd : ¬ numberTail c = true := by simpa [numberTail] using h
      rw [scanNumber, if_neg hn, List.takeWhile_cons, if_neg hd]
      rfl

/-- The token at a digit or `-`. -/
theorem peek_number {c : Nat} (h : (48 ≤ c ∧ c ≤ 57) ∨ c = 45) (rest : List Nat)
    (len : Nat) :
    CSON_Tokenizer_peek ⟨⟨c :: rest, len⟩⟩ =
      .ok ⟨⟨c :: rest, 1 + (rest.takeWhile numberTail).length⟩, .NUMBER⟩ := by
  rw [peek_cons, identify_number h]
  simp only [scanNumber_run]

theorem leadingDigits_all {ds : List Nat} (hd : ∀ c ∈ ds, 48 ≤ c ∧ c ≤ 57) :
    leadingDigits ds = ds := by
  induction ds with
  | nil => rfl
  | cons c cs ih =>
    have hc := hd c (by simp)
    rw [leadingDigits, if_pos hc, ih (fun x hx => hd x (by simp [hx]))]

/-- The value of a digit run is positional: a further digit multiplies by ten. -/
theorem decimalValue_append (ds : List Nat) (d : Nat) :
    decimalValue (ds ++ [d]) = 10 * decimalValue ds + (d - 48) := by
  simp [decimalValue, List.foldl_append]

/-- C12: for every non-empty text of decimal digits that denotes an integer `n` below
`2^53`, `CSON_parse` returns success with a Number; the number is the conversion by
`sscanf` of the whole text, which is `n` (`sscanf_lf`, the conversion of libc on digit
runs). -/
theorem C12_digits_parse_to_number (ds : List Nat) (n : Nat) (hne : ds ≠ [])
    (hd : ∀ c ∈ ds, 48 ≤ c ∧ c ≤ 57) (hn : decimalValue ds = n) (h53 : n < 2 ^ 53) :
    CSON_parse ds = .ok (.CSON_SUCCES (.Number ⟨ds⟩)) ∧
    CSON_get_number (.Number ⟨ds⟩) = .ok ⟨ds⟩ ∧
    sscanf_lf ds = some n ∧ n < 2 ^ 53 := by
  refine ⟨?_, rfl, ?_, h53⟩
  · cases ds with
    | nil => exact absurd rfl hne
    | cons c rest =>
      have hc := hd c (by simp)
      have hpeek := peek_number (Or.inl hc) rest (strlen (c :: rest))
      have := elem_number (consume_of_peek hpeek) rfl
      exact parse_of_element this
  · subst hn
    simp only [sscanf_lf, leadingDigits_all hd, List.drop_length]
    rw [if_neg hne]

theorem C12_digits_parse_to_number_witness :
    cstr "42" ≠ [] ∧ (∀ c ∈ cstr "42", 48 ≤ c ∧ c ≤ 57) ∧ decimalValue (cstr "42") = 42 ∧
    42 < 2 ^ 53 ∧
    CSON_parse (cstr "42") = .ok (.CSON_SUCCES (.Number ⟨cstr "42"⟩)) ∧
    CSON_get_number (.Number ⟨cstr "42"⟩) = .ok ⟨cstr "42"⟩ ∧
    sscanf_lf (cstr "42") = some 42 ∧ 42 < 2 ^ 53 :=
  ⟨by decide, by decide, by decide, by decide,
    C12_digits_parse_to_number (cstr "42") 42 (by decide) (by decide) (by decide)
      (by decide)⟩


/-! ### The tokenizer -/

/-- C20: at a digit or `-`, `CSON_Tokenizer_peek` returns a number token that starts at
the cursor and whose length is 1 plus the length of the maximal run of characters in
`'0'..'9'` and `'.'` after the first character: nothing checks that the digits and dots
form a number, `-` is taken only as the first character, and `e` ends the token. -/
theorem C20_number_token_length (c : Nat) (rest : List Nat) (len : Nat)
    (h : (48 ≤ c ∧ c ≤ 57) ∨ c = 45) :
    CSON_Tokenizer_peek ⟨⟨c :: rest, len⟩⟩ =
      .ok ⟨⟨c :: rest, 1 + (rest.takeWhile numberTail).length⟩, .NUMBER⟩ :=
  peek_number h rest len

theorem C20_number_token_length_witness :
    ((48 ≤ 49 ∧ 49 ≤ 57) ∨ 49 = 45) ∧
    49 :: cstr ".2.3,4" = cstr "1.2.3,4" ∧
    CSON_Tokenizer_peek ⟨⟨49 :: cstr ".2.3,4", 7⟩⟩ =
      .ok ⟨⟨49 :: cstr ".2.3,4", 1 + ((cstr ".2.3,4").takeWhile numberTail).length⟩,
        .NUMBER⟩ ∧
    1 + ((cstr ".2.3,4").takeWhile numberTail).length = 5 ∧
    ((48 ≤ 45 ∧ 45 ≤ 57) ∨ 45 = 45) ∧
    45 :: cstr "1-2" = cstr "-1-2" ∧
    CSON_Tokenizer_peek ⟨⟨45 :: cstr "1-2", 4⟩⟩ =
      .ok ⟨⟨45 :: cstr "1-2", 1 + ((cstr "1-2").takeWhile numberTail).length⟩, .NUMBER⟩ ∧
    1 + ((cstr "1-2").takeWhile numberTail).length = 2 ∧
    CSON_Tokenizer_peek ⟨⟨49 :: cstr "e5", 3⟩⟩ =
      .ok ⟨⟨49 :: cstr "e5", 1 + ((cstr "e5").takeWhile numberTail).length⟩, .NUMBER⟩ ∧
    1 + ((cstr "e5").takeWhile numberTail).length = 1 :=
  ⟨by decide, by decide, C20_number_token_length 49 (cstr ".2.3,4") 7 (by decide),
    by decide, by decide, by decide,
    C20_number_token_length 45 (cstr "1-2") 4 (by decide), by decide,
    C20_number_token_length 49 (cstr "e5") 3 (by decide), by decide⟩

/-- The string loop returns the index of a quote. -/
theorem scanString_some (cs : List Nat) : ∀ i j, scanString cs i = some j →
    i ≤ j ∧ cs[j - i]? = some 34 := by
  induction cs with
  | nil => intro i j h; simp [scanString] at h
  | cons c cs ih =>
    intro i j h
    rw [scanString] at h
    by_cases h1 : c = 34
    · rw [if_pos h1] at h
      simp at h
      subst h
      simp [h1]
    · rw [if_neg h1] at h
      by_cases h2 : c = 0
      · rw [if_pos h2] at h; simp at h
      · rw [if_neg h2] at h
        obtain ⟨hle, hq⟩ := ih (i + 1) j h
        refine ⟨by omega, ?_⟩
        have : j - i = (j - (i + 1)) + 1 := by omega
        rw [this, List.getElem?_cons_succ]
        exact hq

/-- A string token starts after the opening quote and ends before a quote. -/
theorem peek_string {tk : CSON_Tokenizer} {tok : CSON_Token}
    (hp : CSON_Tokenizer_peek tk = .ok tok) (ht : tok.type = .STRING) :
    tk.sv.str.head? = some 34 ∧ tok.sv.str = tk.sv.str.drop 1 ∧
    tk.sv.str[tok.sv.len + 1]? = some 34 := by
  obtain ⟨⟨str, len⟩⟩ := tk
  cases str with
  | nil =>
    rw [peek_nil] at hp
    simp at hp
    subst hp
    simp at ht
  | cons c rest =>
    rw [peek_cons] at hp
    rcases identify_cases c with h | h | h | h | h | h | h | h | h | h | h
    all_goals
      obtain ⟨hT, hc⟩ := h
      simp only [hT] at hp
    all_goals first
      | (simp at hp
         subst hp
         simp at ht)
      | skip
    cases rest with
    | nil => simp at hp
    | cons d rest2 =>
      simp only at hp
      cases hs : scanString rest2 1 with
      | none =>
        simp [hs] at hp
        subst hp
        simp at ht
      | some i =>
        simp [hs] at hp
        subst hp
        obtain ⟨hle, hq⟩ := scanString_some rest2 1 i hs
        refine ⟨by simp [hc], by simp, ?_⟩
        simp only [List.getElem?_cons_succ]
        have : i = (i - 1) + 1 := by omega
        rw [this, List.getElem?_cons_succ]
        exact hq

/-- C17: `CSON_Tokenizer_peek` computes its token from the cursor and does not move it
(the embedding returns the token alone, so a second peek gives the same token), and
`CSON_Tokenizer_consume` returns the token that peek returns in the same state and moves
the cursor forward by the length of the token, and by 2 more for a string token. The move
stays inside the text, and after a string token the cursor is right after the closing
quote. -/
theorem C17_peek_then_consume (tk : CSON_Tokenizer) :
    (CSON_Tokenizer_consume tk =
      match CSON_Tokenizer_peek tk with
      | .error f => .error f
      | .ok token =>
        .ok (token, ⟨⟨tk.sv.str.drop
          (if token.type = .STRING then token.sv.len + 2 else token.sv.len), tk.sv.len⟩⟩)) ∧
    (∀ token, CSON_Tokenizer_peek tk = .ok token →
      (if token.type = .STRING then token.sv.len + 2 else token.sv.len) ≤ tk.sv.str.length) ∧
    (∀ token, CSON_Tokenizer_peek tk = .ok token → token.type = .STRING →
      tk.sv.str.head? = some 34 ∧ token.sv.str = tk.sv.str.drop 1 ∧
      tk.sv.str[token.sv.len + 1]? = some 34 ∧
      (tk.sv.str.drop (token.sv.len + 2)).length + (token.sv.len + 2) = tk.sv.str.length) := by
  refine ⟨?_, ?_, ?_⟩
  · cases hp : CSON_Tokenizer_peek tk with
    | error f => exact consume_error_iff.2 hp
    | ok token => exact consume_of_peek hp
  · intro token hp
    exact (peek_advance hp).1
  · intro token hp ht
    obtain ⟨h1, h2, h3⟩ := peek_string hp ht
    refine ⟨h1, h2, h3, ?_⟩
    have := (peek_advance hp).1
    simp only [tokenAdvance, ht, if_true] at this
    simp only [List.length_drop]
    omega

theorem C17_peek_then_consume_witness :
    CSON_Tokenizer_peek (CSON_Tokenizer_new (cstr "\"ab\",1")) =
      .ok ⟨⟨cstr "ab\",1", 2⟩, .STRING⟩ ∧
    CSON_Tokenizer_consume (CSON_Tokenizer_new (cstr "\"ab\",1")) =
      .ok (⟨⟨cstr "ab\",1", 2⟩, .STRING⟩, ⟨⟨cstr ",1", 6⟩⟩) ∧
    ((CSON_Tokenizer_new (cstr "\"ab\",1")).sv.str.head? = some 34 ∧
      cstr "ab\",1" = (CSON_Tokenizer_new (cstr "\"ab\",1")).sv.str.drop 1 ∧
      (CSON_Tokenizer_new (cstr "\"ab\",1")).sv.str[2 + 1]? = some 34 ∧
      ((CSON_Tokenizer_new (cstr "\"ab\",1")).sv.str.drop (2 + 2)).length + (2 + 2) =
        (CSON_Tokenizer_new (cstr "\"ab\",1")).sv.str.length) :=
  ⟨rfl, rfl,
    (C17_peek_then_consume (CSON_Tokenizer_new (cstr "\"ab\",1"))).2.2
      ⟨⟨cstr "ab\",1", 2⟩, .STRING⟩ rfl rfl⟩


/-- No byte is classified as unknown: the test for a word,
`(c >= 'A' && c <= 'Z') || (c >= 'a' || c <= 'z')`, holds for every byte. -/
theorem identify_ne_unknown (c : Nat) :
    CSON_Tokenizer_identify_token_type c ≠ .UNKNOWN := by
  rcases identify_cases c with h | h | h | h | h | h | h | h | h | h | h <;>
    rw [h.1] <;> decide

/-- C18 (defect of the code): a byte that is no whitespace, punctuation, quote,
terminator, digit or `-` is classified as a word whether or not it is a letter. The
bytes `.`, `_` and `!` are words, not unknown, and peeking at `_` gives a word token
instead of the fatal error. -/
theorem C18_non_letters_are_words :
    CSON_Tokenizer_identify_token_type 46 = .WORD ∧
    CSON_Tokenizer_identify_token_type 95 = .WORD ∧
    CSON_Tokenizer_identify_token_type 33 = .WORD ∧
    CSON_Tokenizer_peek (CSON_Tokenizer_new (cstr "_")) = .ok ⟨⟨cstr "_", 1⟩, .WORD⟩ :=
  ⟨by decide, by decide, by decide, rfl⟩

/-- The string loop finds nothing in a text without quote. -/
theorem scanString_none (cs : List Nat) (hq : 34 ∉ cs) : ∀ i, scanString cs i = none := by
  induction cs with
  | nil => intro i; rfl
  | cons c cs ih =>
    intro i
    have h1 : c ≠ 34 := fun h => hq (by simp [h])
    rw [scanString, if_neg h1]
    by_cases h2 : c = 0
    · rw [if_pos h2]
    · rw [if_neg h2]
      exact ih (fun h => hq (by simp [h])) (i + 1)

/-- An opening quote followed by at least one byte and by no further quote is the
end-of-input token of length 0, and is rejected by `CSON_parse`. -/
theorem unterminated_string (s : List Nat) (hne : s ≠ []) (hq : 34 ∉ s) (len : Nat) :
    CSON_Tokenizer_peek ⟨⟨34 :: s, len⟩⟩ = .ok ⟨⟨s, 0⟩, .EOF⟩ ∧
    CSON_parse (34 :: s) = .ok .CSON_ERROR := by
  have hpeek : ∀ len, CSON_Tokenizer_peek ⟨⟨34 :: s, len⟩⟩ = .ok ⟨⟨s, 0⟩, .EOF⟩ := by
    intro len
    cases s with
    | nil => exact absurd rfl hne
    | cons d s2 =>
      have hT : CSON_Tokenizer_identify_token_type 34 = .STRING := by decide
      rw [peek_cons, hT]
      simp only [scanString_none s2 (fun h => hq (by simp [h])) 1]
  refine ⟨hpeek len, ?_⟩
  have hc := consume_of_peek (hpeek (strlen (34 :: s)))
  exact parse_of_element ⟨1, elem_error hc (by simp) 0⟩

/-- C19 (defect of the code): on the text that is a single quote character,
`CSON_Tokenizer_peek` returns no end-of-input token: it steps over the quote onto the
terminator and reads the byte after the terminator, outside the buffer; `CSON_parse`
does not return `CSON_ERROR` either. -/
theorem C19_lone_quote_reads_past_terminator :
    CSON_Tokenizer_peek (CSON_Tokenizer_new (cstr "\"")) = .error .outOfBounds ∧
    CSON_parse (cstr "\"") = .error .outOfBounds :=
  ⟨rfl, rfl⟩


/-! ### The growable buffer -/

theorem pushAll_holds {α : Type} (xs : List α) : ∀ (vec : CVec α) (pre : List α),
    vec.Holds pre → ∃ vec1, pushAll xs vec = .ok vec1 ∧ vec1.Holds (pre ++ xs) := by
  induction xs with
  | nil => intro vec pre h; exact ⟨vec, rfl, by simpa using h⟩
  | cons x xs ih =>
    intro vec pre h
    obtain ⟨v1, h1, h2⟩ := push_holds h x
    obtain ⟨v2, h3, h4⟩ := ih v1 (pre ++ [x]) h2
    refine ⟨v2, ?_, by simpa using h4⟩
    simp only [pushAll, h1, h3]

/-- From a positive initial capacity, pushing `x_0 .. x_{N-1}` gives the count `N`, and
`CVec_get` returns `x_i` at every index `i < N`, across every growth of the capacity. -/
theorem pushAll_positive_capacity {α : Type} (size cap : Nat) (hcap : 0 < cap)
    (xs : List α) :
    ∃ vec, pushAll xs (CVec_init size cap) = .ok vec ∧ vec.element_count = xs.length ∧
      vec.element_count ≤ vec.element_capacity ∧
      ∀ i (hi : i < xs.length), CVec_get vec i = some xs[i] := by
  obtain ⟨vec, h1, h2⟩ := pushAll_holds xs (CVec_init size cap) [] (init_holds size cap hcap)
  simp only [List.nil_append] at h2
  refine ⟨vec, h1, h2.2.2.1, h2.2.1, ?_⟩
  intro i hi
  rw [get_holds h2, List.getElem?_eq_getElem hi]

/-- C13 (defect of the code): a buffer created with the initial capacity 0 takes no
element. `CVec_grow` doubles the capacity 0 to 0 and asks `realloc` for 0 bytes, so the
first `CVec_push_back` stores nothing and leaves through `exit(1)`: the count does not
become `N` and nothing can be read back. -/
theorem C13_zero_capacity_takes_no_element {α : Type} (size : Nat) (x : α) (xs : List α) :
    pushAll (x :: xs) (CVec_init size 0) = .error .exitFailure := by
  simp only [pushAll, push_back_zero (CVec_init size 0) x rfl rfl]

/-- With a positive capacity and `count <= capacity`, `CVec_push_back` keeps
`count <= capacity`: the capacity is doubled when the buffer is full and kept otherwise. -/
theorem push_back_capacity {α : Type} (vec : CVec α) (x : α)
    (hcap : 0 < vec.element_capacity) (hle : vec.element_count ≤ vec.element_capacity) :
    ∃ vec1, CVec_push_back vec x = .ok vec1 ∧
      vec1.element_count = vec.element_count + 1 ∧
      vec1.element_count ≤ vec1.element_capacity ∧
      (vec.element_count = vec.element_capacity →
        vec1.element_capacity = vec.element_capacity * 2) ∧
      (vec.element_count < vec.element_capacity →
        vec1.element_capacity = vec.element_capacity) := by
  by_cases hfull : vec.element_count = vec.element_capacity
  · refine ⟨_, push_back_full vec x hfull hcap, rfl, ?_, fun _ => rfl, fun h => ?_⟩
    · simp only []
      omega
    · omega
  · have hlt : vec.element_count < vec.element_capacity := by omega
    refine ⟨_, push_back_room vec x hlt, rfl, ?_, fun h => absurd h hfull, fun _ => rfl⟩
    simp only []
    omega

/-- C14: `CVec_get` with an index at or above the count and `CVec_pop_back` on a buffer
with the count 0 return false and leave the caller's element as it was; the buffer (its
count, capacity and contents) is the same after the call. `CVec_pop_back` on a buffer
whose count is positive returns true with the element of the last slot, and lowers the
count by exactly 1, the capacity and the contents staying as they were. -/
theorem C14_absence_and_pop {α : Type} (vec : CVec α) (element : α) :
    (∀ index, index ≥ vec.element_count →
      CVec_get vec index = none ∧ CVec_get_call vec index element = (false, element)) ∧
    (vec.element_count = 0 →
      CVec_pop_back vec = (none, vec) ∧
      CVec_pop_back_call vec element = (false, element, vec)) ∧
    (∀ x, 0 < vec.element_count → vec.data[vec.element_count - 1]? = some x →
      CVec_pop_back_call vec element =
        (true, x, { vec with element_count := vec.element_count - 1 })) := by
  refine ⟨?_, ?_, ?_⟩
  · intro index hi
    have h : CVec_get vec index = none := by
      unfold CVec_get
      rw [if_pos hi]
    exact ⟨h, by simp only [CVec_get_call, h]⟩
  · intro h0
    have h : CVec_pop_back vec = (none, vec) := by
      unfold CVec_pop_back
      rw [if_pos h0]
    exact ⟨h, by simp only [CVec_pop_back_call, h]⟩
  · intro x hpos hx
    have hne : ¬ vec.element_count = 0 := by omega
    have hget : CVec_get vec (vec.element_count - 1) = some x := by
      unfold CVec_get
      rw [if_neg (by omega), hx]
    have h : CVec_pop_back vec =
        (some x, { vec with element_count := vec.element_count - 1 }) := by
      unfold CVec_pop_back
      rw [if_neg hne]
      simp only [hget]
    simp only [CVec_pop_back_call, h]

theorem C14_absence_and_pop_witness :
    (2 ≥ (⟨2, 8, [10, 20], 16⟩ : CVec Nat).element_count ∧
      CVec_get (⟨2, 8, [10, 20], 16⟩ : CVec Nat) 2 = none ∧
      CVec_get_call (⟨2, 8, [10, 20], 16⟩ : CVec Nat) 2 7 = (false, 7)) ∧
    ((⟨0, 8, [], 16⟩ : CVec Nat).element_count = 0 ∧
      CVec_pop_back (⟨0, 8, [], 16⟩ : CVec Nat) = (none, ⟨0, 8, [], 16⟩) ∧
      CVec_pop_back_call (⟨0, 8, [], 16⟩ : CVec Nat) 7 = (false, 7, ⟨0, 8, [], 16⟩)) ∧
    (0 < (⟨2, 8, [10, 20], 16⟩ : CVec Nat).element_count ∧
      (⟨2, 8, [10, 20], 16⟩ : CVec Nat).data[2 - 1]? = some 20 ∧
      CVec_pop_back_call (⟨2, 8, [10, 20], 16⟩ : CVec Nat) 7 =
        (true, 20, ⟨1, 8, [10, 20], 16⟩)) :=
  ⟨⟨by decide, (C14_absence_and_pop (⟨2, 8, [10, 20], 16⟩ : CVec Nat) 7).1 2 (by decide)⟩,
   ⟨rfl, (C14_absence_and_pop (⟨0, 8, [], 16⟩ : CVec Nat) 7).2.1 rfl⟩,
   ⟨by decide, rfl,
    (C14_absence_and_pop (⟨2, 8, [10, 20], 16⟩ : CVec Nat) 7).2.2 20 (by decide) rfl⟩⟩


/-! ### Release of containers -/

theorem pop_back_at {α : Type} (k size cap : Nat) (xs : List α) (x : α)
    (hx : xs[k]? = some x) :
    CVec_pop_back (⟨k + 1, size, xs, cap⟩ : CVec α) = (some x, ⟨k, size, xs, cap⟩) := by
  unfold CVec_pop_back CVec_get
  simp [hx]

theorem take_succ_reverse {α : Type} (xs : List α) (j : Nat) (hlt : j < xs.length) :
    (xs.take (j + 1)).reverse = xs[j] :: (xs.take j).reverse := by
  rw [List.take_succ, List.getElem?_eq_getElem hlt]
  simp

theorem array_free_loop_run (x0 : CSON) (rest : List CSON) (size cap : Nat) :
    ∀ (j : Nat) (v : CSON) (fuel : Nat), j ≤ rest.length → j + 1 < fuel →
      CSON_Array_free_loop fuel ⟨j + 1, size, x0 :: rest, cap⟩ (some v) =
        .ok (.block v :: (rest.take j).reverse.map .block) := by
  intro j
  induction j with
  | zero =>
    intro v fuel _ hf
    obtain ⟨g, rfl⟩ : ∃ g, fuel = g + 2 := ⟨fuel - 2, by omega⟩
    rw [CSON_Array_free_loop, pop_back_at 0 size cap (x0 :: rest) x0 (by simp)]
    simp [free_local, popInto, CSON_Array_free_loop]
  | succ j ih =>
    intro v fuel hj hf
    obtain ⟨g, rfl⟩ : ∃ g, fuel = g + 1 := ⟨fuel - 1, by omega⟩
    have hlt : j < rest.length := by omega
    have hx : (x0 :: rest)[j + 1]? = some rest[j] := by
      simp [List.getElem?_eq_getElem hlt]
    rw [CSON_Array_free_loop, pop_back_at (j + 1) size cap (x0 :: rest) rest[j] hx]
    have hrec := ih rest[j] g (by omega) (by omega)
    rw [if_pos (by simp)]
    simp only [popInto, free_local, hrec]
    rw [take_succ_reverse rest j hlt]
    rfl

theorem array_free_at (x0 : CSON) (rest : List CSON) (size cap : Nat) :
    ∀ n, n = rest.length →
    CSON_Array_free ⟨n + 1, size, x0 :: rest, cap⟩ =
      .ok (rest.reverse.map .block ++ [.block (.Array ⟨n + 1, size, x0 :: rest, cap⟩)]) := by
  intro n hn
  unfold CSON_Array_free
  cases n with
  | zero =>
    have hr : rest = [] := List.length_eq_zero.mp hn.symm
    subst hr
    rw [pop_back_at 0 size cap [x0] x0 (by simp)]
    simp [CSON_Array_free_loop, popInto]
  | succ j =>
    have hlt : j < rest.length := by omega
    have hx : (x0 :: rest)[j + 1]? = some rest[j] := by
      simp [List.getElem?_eq_getElem hlt]
    rw [pop_back_at (j + 1) size cap (x0 :: rest) rest[j] hx]
    simp only [popInto]
    rw [array_free_loop_run x0 rest size cap j rest[j] (j + 1 + 1 + 1) (by omega) (by omega)]
    have ht : rest.take (j + 1) = rest := by
      rw [hn]
      exact List.take_length rest
    have hrev : rest.reverse = rest[j] :: (rest.take j).reverse := by
      rw [← take_succ_reverse rest j hlt, ht]
    simp only [hrev, List.map_cons]

/-- On an array that holds `x0 :: rest`, `CSON_Array_free` returns after these calls of
`free`: the structs of the children after the first, last to first, then the array. -/
theorem array_free_released (x0 : CSON) (rest : List CSON) (array : CVec CSON)
    (h : array.Holds (x0 :: rest)) :
    CSON_Array_free array = .ok (rest.reverse.map .block ++ [.block (.Array array)]) := by
  obtain ⟨n, size, data, cap⟩ := array
  obtain ⟨_, _, hn, hd⟩ := h
  simp only at hn hd
  subst hd
  simp only [List.length_cons] at hn
  subst hn
  exact array_free_at x0 rest size cap rest.length rfl

/-- On an empty array, `CSON_Array_free` releases the array only. -/
theorem array_free_empty (array : CVec CSON) (h : array.element_count = 0) :
    CSON_Array_free array = .ok [.block (.Array array)] := by
  unfold CSON_Array_free CVec_pop_back
  simp [h, CSON_Array_free_loop, popInto]

theorem freedMembers_append (xs ys : List (CSON_String × CSON)) :
    freedMembers (xs ++ ys) = freedMembers ys ++ freedMembers xs := by
  induction xs with
  | nil => simp [freedMembers]
  | cons m xs ih =>
    obtain ⟨key, value⟩ := m
    simp [freedMembers, ih]

theorem freedMembers_take_succ (zs : List (CSON_String × CSON)) (j : Nat)
    (hlt : j < zs.length) :
    freedMembers (zs.take (j + 1)) =
      .block (.String zs[j].1) :: .block zs[j].2 :: freedMembers (zs.take j) := by
  rw [List.take_succ, List.getElem?_eq_getElem hlt, freedMembers_append]
  rfl

theorem object_free_loop_run (k0 : CSON_String) (krest : List CSON_String) (x0 : CSON)
    (rest : List CSON) (ksize kcap size cap : Nat) :
    ∀ (j : Nat) (k : CSON_String) (v : CSON) (fuel : Nat),
      j ≤ krest.length → j ≤ rest.length → j + 1 < fuel →
      CSON_Object_free_loop fuel ⟨j + 1, ksize, k0 :: krest, kcap⟩
          ⟨j + 1, size, x0 :: rest, cap⟩ (some k) (some v) =
        .ok (.block (.String k) :: .block v :: freedMembers ((krest.zip rest).take j)) := by
  intro j
  induction j with
  | zero =>
    intro k v fuel _ _ hf
    obtain ⟨g, rfl⟩ : ∃ g, fuel = g + 2 := ⟨fuel - 2, by omega⟩
    rw [CSON_Object_free_loop, pop_back_at 0 size cap (x0 :: rest) x0 (by simp),
      pop_back_at 0 ksize kcap (k0 :: krest) k0 (by simp)]
    simp [free_local, popInto, CSON_Object_free_loop, freedMembers]
  | succ j ih =>
    intro k v fuel hjk hj hf
    obtain ⟨g, rfl⟩ : ∃ g, fuel = g + 1 := ⟨fuel - 1, by omega⟩
    have hlt : j < rest.length := by omega
    have hltk : j < krest.length := by omega
    have hltz : j < (krest.zip rest).length := by
      simp only [List.length_zip]
      omega
    have hx : (x0 :: rest)[j + 1]? = some rest[j] := by
      simp [List.getElem?_eq_getElem hlt]
    have hk : (k0 :: krest)[j + 1]? = some krest[j] := by
      simp [List.getElem?_eq_getElem hltk]
    rw [CSON_Object_free_loop, pop_back_at (j + 1) size cap (x0 :: rest) rest[j] hx,
      pop_back_at (j + 1) ksize kcap (k0 :: krest) krest[j] hk]
    have hrec := ih krest[j] rest[j] g (by omega) (by omega) (by omega)
    rw [if_pos (by simp)]
    simp only [popInto, free_local, Option.map_some', hrec]
    rw [freedMembers_take_succ (krest.zip rest) j hltz]
    simp [List.getElem_zip]

theorem object_free_at (k0 : CSON_String) (krest : List CSON_String) (x0 : CSON)
    (rest : List CSON) (ksize kcap size cap : Nat) :
    ∀ n, n = rest.length → n = krest.length →
    CSON_Object_free ⟨n + 1, ksize, k0 :: krest, kcap⟩ ⟨n + 1, size, x0 :: rest, cap⟩ =
      .ok (freedMembers (krest.zip rest) ++
        [.block (.Object ⟨n + 1, ksize, k0 :: krest, kcap⟩ ⟨n + 1, size, x0 :: rest, cap⟩)]) := by
  intro n hn hnk
  unfold CSON_Object_free
  cases n with
  | zero =>
    have hr : rest = [] := List.length_eq_zero.mp hn.symm
    have hkr : krest = [] := List.length_eq_zero.mp hnk.symm
    subst hr hkr
    rw [pop_back_at 0 size cap [x0] x0 (by simp), pop_back_at 0 ksize kcap [k0] k0 (by simp)]
    simp [CSON_Object_free_loop, popInto, freedMembers]
  | succ j =>
    have hlt : j < rest.length := by omega
    have hltk : j < krest.length := by omega
    have hltz : j < (krest.zip rest).length := by
      simp only [List.length_zip]
      omega
    have hx : (x0 :: rest)[j + 1]? = some rest[j] := by
      simp [List.getElem?_eq_getElem hlt]
    have hk : (k0 :: krest)[j + 1]? = some krest[j] := by
      simp [List.getElem?_eq_getElem hltk]
    rw [pop_back_at (j + 1) size cap (x0 :: rest) rest[j] hx,
      pop_back_at (j + 1) ksize kcap (k0 :: krest) krest[j] hk]
    simp only [popInto]
    rw [object_free_loop_run k0 krest x0 rest ksize kcap size cap j krest[j] rest[j]
      (j + 1 + 1 + 1) (by omega) (by omega) (by omega)]
    have ht : (krest.zip rest).take (j + 1) = krest.zip rest := by
      apply List.take_of_length_le
      simp only [List.length_zip]
      omega
    have hall : freedMembers (krest.zip rest) =
        .block (.String krest[j]) :: .block rest[j] ::
          freedMembers ((krest.zip rest).take j) := by
      conv_lhs => rw [← ht]
      rw [freedMembers_take_succ (krest.zip rest) j hltz]
      simp [List.getElem_zip]
    simp only [hall]

/-- On an object that holds the members `(k0, x0) :: zip krest rest`, `CSON_Object_free`
returns after these calls of `free`: the key struct and the value struct of each member
after the first, last to first, then the object. -/
theorem object_free_released (k0 : CSON_String) (krest : List CSON_String) (x0 : CSON)
    (rest : List CSON) (keys : CVec CSON_String) (data : CVec CSON)
    (hk : keys.Holds (k0 :: krest)) (h : data.Holds (x0 :: rest))
    (hlen : krest.length = rest.length) :
    CSON_Object_free keys data =
      .ok (freedMembers (krest.zip rest) ++ [.block (.Object keys data)]) := by
  obtain ⟨n, size, d, cap⟩ := data
  obtain ⟨nk, ksize, dk, kcap⟩ := keys
  obtain ⟨_, _, hn, hd⟩ := h
  obtain ⟨_, _, hnk, hdk⟩ := hk
  simp only at hn hd hnk hdk
  subst hd hdk
  simp only [List.length_cons] at hn hnk
  subst hn hnk
  rw [hlen]
  exact object_free_at k0 krest x0 rest ksize kcap size cap rest.length rfl hlen.symm

/-- On an empty object, `CSON_Object_free` releases the object only. -/
theorem object_free_empty (keys : CVec CSON_String) (data : CVec CSON)
    (h : data.element_count = 0) :
    CSON_Object_free keys data = .ok [.block (.Object keys data)] := by
  unfold CSON_Object_free CVec_pop_back
  simp [h, CSON_Object_free_loop, popInto]

/-- C16 (defect of the code): freeing a container does not release every child. After
`CSON_parse` of `[true]`, `CSON_free` makes one call of `free`, on the array: the child
`true` is popped and never released. After `[[true],"ab"]` it releases the struct of the
string alone (not its characters) and the array, and nothing of the child `[true]`.
After the object with the one member `"k":true` it releases the object only, neither the
key nor the value. -/
theorem C16_free_leaves_children :
    CSON_parse (cstr "[true]") = .ok (.CSON_SUCCES oneChild) ∧
    CSON_free oneChild = .ok [.block oneChild] ∧
    CSON_Array_free ⟨1, sizeof_ptr, [.Literal .TRUE], CSON_DEFAULT_MEMBLOCK_SIZE⟩ =
      .ok [.block oneChild] ∧
    CSON_parse (cstr "[[true],\"ab\"]") = .ok (.CSON_SUCCES nestedChildren) ∧
    CSON_free nestedChildren =
      .ok [.block (.String ⟨⟨cstr "ab", 2⟩⟩), .block nestedChildren] ∧
    CSON_parse (cstr "\x7b\"k\":true\x7d") = .ok (.CSON_SUCCES oneMember) ∧
    CSON_free oneMember = .ok [.block oneMember] ∧
    CSON_Object_free ⟨1, sizeof_ptr, [⟨⟨cstr "k", 1⟩⟩], CSON_DEFAULT_MEMBLOCK_SIZE⟩
        ⟨1, sizeof_ptr, [.Literal .TRUE], CSON_DEFAULT_MEMBLOCK_SIZE⟩ =
      .ok [.block oneMember] :=
  ⟨rfl, rfl, rfl, rfl, rfl, rfl, rfl, rfl⟩


/-! ### Tokens of a text that is followed by more text -/

theorem scanNumber_append (t : List Nat) (cs : List Nat) :
    ∀ i, scanNumber cs i < i + cs.length → scanNumber (cs ++ t) i = scanNumber cs i := by
  induction cs with
  | nil => intro i h; simp [scanNumber] at h
  | cons c cs ih =>
    intro i h
    simp only [List.cons_append]
    by_cases hc : ((48 ≤ c ∧ c ≤ 57) ∨ c = 46) ∧ c ≠ 0
    · simp only [scanNumber, if_pos hc] at h ⊢
      exact ih (i + 1) (by simp only [List.length_cons] at h; omega)
    · simp only [scanNumber, if_neg hc]

theorem scanWord_append (t : List Nat) (cs : List Nat) :
    ∀ i, scanWord cs i < i + cs.length → scanWord (cs ++ t) i = scanWord cs i := by
  induction cs with
  | nil => intro i h; simp [scanWord] at h
  | cons c cs ih =>
    intro i h
    simp only [List.cons_append]
    by_cases hc : CSON_Tokenizer_identify_token_type c = .WORD
    · simp only [scanWord, if_pos hc] at h ⊢
      exact ih (i + 1) (by simp only [List.length_cons] at h; omega)
    · simp only [scanWord, if_neg hc]

theorem scanString_append (t : List Nat) (cs : List Nat) :
    ∀ i j, scanString cs i = some j → scanString (cs ++ t) i = some j := by
  induction cs with
  | nil => intro i j h; simp [scanString] at h
  | cons c cs ih =>
    intro i j h
    simp only [List.cons_append]
    rw [scanString] at h ⊢
    by_cases h1 : c = 34
    · rw [if_pos h1] at h ⊢
      exact h
    · rw [if_neg h1] at h ⊢
      by_cases h2 : c = 0
      · rw [if_pos h2] at h
        simp at h
      · rw [if_neg h2] at h ⊢
        exact ih (i + 1) j h

/-- A token that is no end of input, and that ends before the end of the text when it is
a number or a word, is the same token when more text follows. -/
theorem peek_append (t : List Nat) {s : List Nat} {len : Nat} {tok : CSON_Token}
    (h : CSON_Tokenizer_peek ⟨⟨s, len⟩⟩ = .ok tok)
    (hne : tok.type ≠ .EOF) (hws : tok.type ≠ .WS)
    (hin : tok.type = .NUMBER ∨ tok.type = .WORD → tok.sv.len < s.length) (len1 : Nat) :
    CSON_Tokenizer_peek ⟨⟨s ++ t, len1⟩⟩ = .ok ⟨⟨tok.sv.str ++ t, tok.sv.len⟩, tok.type⟩ := by
  cases s with
  | nil =>
    rw [peek_nil] at h
    simp at h
    subst h
    exact absurd rfl hne
  | cons c rest =>
    rw [peek_cons] at h
    simp only [List.cons_append]
    rw [peek_cons]
    cases hc : CSON_Tokenizer_identify_token_type c <;> simp only [hc] at h ⊢
    case STRING =>
      cases rest with
      | nil => simp at h
      | cons d rest2 =>
        simp only [List.cons_append] at h ⊢
        cases hs : scanString rest2 1 with
        | none =>
          simp [hs] at h
          subst h
          exact absurd rfl hne
        | some i =>
          simp [hs] at h
          subst h
          simp [scanString_append t rest2 1 i hs]
    case UNKNOWN => simp at h
    case NUMBER =>
      simp at h
      subst h
      have := hin (Or.inl rfl)
      simp only [List.length_cons] at this
      simp [scanNumber_append t rest 1 (by omega)]
    case WORD =>
      simp at h
      subst h
      have := hin (Or.inr rfl)
      simp only [List.length_cons] at this
      simp [scanWord_append t rest 1 (by omega)]
    case EOF =>
      simp at h
      subst h
      exact absurd rfl hne
    case WS =>
      simp at h
      subst h
      exact absurd rfl hws
    all_goals
      simp at h
      subst h
      simp

theorem consume_append (t : List Nat) {tk tk1 : CSON_Tokenizer} {tok : CSON_Token}
    (h : CSON_Tokenizer_consume tk = .ok (tok, tk1))
    (hne : tok.type ≠ .EOF) (hws : tok.type ≠ .WS)
    (hin : tok.type = .NUMBER ∨ tok.type = .WORD → tk1.sv.str ≠ []) (len1 : Nat) :
    CSON_Tokenizer_consume (tokenizerWithTail t len1 tk) =
      .ok (⟨⟨tok.sv.str ++ t, tok.sv.len⟩, tok.type⟩, tokenizerWithTail t len1 tk1) := by
  obtain ⟨hp, rfl⟩ := consume_ok_iff.1 h
  obtain ⟨⟨s, len⟩⟩ := tk
  have hadv := (peek_advance hp).1
  simp only at hadv hin
  have hin2 : tok.type = .NUMBER ∨ tok.type = .WORD → tok.sv.len < s.length := by
    intro hty
    have h1 := hin hty
    have h2 : tokenAdvance tok = tok.sv.len := by
      rcases hty with h3 | h3 <;> simp [tokenAdvance, h3]
    rw [h2] at h1 hadv
    by_contra hge
    exact h1 (List.drop_eq_nil_of_le (by omega))
  have hp2 := peek_append t hp hne hws hin2 len1
  rw [consume_ok_iff]
  refine ⟨hp2, ?_⟩
  simp only [tokenizerWithTail, tokenAdvance] at hadv ⊢
  rw [List.drop_append_of_le_length hadv]


/-! ### Parsing a text that is followed by more text -/

theorem withTailList_eq_map (t : List Nat) (xs : List CSON) :
    withTailList t xs = xs.map (CSON.withTail t) := by
  induction xs with
  | nil => rfl
  | cons x xs ih => simp [withTailList, ih]

theorem push_back_withTail (t : List Nat) {a a1 : CVec CSON} {x : CSON}
    (h : CVec_push_back a x = .ok a1) :
    CVec_push_back (vecWithTail t a) (x.withTail t) = .ok (vecWithTail t a1) := by
  rcases push_back_cases a with hc | hc | hc | hc
  · rw [push_back_full a x hc.1 hc.2] at h
    simp only [Except.ok.injEq] at h
    subst h
    rw [push_back_full (vecWithTail t a) (x.withTail t) hc.1 hc.2]
    simp [vecWithTail, withTailList_eq_map, CVec_store, List.map_set, apply_ite]
  · rw [push_back_room a x hc] at h
    simp only [Except.ok.injEq] at h
    subst h
    rw [push_back_room (vecWithTail t a) (x.withTail t) hc]
    simp [vecWithTail, withTailList_eq_map, CVec_store, List.map_set, apply_ite]
  · rw [push_back_zero a x hc.1 hc.2] at h
    simp at h
  · rw [push_back_above a x hc] at h
    simp at h

theorem insert_withTail (t : List Nat) {o o1 : CVec CSON_String × CVec CSON}
    {k : CSON_String} {x : CSON} (h : CSON_Object_insert o k x = .ok o1) :
    CSON_Object_insert (o.1, vecWithTail t o.2) k (x.withTail t) =
      .ok (o1.1, vecWithTail t o1.2) := by
  unfold CSON_Object_insert at h ⊢
  cases h1 : CVec_push_back o.1 k with
  | error f => simp [h1] at h
  | ok keys =>
    simp only [h1] at h ⊢
    cases h2 : CVec_push_back o.2 x with
    | error f => simp [h2] at h
    | ok data =>
      simp only [h2, Except.ok.injEq] at h
      subst h
      simp only [push_back_withTail t h2]

/-- The length of a peeked token lies inside the text the token points to. -/
theorem peek_len_le {tk : CSON_Tokenizer} {tok : CSON_Token}
    (h : CSON_Tokenizer_peek tk = .ok tok) : tok.sv.len ≤ tok.sv.str.length := by
  obtain ⟨⟨str, len⟩⟩ := tk
  cases str with
  | nil =>
    rw [peek_nil] at h
    simp at h
    subst h
    simp
  | cons c rest =>
    rw [peek_cons] at h
    have hw := scanWS_bound rest 1
    have hn := scanNumber_bound rest 1
    have hd := scanWord_bound rest 1
    cases hc : CSON_Tokenizer_identify_token_type c <;> simp only [hc] at h
    case STRING =>
      cases rest with
      | nil => simp at h
      | cons d rest2 =>
        simp only at h
        cases hs : scanString rest2 1 with
        | none =>
          simp [hs] at h
          subst h
          simp
        | some i =>
          have hb := scanString_bound rest2 1 i hs
          simp [hs] at h
          subst h
          simp
          omega
    case UNKNOWN => simp at h
    all_goals
      simp at h
      subst h
      simp
      try omega

/-- The type of the token at the cursor is the same when more text follows, unless the
token is the end of input. -/
theorem peek_type_append (t : List Nat) {s : List Nat} {len : Nat} {tok : CSON_Token}
    (h : CSON_Tokenizer_peek ⟨⟨s, len⟩⟩ = .ok tok) (hne : tok.type ≠ .EOF) (len1 : Nat) :
    ∃ tok1, CSON_Tokenizer_peek ⟨⟨s ++ t, len1⟩⟩ = .ok tok1 ∧ tok1.type = tok.type := by
  cases s with
  | nil =>
    rw [peek_nil] at h
    simp at h
    subst h
    exact absurd rfl hne
  | cons c rest =>
    rw [peek_cons] at h
    simp only [List.cons_append]
    rw [peek_cons]
    cases hc : CSON_Tokenizer_identify_token_type c <;> simp only [hc] at h ⊢
    case STRING =>
      cases rest with
      | nil => simp at h
      | cons d rest2 =>
        simp only [List.cons_append] at h ⊢
        cases hs : scanString rest2 1 with
        | none =>
          simp [hs] at h
          subst h
          exact absurd rfl hne
        | some i =>
          simp [hs] at h
          subst h
          simp [scanString_append t rest2 1 i hs]
    case UNKNOWN => simp at h
    all_goals
      simp at h
      subst h
      simp

theorem sv_eq_append (t : List Nat) (sv B : CSON_SV) (h : sv.len ≤ sv.str.length) :
    CSON_SV_eq ⟨sv.str ++ t, sv.len⟩ B = CSON_SV_eq sv B := by
  simp only [CSON_SV_eq, List.take_append_of_le_length h]

theorem string_from_sv_append (t : List Nat) (sv : CSON_SV) (h : sv.len ≤ sv.str.length) :
    CSON_String_from_sv ⟨sv.str ++ t, sv.len⟩ = CSON_String_from_sv sv := by
  simp only [CSON_String_from_sv, List.take_append_of_le_length h]

/-- A token other than the end of input is consumed from a text that is not empty. -/
theorem consume_nonempty {tk tk1 : CSON_Tokenizer} {tok : CSON_Token}
    (h : CSON_Tokenizer_consume tk = .ok (tok, tk1)) (hne : tok.type ≠ .EOF) :
    tk.sv.str ≠ [] := by
  have := (consume_ok h).2.2 hne
  intro h0
  rw [h0] at this
  simp at this

/-- The loop of `CSON_parse_array` that goes on to succeed from a token other than `]`
finds a token other than the end of input at the cursor. -/
theorem array_loop_first {fuel : Nat} {a : CVec CSON} {token : CSON_Token}
    {tk tk1 : CSON_Tokenizer} {v : CSON}
    (h : CSON_parse_array_loop fuel a token tk = .ok (.CSON_SUCCES v, tk1))
    (hne : token.type ≠ .SQUARE_CLOSE) :
    ∃ tok, CSON_Tokenizer_peek tk = .ok tok ∧ tok.type ≠ .EOF := by
  cases fuel with
  | zero => simp [CSON_parse_array_loop] at h
  | succ n =>
    rw [CSON_parse_array_loop, if_neg hne] at h
    cases he : CSON_parse_element n tk with
    | error f => simp [he] at h
    | ok p =>
      obtain ⟨res, tk2⟩ := p
      simp only [he] at h
      cases res with
      | CSON_ERROR => simp at h
      | CSON_SUCCES value =>
        obtain ⟨tok, hp, hty⟩ := element_variant he
        refine ⟨tok, hp, ?_⟩
        rcases hty with h1 | h1 | h1 | h1 | h1 <;> rw [h1.1] <;> decide

theorem object_loop_first {fuel : Nat} {o : CVec CSON_String × CVec CSON}
    {token : CSON_Token} {tk tk1 : CSON_Tokenizer} {v : CSON}
    (h : CSON_parse_object_loop fuel o token tk = .ok (.CSON_SUCCES v, tk1))
    (hne : token.type ≠ .CURLY_CLOSE) :
    ∃ tok, CSON_Tokenizer_peek tk = .ok tok ∧ tok.type ≠ .EOF := by
  cases fuel with
  | zero => simp [CSON_parse_object_loop] at h
  | succ n =>
    rw [CSON_parse_object_loop, if_neg hne] at h
    cases he : CSON_parse_element n tk with
    | error f => simp [he] at h
    | ok p =>
      obtain ⟨res, tk2⟩ := p
      simp only [he] at h
      cases res with
      | CSON_ERROR => simp at h
      | CSON_SUCCES value =>
        obtain ⟨tok, hp, hty⟩ := element_variant he
        refine ⟨tok, hp, ?_⟩
        rcases hty with h1 | h1 | h1 | h1 | h1 <;> rw [h1.1] <;> decide


/-- A run that succeeds is repeated step by step when the text `t` is added before the
terminator: the same value is built, with `t` at the end of the text of each number,
and the cursor is left at the same place. For a number or a literal this needs a byte
of the first text after the token, which then ends the token in both texts. -/
theorem parse_append (t : List Nat) : ∀ fuel,
    (∀ tk v tk1, CSON_parse_element fuel tk = .ok (.CSON_SUCCES v, tk1) →
      (CSON_is_container v = false → CSON_is_string v = false → tk1.sv.str ≠ []) →
      ∀ len1, CSON_parse_element fuel (tokenizerWithTail t len1 tk) =
        .ok (.CSON_SUCCES (v.withTail t), tokenizerWithTail t len1 tk1)) ∧
    (∀ tk v tk1, CSON_parse_array fuel tk = .ok (.CSON_SUCCES v, tk1) →
      ∀ len1, CSON_parse_array fuel (tokenizerWithTail t len1 tk) =
        .ok (.CSON_SUCCES (v.withTail t), tokenizerWithTail t len1 tk1)) ∧
    (∀ a token token1 tk v tk1,
      CSON_parse_array_loop fuel a token tk = .ok (.CSON_SUCCES v, tk1) →
      (token1.type = .SQUARE_CLOSE ↔ token.type = .SQUARE_CLOSE) →
      ∀ len1, CSON_parse_array_loop fuel (vecWithTail t a) token1
          (tokenizerWithTail t len1 tk) =
        .ok (.CSON_SUCCES (v.withTail t), tokenizerWithTail t len1 tk1)) ∧
    (∀ tk v tk1, CSON_parse_object fuel tk = .ok (.CSON_SUCCES v, tk1) →
      ∀ len1, CSON_parse_object fuel (tokenizerWithTail t len1 tk) =
        .ok (.CSON_SUCCES (v.withTail t), tokenizerWithTail t len1 tk1)) ∧
    (∀ o token token1 tk v tk1,
      CSON_parse_object_loop fuel o token tk = .ok (.CSON_SUCCES v, tk1) →
      (token1.type = .CURLY_CLOSE ↔ token.type = .CURLY_CLOSE) →
      ∀ len1, CSON_parse_object_loop fuel (o.1, vecWithTail t o.2) token1
          (tokenizerWithTail t len1 tk) =
        .ok (.CSON_SUCCES (v.withTail t), tokenizerWithTail t len1 tk1)) := by
  intro fuel
  induction fuel with
  | zero =>
    refine ⟨?_, ?_, ?_, ?_, ?_⟩ <;> intros <;> simp_all [CSON_parse_element,
      CSON_parse_array, CSON_parse_array_loop, CSON_parse_object, CSON_parse_object_loop]
  | succ n ih =>
    obtain ⟨ihe, iha, ihal, iho, ihol⟩ := ih
    refine ⟨?_, ?_, ?_, ?_, ?_⟩
    · -- CSON_parse_element
      intro tk v tk1 h hleaf len1
      rw [CSON_parse_element] at h
      cases hc : CSON_Tokenizer_consume tk with
      | error f => simp [hc] at h
      | ok p =>
        obtain ⟨tok, tk2⟩ := p
        have hlen := peek_len_le (consume_ok_iff.1 hc).1
        simp only [hc] at h
        rw [CSON_parse_element]
        cases ht : tok.type <;> simp only [ht] at h
        case CURLY_OPEN =>
          rw [consume_append t hc (by rw [ht]; decide) (by rw [ht]; decide)
            (by rw [ht]; simp) len1]
          simp only [ht]
          exact iho _ _ _ h len1
        case SQUARE_OPEN =>
          rw [consume_append t hc (by rw [ht]; decide) (by rw [ht]; decide)
            (by rw [ht]; simp) len1]
          simp only [ht]
          exact iha _ _ _ h len1
        case STRING =>
          rw [consume_append t hc (by rw [ht]; decide) (by rw [ht]; decide)
            (by rw [ht]; simp) len1]
          simp only [ht, string_from_sv_append t tok.sv hlen]
          simp only [Except.ok.injEq, Prod.mk.injEq, CSON_Result.CSON_SUCCES.injEq] at h
          obtain ⟨rfl, rfl⟩ := h
          rfl
        case NUMBER =>
          simp only [CSON_Number_new, Except.ok.injEq, Prod.mk.injEq,
            CSON_Result.CSON_SUCCES.injEq] at h
          obtain ⟨rfl, rfl⟩ := h
          rw [consume_append t hc (by rw [ht]; decide) (by rw [ht]; decide)
            (fun _ => hleaf rfl rfl) len1]
          simp only [ht, CSON_Number_new]
          rfl
        case WORD =>
          simp only [CSON_Literal_new] at h
          by_cases h1 : CSON_SV_eq tok.sv (CSON_SV_init (cstr "true")) = true
          · simp only [h1, if_true, Except.ok.injEq, Prod.mk.injEq,
              CSON_Result.CSON_SUCCES.injEq] at h
            obtain ⟨rfl, rfl⟩ := h
            rw [consume_append t hc (by rw [ht]; decide) (by rw [ht]; decide)
              (fun _ => hleaf rfl rfl) len1]
            simp only [ht, sv_eq_append t tok.sv _ hlen, h1, if_true, CSON_Literal_new]
            rfl
          · by_cases h2 : CSON_SV_eq tok.sv (CSON_SV_init (cstr "false")) = true
            · simp only [h1, h2, if_true, if_false, Except.ok.injEq, Prod.mk.injEq,
                CSON_Result.CSON_SUCCES.injEq] at h
              obtain ⟨rfl, rfl⟩ := h
              rw [consume_append t hc (by rw [ht]; decide) (by rw [ht]; decide)
                (fun _ => hleaf rfl rfl) len1]
              simp only [ht, sv_eq_append t tok.sv _ hlen, h1, h2, if_true, if_false,
                CSON_Literal_new]
              rfl
            · by_cases h3 : CSON_SV_eq tok.sv (CSON_SV_init (cstr "null")) = true
              · simp only [h1, h2, h3, if_true, if_false, Except.ok.injEq, Prod.mk.injEq,
                  CSON_Result.CSON_SUCCES.injEq] at h
                obtain ⟨rfl, rfl⟩ := h
                rw [consume_append t hc (by rw [ht]; decide) (by rw [ht]; decide)
                  (fun _ => hleaf rfl rfl) len1]
                simp only [ht, sv_eq_append t tok.sv _ hlen, h1, h2, h3, if_true, if_false,
                  CSON_Literal_new]
                rfl
              · simp [h1, h2, h3] at h
        all_goals simp at h
    · -- CSON_parse_array
      intro tk v tk1 h len1
      rw [CSON_parse_array] at h
      cases hp : CSON_Tokenizer_peek tk with
      | error f => simp [hp] at h
      | ok token =>
        simp only [hp] at h
        rw [CSON_parse_array]
        by_cases hty : token.type = .SQUARE_CLOSE
        · rw [if_pos hty] at h
          have hc := consume_of_peek hp
          rw [hc] at h
          simp only at h
          have hc2 := consume_append t hc (by rw [hty]; decide) (by rw [hty]; decide)
            (by rw [hty]; simp) len1
          have hp2 := (consume_ok_iff.1 hc2).1
          simp only [hp2, hty, if_true, hc2]
          exact ihal _ _ _ _ _ _ h (by simp [hty]) len1
        · rw [if_neg hty] at h
          obtain ⟨tok, hp1, hne⟩ := array_loop_first h hty
          rw [hp] at hp1
          simp only [Except.ok.injEq] at hp1
          subst hp1
          obtain ⟨⟨s, len⟩⟩ := tk
          obtain ⟨tok1, hp2, hty2⟩ := peek_type_append t hp hne len1
          simp only [tokenizerWithTail, hp2, hty2, hty, if_false]
          exact ihal _ _ _ _ _ _ h (by simp [hty, hty2]) len1
    · -- the loop of CSON_parse_array
      intro a token token1 tk v tk1 h hiff len1
      rw [CSON_parse_array_loop] at h ⊢
      by_cases hty : token.type = .SQUARE_CLOSE
      · rw [if_pos hty] at h
        rw [if_pos (hiff.2 hty)]
        simp only [Except.ok.injEq, Prod.mk.injEq, CSON_Result.CSON_SUCCES.injEq] at h
        obtain ⟨rfl, rfl⟩ := h
        rfl
      · rw [if_neg hty] at h
        rw [if_neg (fun h1 => hty (hiff.1 h1))]
        cases he : CSON_parse_element n tk with
        | error f => simp [he] at h
        | ok p =>
          obtain ⟨res, tk2⟩ := p
          simp only [he] at h
          cases res with
          | CSON_ERROR => simp at h
          | CSON_SUCCES value =>
            simp only at h
            cases hap : CSON_Array_append a value with
            | error f => simp [hap] at h
            | ok a2 =>
              simp only [hap] at h
              cases hc : CSON_Tokenizer_consume tk2 with
              | error f => simp [hc] at h
              | ok q =>
                obtain ⟨t2, tk3⟩ := q
                simp only [hc] at h
                have hsep : t2.type = .COMMA ∨ t2.type = .SQUARE_CLOSE := by
                  cases ht : t2.type <;> simp only [ht] at h <;> simp at h ⊢
                have hne : t2.type ≠ .EOF := by
                  rcases hsep with h1 | h1 <;> rw [h1] <;> decide
                have hws : t2.type ≠ .WS := by
                  rcases hsep with h1 | h1 <;> rw [h1] <;> decide
                have hin : t2.type = .NUMBER ∨ t2.type = .WORD → tk3.sv.str ≠ [] := by
                  rcases hsep with h1 | h1 <;> rw [h1] <;> simp
                have he2 := ihe _ _ _ he (fun _ _ => consume_nonempty hc hne) len1
                have hap2 : CSON_Array_append (vecWithTail t a) (value.withTail t) =
                    .ok (vecWithTail t a2) := push_back_withTail t hap
                have hc2 := consume_append t hc hne hws hin len1
                simp only [he2, hap2, hc2]
                rcases hsep with h1 | h1
                · simp only [h1] at h ⊢
                  exact ihal _ _ _ _ _ _ h (by simp [h1]) len1
                · simp only [h1] at h ⊢
                  exact ihal _ _ _ _ _ _ h (by simp [h1]) len1
    · -- CSON_parse_object
      intro tk v tk1 h len1
      rw [CSON_parse_object] at h
      cases hp : CSON_Tokenizer_peek tk with
      | error f => simp [hp] at h
      | ok token =>
        simp only [hp] at h
        rw [CSON_parse_object]
        by_cases hty : token.type = .CURLY_CLOSE
        · rw [if_pos hty] at h
          have hc := consume_of_peek hp
          rw [hc] at h
          simp only at h
          have hc2 := consume_append t hc (by rw [hty]; decide) (by rw [hty]; decide)
            (by rw [hty]; simp) len1
          have hp2 := (consume_ok_iff.1 hc2).1
          simp only [hp2, hty, if_true, hc2]
          exact ihol _ _ _ _ _ _ h (by simp [hty]) len1
        · rw [if_neg hty] at h
          obtain ⟨tok, hp1, hne⟩ := object_loop_first h hty
          rw [hp] at hp1
          simp only [Except.ok.injEq] at hp1
          subst hp1
          obtain ⟨⟨s, len⟩⟩ := tk
          obtain ⟨tok1, hp2, hty2⟩ := peek_type_append t hp hne len1
          simp only [tokenizerWithTail, hp2, hty2, hty, if_false]
          exact ihol _ _ _ _ _ _ h (by simp [hty, hty2]) len1
    · -- the loop of CSON_parse_object
      intro o token token1 tk v tk1 h hiff len1
      rw [CSON_parse_object_loop] at h ⊢
      by_cases hty : token.type = .CURLY_CLOSE
      · rw [if_pos hty] at h
        rw [if_pos (hiff.2 hty)]
        simp only [Except.ok.injEq, Prod.mk.injEq, CSON_Result.CSON_SUCCES.injEq] at h
        obtain ⟨rfl, rfl⟩ := h
        rfl
      · rw [if_neg hty] at h
        rw [if_neg (fun h1 => hty (hiff.1 h1))]
        cases he : CSON_parse_element n tk with
        | error f => simp [he] at h
        | ok p =>
          obtain ⟨res, tk2⟩ := p
          simp only [he] at h
          cases res with
          | CSON_ERROR => simp at h
          | CSON_SUCCES key =>
            cases key with
            | String key =>
              simp only at h
              have he2 := ihe _ _ _ he (fun _ hs => by simp [CSON_is_string, CSON.type] at hs)
                len1
              cases hc : CSON_Tokenizer_consume tk2 with
              | error f => simp [hc] at h
              | ok q =>
                obtain ⟨t2, tk3⟩ := q
                simp only [hc] at h
                by_cases hcol : t2.type = .COLON
                · simp only [hcol, ne_eq, not_true_eq_false, if_false] at h
                  have hc2 := consume_append t hc (by rw [hcol]; decide)
                    (by rw [hcol]; decide) (by rw [hcol]; simp) len1
                  cases he3 : CSON_parse_element n tk3 with
                  | error f => simp [he3] at h
                  | ok p2 =>
                    obtain ⟨res2, tk4⟩ := p2
                    simp only [he3] at h
                    cases res2 with
                    | CSON_ERROR => simp at h
                    | CSON_SUCCES value =>
                      simp only at h
                      cases hins : CSON_Object_insert o key value with
                      | error f => simp [hins] at h
                      | ok o2 =>
                        simp only [hins] at h
                        cases hc3 : CSON_Tokenizer_consume tk4 with
                        | error f => simp [hc3] at h
                        | ok q3 =>
                          obtain ⟨t3, tk5⟩ := q3
                          simp only [hc3] at h
                          have hsep : t3.type = .COMMA ∨ t3.type = .CURLY_CLOSE := by
                            cases ht : t3.type <;> simp only [ht] at h <;> simp at h ⊢
                          have hne : t3.type ≠ .EOF := by
                            rcases hsep with h1 | h1 <;> rw [h1] <;> decide
                          have hws : t3.type ≠ .WS := by
                            rcases hsep with h1 | h1 <;> rw [h1] <;> decide
                          have hin : t3.type = .NUMBER ∨ t3.type = .WORD →
                              tk5.sv.str ≠ [] := by
                            rcases hsep with h1 | h1 <;> rw [h1] <;> simp
                          have he4 := ihe _ _ _ he3
                            (fun _ _ => consume_nonempty hc3 hne) len1
                          have hins2 := insert_withTail t hins
                          have hc4 := consume_append t hc3 hne hws hin len1
                          have hkey : (CSON.String key).withTail t = CSON.String key := rfl
                          rw [hkey] at he2
                          simp only [he2, hc2, hcol, ne_eq, not_true_eq_false, if_false,
                            he4, hins2, hc4]
                          rcases hsep with h1 | h1
                          · simp only [h1] at h ⊢
                            exact ihol _ _ _ _ _ _ h (by simp [h1]) len1
                          · simp only [h1] at h ⊢
                            exact ihol _ _ _ _ _ _ h (by simp [h1]) len1
                · simp [hcol] at h
            | _ => simp at h


/-! ### The numbers inside a container -/

theorem drop_takeWhile_length {α : Type} (p : α → Bool) (l : List α) :
    l.drop (l.takeWhile p).length = l.dropWhile p := by
  induction l with
  | nil => rfl
  | cons x xs ih =>
    by_cases hx : p x = true
    · simp [List.takeWhile_cons, List.dropWhile_cons, hx, ih]
    · simp [List.takeWhile_cons, List.dropWhile_cons, hx]

theorem numbersEndList_iff (xs : List CSON) :
    numbersEndList xs = true ↔ ∀ x ∈ xs, x.numbersEnd = true := by
  induction xs with
  | nil => simp [numbersEndList]
  | cons x xs ih => simp [numbersEndList, ih]

theorem push_back_data {α : Type} {a a1 : CVec α} {x : α}
    (h : CVec_push_back a x = .ok a1) :
    a1.data = CVec_store a.data a.element_count x := by
  rcases push_back_cases a with hc | hc | hc | hc
  · rw [push_back_full a x hc.1 hc.2] at h
    simp only [Except.ok.injEq] at h
    subst h
    rfl
  · rw [push_back_room a x hc] at h
    simp only [Except.ok.injEq] at h
    subst h
    rfl
  · rw [push_back_zero a x hc.1 hc.2] at h
    simp at h
  · rw [push_back_above a x hc] at h
    simp at h

theorem mem_store {α : Type} {data : List α} {i : Nat} {x y : α}
    (h : y ∈ CVec_store data i x) : y ∈ data ∨ y = x := by
  unfold CVec_store at h
  by_cases hi : i < data.length
  · rw [if_pos hi] at h
    exact List.mem_or_eq_of_mem_set h
  · rw [if_neg hi] at h
    simpa using h

theorem push_back_numbersEnd {a a1 : CVec CSON} {x : CSON}
    (h : CVec_push_back a x = .ok a1) (ha : numbersEndList a.data = true)
    (hx : x.numbersEnd = true) : numbersEndList a1.data = true := by
  rw [numbersEndList_iff] at ha ⊢
  rw [push_back_data h]
  intro y hy
  rcases mem_store hy with h1 | h1
  · exact ha y h1
  · rw [h1]; exact hx

theorem insert_numbersEnd {o o1 : CVec CSON_String × CVec CSON} {k : CSON_String}
    {x : CSON} (h : CSON_Object_insert o k x = .ok o1)
    (ho : numbersEndList o.2.data = true) (hx : x.numbersEnd = true) :
    numbersEndList o1.2.data = true := by
  unfold CSON_Object_insert at h
  cases h1 : CVec_push_back o.1 k with
  | error f => simp [h1] at h
  | ok keys =>
    simp only [h1] at h
    cases h2 : CVec_push_back o.2 x with
    | error f => simp [h2] at h
    | ok data =>
      simp only [h2, Except.ok.injEq] at h
      subst h
      exact push_back_numbersEnd h2 ho hx

/-- After a number token is consumed, the cursor stands at the first byte after the first
that is no digit and no dot. -/
theorem consume_number {tk tk1 : CSON_Tokenizer} {tok : CSON_Token}
    (h : CSON_Tokenizer_consume tk = .ok (tok, tk1)) (ht : tok.type = .NUMBER) :
    tok.sv.str = tk.sv.str ∧ tk1.sv.str = (tk.sv.str.drop 1).dropWhile numberTail := by
  obtain ⟨hp, rfl⟩ := consume_ok_iff.1 h
  obtain ⟨⟨s, len⟩⟩ := tk
  cases s with
  | nil =>
    rw [peek_nil] at hp
    simp at hp
    subst hp
    simp at ht
  | cons c rest =>
    have hc : (48 ≤ c ∧ c ≤ 57) ∨ c = 45 := by
      rw [peek_cons] at hp
      rcases identify_cases c with h1 | h1 | h1 | h1 | h1 | h1 | h1 | h1 | h1 | h1 | h1
      all_goals first
        | (obtain ⟨h2, h3⟩ := h1
           rw [h2] at hp
           simp only [Except.ok.injEq] at hp
           subst hp
           first | exact h3 | simp at ht)
        | (obtain ⟨h2, h3⟩ := h1
           rw [h2] at hp
           simp only at hp
           cases rest with
           | nil => simp at hp
           | cons d rest2 =>
             simp only at hp
             cases hs : scanString rest2 1 with
             | none => simp [hs] at hp; subst hp; simp at ht
             | some i => simp [hs] at hp; subst hp; simp at ht)
    rw [peek_number hc rest len] at hp
    simp only [Except.ok.injEq] at hp
    subst hp
    refine ⟨rfl, ?_⟩
    simp only [tokenAdvance, List.drop_succ_cons, List.drop_zero]
    rw [if_neg (by decide), Nat.add_comm, List.drop_succ_cons, drop_takeWhile_length]

/-- A token other than the end of input has the type of the byte at the cursor. -/
theorem peek_type_head {s : List Nat} {len : Nat} {tok : CSON_Token}
    (h : CSON_Tokenizer_peek ⟨⟨s, len⟩⟩ = .ok tok) (hne : tok.type ≠ .EOF) :
    ∃ c rest, s = c :: rest ∧ CSON_Tokenizer_identify_token_type c = tok.type := by
  cases s with
  | nil =>
    rw [peek_nil] at h
    simp at h
    subst h
    exact absurd rfl hne
  | cons c rest =>
    refine ⟨c, rest, rfl, ?_⟩
    rw [peek_cons] at h
    cases hc : CSON_Tokenizer_identify_token_type c <;> simp only [hc] at h
    case STRING =>
      cases rest with
      | nil => simp at h
      | cons d rest2 =>
        simp only at h
        cases hs : scanString rest2 1 with
        | none =>
          simp [hs] at h
          subst h
          exact absurd rfl hne
        | some i =>
          simp [hs] at h
          subst h
          rfl
    case UNKNOWN => simp at h
    all_goals
      simp at h
      subst h
      rfl

/-- A consumed comma, `]` or `}` stood at the cursor. -/
theorem consume_delimiter {tk tk1 : CSON_Tokenizer} {tok : CSON_Token}
    (h : CSON_Tokenizer_consume tk = .ok (tok, tk1))
    (ht : tok.type = .COMMA ∨ tok.type = .SQUARE_CLOSE ∨ tok.type = .CURLY_CLOSE) :
    ∃ d rest, tk.sv.str = d :: rest ∧ delimiter d = true := by
  obtain ⟨hp, -⟩ := consume_ok_iff.1 h
  obtain ⟨⟨s, len⟩⟩ := tk
  have hne : tok.type ≠ .EOF := by
    rcases ht with h1 | h1 | h1 <;> rw [h1] <;> decide
  obtain ⟨c, rest, hs, hc⟩ := peek_type_head hp hne
  refine ⟨c, rest, hs, ?_⟩
  have hd : c = 44 ∨ c = 93 ∨ c = 125 := by
    rcases identify_cases c with h1 | h1 | h1 | h1 | h1 | h1 | h1 | h1 | h1 | h1 | h1
    all_goals
      obtain ⟨h2, h3⟩ := h1
      rw [h2] at hc
      rcases ht with h4 | h4 | h4 <;> rw [h4] at hc <;>
        first | (exact absurd hc (by decide)) | omega
  simp [delimiter, hd]

/-- A parsed container holds only numbers whose token is followed by a delimiter; so does
a parsed number that is followed by a delimiter. -/
theorem parse_numbers_end : ∀ fuel,
    (∀ tk v tk1, CSON_parse_element fuel tk = .ok (.CSON_SUCCES v, tk1) →
      (CSON_is_container v = false → CSON_is_string v = false →
        ∃ d rest, tk1.sv.str = d :: rest ∧ delimiter d = true) →
      v.numbersEnd = true) ∧
    (∀ tk v tk1, CSON_parse_array fuel tk = .ok (.CSON_SUCCES v, tk1) →
      v.numbersEnd = true) ∧
    (∀ a token tk v tk1,
      CSON_parse_array_loop fuel a token tk = .ok (.CSON_SUCCES v, tk1) →
      numbersEndList a.data = true → v.numbersEnd = true) ∧
    (∀ tk v tk1, CSON_parse_object fuel tk = .ok (.CSON_SUCCES v, tk1) →
      v.numbersEnd = true) ∧
    (∀ o token tk v tk1,
      CSON_parse_object_loop fuel o token tk = .ok (.CSON_SUCCES v, tk1) →
      numbersEndList o.2.data = true → v.numbersEnd = true) := by
  intro fuel
  induction fuel with
  | zero =>
    refine ⟨?_, ?_, ?_, ?_, ?_⟩ <;> intros <;> simp_all [CSON_parse_element,
      CSON_parse_array, CSON_parse_array_loop, CSON_parse_object, CSON_parse_object_loop]
  | succ n ih =>
    obtain ⟨ihe, iha, ihal, iho, ihol⟩ := ih
    refine ⟨?_, ?_, ?_, ?_, ?_⟩
    · intro tk v tk1 h hleaf
      rw [CSON_parse_element] at h
      cases hc : CSON_Tokenizer_consume tk with
      | error f => simp [hc] at h
      | ok p =>
        obtain ⟨tok, tk2⟩ := p
        simp only [hc] at h
        cases ht : tok.type <;> simp only [ht] at h
        case CURLY_OPEN => exact iho _ _ _ h
        case SQUARE_OPEN => exact iha _ _ _ h
        case STRING =>
          simp only [Except.ok.injEq, Prod.mk.injEq, CSON_Result.CSON_SUCCES.injEq] at h
          obtain ⟨rfl, rfl⟩ := h
          rfl
        case NUMBER =>
          simp only [CSON_Number_new, Except.ok.injEq, Prod.mk.injEq,
            CSON_Result.CSON_SUCCES.injEq] at h
          obtain ⟨rfl, rfl⟩ := h
          obtain ⟨d, rest, hd, hdel⟩ := hleaf rfl rfl
          obtain ⟨h1, h2⟩ := consume_number hc ht
          simp only [CSON.numbersEnd, numberEnds, h1, ← h2, hd, hdel]
        case WORD =>
          simp only [CSON_Literal_new] at h
          split at h
          · simp only [Except.ok.injEq, Prod.mk.injEq, CSON_Result.CSON_SUCCES.injEq] at h
            obtain ⟨rfl, rfl⟩ := h
            rfl
          · split at h
            · simp only [Except.ok.injEq, Prod.mk.injEq, CSON_Result.CSON_SUCCES.injEq] at h
              obtain ⟨rfl, rfl⟩ := h
              rfl
            · split at h
              · simp only [Except.ok.injEq, Prod.mk.injEq,
                  CSON_Result.CSON_SUCCES.injEq] at h
                obtain ⟨rfl, rfl⟩ := h
                rfl
              · simp at h
        all_goals simp at h
    · intro tk v tk1 h
      rw [CSON_parse_array] at h
      cases hp : CSON_Tokenizer_peek tk with
      | error f => simp [hp] at h
      | ok token =>
        simp only [hp] at h
        split at h
        · cases hc : CSON_Tokenizer_consume tk with
          | error f => simp [hc] at h
          | ok p =>
            obtain ⟨t2, tk2⟩ := p
            simp only [hc] at h
            exact ihal _ _ _ _ _ h rfl
        · exact ihal _ _ _ _ _ h rfl
    · intro a token tk v tk1 h ha
      rw [CSON_parse_array_loop] at h
      split at h
      · simp only [Except.ok.injEq, Prod.mk.injEq, CSON_Result.CSON_SUCCES.injEq] at h
        obtain ⟨rfl, rfl⟩ := h
        exact ha
      · cases he : CSON_parse_element n tk with
        | error f => simp [he] at h
        | ok p =>
          obtain ⟨res, tk2⟩ := p
          simp only [he] at h
          cases res with
          | CSON_ERROR => simp at h
          | CSON_SUCCES value =>
            simp only at h
            cases hap : CSON_Array_append a value with
            | error f => simp [hap] at h
            | ok a2 =>
              simp only [hap] at h
              cases hc : CSON_Tokenizer_consume tk2 with
              | error f => simp [hc] at h
              | ok q =>
                obtain ⟨t2, tk3⟩ := q
                simp only [hc] at h
                have hsep : t2.type = .COMMA ∨ t2.type = .SQUARE_CLOSE := by
                  cases ht : t2.type <;> simp only [ht] at h <;> simp at h ⊢
                have hdel := consume_delimiter hc
                  (hsep.elim Or.inl (fun h1 => Or.inr (Or.inl h1)))
                have hv := ihe _ _ _ he (fun _ _ => hdel)
                have ha2 := push_back_numbersEnd hap ha hv
                rcases hsep with h1 | h1
                · simp only [h1] at h
                  exact ihal _ _ _ _ _ h ha2
                · simp only [h1] at h
                  exact ihal _ _ _ _ _ h ha2
    · intro tk v tk1 h
      rw [CSON_parse_object] at h
      cases hp : CSON_Tokenizer_peek tk with
      | error f => simp [hp] at h
      | ok token =>
        simp only [hp] at h
        split at h
        · cases hc : CSON_Tokenizer_consume tk with
          | error f => simp [hc] at h
          | ok p =>
            obtain ⟨t2, tk2⟩ := p
            simp only [hc] at h
            exact ihol _ _ _ _ _ h rfl
        · exact ihol _ _ _ _ _ h rfl
    · intro o token tk v tk1 h ho
      rw [CSON_parse_object_loop] at h
      split at h
      · simp only [Except.ok.injEq, Prod.mk.injEq, CSON_Result.CSON_SUCCES.injEq] at h
        obtain ⟨rfl, rfl⟩ := h
        exact ho
      · cases he : CSON_parse_element n tk with
        | error f => simp [he] at h
        | ok p =>
          obtain ⟨res, tk2⟩ := p
          simp only [he] at h
          cases res with
          | CSON_ERROR => simp at h
          | CSON_SUCCES key =>
            cases key with
            | String key =>
              simp only at h
              cases hc : CSON_Tokenizer_consume tk2 with
              | error f => simp [hc] at h
              | ok q =>
                obtain ⟨t2, tk3⟩ := q
                simp only [hc] at h
                split at h
                · simp at h
                · cases he3 : CSON_parse_element n tk3 with
                  | error f => simp [he3] at h
                  | ok p2 =>
                    obtain ⟨res2, tk4⟩ := p2
                    simp only [he3] at h
                    cases res2 with
                    | CSON_ERROR => simp at h
                    | CSON_SUCCES value =>
                      simp only at h
                      cases hins : CSON_Object_insert o key value with
                      | error f => simp [hins] at h
                      | ok o2 =>
                        simp only [hins] at h
                        cases hc3 : CSON_Tokenizer_consume tk4 with
                        | error f => simp [hc3] at h
                        | ok q3 =>
                          obtain ⟨t3, tk5⟩ := q3
                          simp only [hc3] at h
                          have hsep : t3.type = .COMMA ∨ t3.type = .CURLY_CLOSE := by
                            cases ht : t3.type <;> simp only [ht] at h <;> simp at h ⊢
                          have hdel := consume_delimiter hc3
                            (hsep.elim Or.inl (fun h1 => Or.inr (Or.inr h1)))
                          have hv := ihe _ _ _ he3 (fun _ _ => hdel)
                          have ho2 := insert_numbersEnd hins ho hv
                          rcases hsep with h1 | h1
                          · simp only [h1] at h
                            exact ihol _ _ _ _ _ h ho2
                          · simp only [h1] at h
                            exact ihol _ _ _ _ _ h ho2
            | _ => simp at h

/-- The digits at the head of a text that holds a byte that is no digit are the same when
more text follows, and the byte after them is in the text. -/
theorem leadingDigits_append (t : List Nat) (src : List Nat)
    (h : ∃ c ∈ src, ¬ (48 ≤ c ∧ c ≤ 57)) :
    leadingDigits (src ++ t) = leadingDigits src ∧
    ∃ c rest, src.drop (leadingDigits src).length = c :: rest := by
  induction src with
  | nil => simp at h
  | cons x xs ih =>
    by_cases hx : 48 ≤ x ∧ x ≤ 57
    · obtain ⟨c, hc, hnd⟩ := h
      have hc2 : c ∈ xs := by
        rcases List.mem_cons.1 hc with h1 | h1
        · subst h1; exact absurd hx hnd
        · exact h1
      obtain ⟨ih1, ih2⟩ := ih ⟨c, hc2, hnd⟩
      have e1 : leadingDigits (x :: (xs ++ t)) = x :: leadingDigits (xs ++ t) := by
        rw [leadingDigits, if_pos hx]
      have e2 : leadingDigits (x :: xs) = x :: leadingDigits xs := by
        rw [leadingDigits, if_pos hx]
      rw [List.cons_append, e1, e2, ih1]
      exact ⟨rfl, by simpa using ih2⟩
    · have e1 : leadingDigits (x :: (xs ++ t)) = [] := by
        rw [leadingDigits, if_neg hx]
      have e2 : leadingDigits (x :: xs) = [] := by
        rw [leadingDigits, if_neg hx]
      rw [List.cons_append, e1, e2]
      exact ⟨rfl, x, xs, rfl⟩

theorem mem_of_dropWhile {α : Type} (p : α → Bool) (l : List α) (d : α) (rest : List α)
    (h : l.dropWhile p = d :: rest) : d ∈ l := by
  have : d ∈ l.dropWhile p := by rw [h]; simp
  exact (List.dropWhile_sublist p).subset this

/-- The conversion of a number whose token is followed by a delimiter does not depend on
the text that follows the buffer. -/
theorem sscanf_lf_append (t : List Nat) (src : List Nat) (h : numberEnds src = true) :
    sscanf_lf (src ++ t) = sscanf_lf src := by
  have hex : ∃ c ∈ src, ¬ (48 ≤ c ∧ c ≤ 57) := by
    have hdef : numberEnds src =
        (match (src.drop 1).dropWhile numberTail with
          | d :: _ => delimiter d
          | [] => false) := rfl
    rw [hdef] at h
    cases hd : (src.drop 1).dropWhile numberTail with
    | nil => rw [hd] at h; simp at h
    | cons d rest =>
      rw [hd] at h
      simp only [delimiter, decide_eq_true_eq] at h
      have hm : d ∈ src.drop 1 := mem_of_dropWhile _ _ _ _ hd
      exact ⟨d, List.mem_of_mem_drop hm, by omega⟩
  obtain ⟨h1, c, rest, h2⟩ := leadingDigits_append t src hex
  have hlen : (leadingDigits src).length ≤ src.length := by
    by_contra hgt
    rw [List.drop_eq_nil_of_le (by omega)] at h2
    simp at h2
  simp only [sscanf_lf, h1, List.drop_append_of_le_length hlen, h2, List.cons_append]


theorem withTail_type (t : List Nat) (v : CSON) : (v.withTail t).type = v.type := by
  cases v <;> rfl

/-- C21: `CSON_parse` does not ask for the end of input after the first element. When it
succeeds on a text `a` with an array, an object or a string, it succeeds on `a` followed
by any text `t` with the same value: the same variants, counts, capacities, strings,
keys and literals in the same order, and for each number the same text handed to
`sscanf` with `t` added at its end. In that text a delimiter (`,`, `]` or `}`) of `a`
follows the number token, so the conversion does not reach `t` (`sscanf_lf_append`). -/
theorem C21_text_after_element_ignored (a t : List Nat) (v : CSON)
    (h : CSON_parse a = .ok (.CSON_SUCCES v))
    (hv : CSON_is_container v = true ∨ CSON_is_string v = true) :
    CSON_parse (a ++ t) = .ok (.CSON_SUCCES (v.withTail t)) ∧
    (v.withTail t).type = v.type ∧
    v.numbersEnd = true := by
  obtain ⟨tk1, he⟩ := element_of_parse h
  have hleaf : CSON_is_container v = false → CSON_is_string v = false → False := by
    intro h1 h2
    rcases hv with h3 | h3
    · rw [h1] at h3; exact absurd h3 (by decide)
    · rw [h2] at h3; exact absurd h3 (by decide)
  refine ⟨?_, withTail_type t v, ?_⟩
  · have := (parse_append t (enoughFuel a)).1 _ _ _ he
      (fun h1 h2 => (hleaf h1 h2).elim) (strlen (a ++ t))
    exact @parse_of_element (a ++ t) _ (tokenizerWithTail t (strlen (a ++ t)) tk1)
      ⟨enoughFuel a, this⟩
  · exact (parse_numbers_end (enoughFuel a)).1 _ _ _ he
      (fun h1 h2 => (hleaf h1 h2).elim)

theorem C21_text_after_element_ignored_witness :
    (CSON_parse (cstr "[]") = .ok (.CSON_SUCCES (.Array CSON_Array_new)) ∧
      CSON_parse (cstr "[]" ++ cstr "]") =
        .ok (.CSON_SUCCES ((CSON.Array CSON_Array_new).withTail (cstr "]"))) ∧
      (CSON.Array CSON_Array_new).withTail (cstr "]") = .Array CSON_Array_new ∧
      cstr "[]" ++ cstr "]" = cstr "[]]") ∧
    (CSON_parse (cstr "\x7b\x7dgarbage") =
        .ok (.CSON_SUCCES (.Object CSON_Object_new.1 CSON_Object_new.2)) ∧
      cstr "\x7b\x7d" ++ cstr "garbage" = cstr "\x7b\x7dgarbage") ∧
    (CSON_parse (cstr "[1,\"a\"]") =
        .ok (.CSON_SUCCES (.Array ⟨2, sizeof_ptr,
          [.Number ⟨cstr "1,\"a\"]"⟩, .String ⟨⟨cstr "a", 1⟩⟩],
          CSON_DEFAULT_MEMBLOCK_SIZE⟩)) ∧
      CSON_parse (cstr "[1,\"a\"]" ++ cstr "2") =
        .ok (.CSON_SUCCES (.Array ⟨2, sizeof_ptr,
          [.Number ⟨cstr "1,\"a\"]2"⟩, .String ⟨⟨cstr "a", 1⟩⟩],
          CSON_DEFAULT_MEMBLOCK_SIZE⟩)) ∧
      sscanf_lf (cstr "1,\"a\"]") = some 1 ∧ sscanf_lf (cstr "1,\"a\"]2") = some 1) :=
  ⟨⟨rfl,
    (C21_text_after_element_ignored (cstr "[]") (cstr "]") (.Array CSON_Array_new) rfl
      (Or.inl rfl)).1, rfl, rfl⟩,
   ⟨(C21_text_after_element_ignored (cstr "\x7b\x7d") (cstr "garbage")
      (.Object CSON_Object_new.1 CSON_Object_new.2) rfl (Or.inl rfl)).1, rfl⟩,
   ⟨rfl,
    (C21_text_after_element_ignored (cstr "[1,\"a\"]") (cstr "2")
      (.Array ⟨2, sizeof_ptr, [.Number ⟨cstr "1,\"a\"]"⟩, .String ⟨⟨cstr "a", 1⟩⟩],
        CSON_DEFAULT_MEMBLOCK_SIZE⟩) rfl (Or.inl rfl)).1, by decide, by decide⟩⟩


/-! ### Reads past the terminator -/

/-- The one state in which `CSON_Tokenizer_peek` does not return a token: the cursor
stands at a quote that is the last byte of the text; the scan then starts behind the
terminator. -/
theorem peek_error_iff (tk : CSON_Tokenizer) (f : Fault) :
    CSON_Tokenizer_peek tk = .error f ↔ tk.sv.str = [34] ∧ f = .outOfBounds := by
  obtain ⟨⟨s, len⟩⟩ := tk
  cases s with
  | nil => rw [peek_nil]; simp
  | cons c rest =>
    rw [peek_cons]
    by_cases hq : c = 34
    · subst hq
      have hT : CSON_Tokenizer_identify_token_type 34 = .STRING := by decide
      simp only [hT]
      cases rest with
      | nil => simp; exact eq_comm
      | cons d rest2 => cases hs : scanString rest2 1 <;> simp [hs]
    · rcases identify_cases c with h | h | h | h | h | h | h | h | h | h | h
      all_goals
        obtain ⟨hT, hc⟩ := h
        simp only [hT]
        first
        | exact absurd hc hq
        | simp [hq]

theorem getLast_drop (l : List Nat) : ∀ n,
    (l.drop n).getLast? = none ∨ (l.drop n).getLast? = l.getLast? := by
  induction l with
  | nil => intro n; simp
  | cons x xs ih =>
    intro n
    cases n with
    | zero => exact Or.inr rfl
    | succ m =>
      simp only [List.drop_succ_cons]
      rcases ih m with h | h
      · exact Or.inl h
      · cases xs with
        | nil => simp
        | cons y ys => exact Or.inr (by rw [h]; simp [List.getLast?_cons_cons])

theorem consume_keeps {tk tk1 : CSON_Tokenizer} {tok : CSON_Token}
    (h : CSON_Tokenizer_consume tk = .ok (tok, tk1)) (hI : NoQuoteAtEnd tk) :
    NoQuoteAtEnd tk1 := by
  obtain ⟨-, rfl⟩ := consume_ok_iff.1 h
  unfold NoQuoteAtEnd at hI ⊢
  rcases getLast_drop tk.sv.str (tokenAdvance tok) with h1 | h1
  · simp only [h1]; simp
  · simp only [h1]; exact hI

theorem consume_fault {tk : CSON_Tokenizer} {f : Fault}
    (h : CSON_Tokenizer_consume tk = .error f) : f = .outOfBounds ∧ ¬ NoQuoteAtEnd tk := by
  obtain ⟨h1, h2⟩ := (peek_error_iff tk f).1 (consume_error_iff.1 h)
  exact ⟨h2, by simp [NoQuoteAtEnd, h1]⟩

theorem peek_fault {tk : CSON_Tokenizer} {f : Fault}
    (h : CSON_Tokenizer_peek tk = .error f) : f = .outOfBounds ∧ ¬ NoQuoteAtEnd tk := by
  obtain ⟨h1, h2⟩ := (peek_error_iff tk f).1 h
  exact ⟨h2, by simp [NoQuoteAtEnd, h1]⟩

theorem inBounds_trans {tk tk2 : CSON_Tokenizer} {p : Parsed}
    (hk : NoQuoteAtEnd tk → NoQuoteAtEnd tk2) (h : InBounds tk2 p) : InBounds tk p := by
  cases p with
  | error f =>
    simp only [InBounds] at h ⊢
    rcases h with h | ⟨h1, h2⟩
    · exact Or.inl h
    · exact Or.inr ⟨h1, fun hI => h2 (hk hI)⟩
  | ok r =>
    obtain ⟨res, tk1⟩ := r
    simp only [InBounds] at h ⊢
    exact fun hI => h (hk hI)

theorem inBounds_ok {tk tk1 : CSON_Tokenizer} (res : CSON_Result)
    (hk : NoQuoteAtEnd tk → NoQuoteAtEnd tk1) : InBounds tk (.ok (res, tk1)) := hk

theorem inBounds_fault {tk : CSON_Tokenizer} {f : Fault}
    (h : f = .outOfBounds ∧ ¬ NoQuoteAtEnd tk) : InBounds tk (.error f) := Or.inr h

theorem insert_capacity (o : CVec CSON_String × CVec CSON) (k : CSON_String) (v : CSON)
    (hk : 0 < o.1.element_capacity) (hkle : o.1.element_count ≤ o.1.element_capacity)
    (hd : 0 < o.2.element_capacity) (hdle : o.2.element_count ≤ o.2.element_capacity) :
    ∃ o1, CSON_Object_insert o k v = .ok o1 ∧
      0 < o1.1.element_capacity ∧ o1.1.element_count ≤ o1.1.element_capacity ∧
      0 < o1.2.element_capacity ∧ o1.2.element_count ≤ o1.2.element_capacity := by
  obtain ⟨k1, h1, h2, h3, -, -⟩ := push_back_capacity o.1 k hk hkle
  obtain ⟨d1, h4, h5, h6, -, -⟩ := push_back_capacity o.2 v hd hdle
  have c1 : 0 < k1.element_capacity := by omega
  have c3 : 0 < d1.element_capacity := by omega
  exact ⟨(k1, d1), by simp only [CSON_Object_insert, h1, h4], c1, h3, c3, h6⟩

/-- Every run of the parse functions stays inside the buffer, unless a quote is the last
byte of the text: the only fault is the read past the terminator at such a quote. No run
leaves through `exit` or a failed `assert`, and no `CVec_push_back` overflows. -/
theorem parse_in_bounds : ∀ fuel,
    (∀ tk, InBounds tk (CSON_parse_element fuel tk)) ∧
    (∀ tk, InBounds tk (CSON_parse_array fuel tk)) ∧
    (∀ a token tk, 0 < a.element_capacity → a.element_count ≤ a.element_capacity →
      InBounds tk (CSON_parse_array_loop fuel a token tk)) ∧
    (∀ tk, InBounds tk (CSON_parse_object fuel tk)) ∧
    (∀ (o : CVec CSON_String × CVec CSON) token tk,
      0 < o.1.element_capacity → o.1.element_count ≤ o.1.element_capacity →
      0 < o.2.element_capacity → o.2.element_count ≤ o.2.element_capacity →
      InBounds tk (CSON_parse_object_loop fuel o token tk)) := by
  intro fuel
  induction fuel with
  | zero =>
    refine ⟨?_, ?_, ?_, ?_, ?_⟩ <;> intros <;>
      simp [CSON_parse_element, CSON_parse_array, CSON_parse_array_loop, CSON_parse_object,
        CSON_parse_object_loop, InBounds]
  | succ n ih =>
    obtain ⟨ihe, iha, ihal, iho, ihol⟩ := ih
    refine ⟨?_, ?_, ?_, ?_, ?_⟩
    · intro tk
      rw [CSON_parse_element]
      cases hc : CSON_Tokenizer_consume tk with
      | error f => exact inBounds_fault (consume_fault hc)
      | ok p =>
        obtain ⟨tok, tk2⟩ := p
        have hk : NoQuoteAtEnd tk → NoQuoteAtEnd tk2 := consume_keeps hc
        simp only
        cases ht : tok.type <;> simp only []
        case CURLY_OPEN => exact inBounds_trans hk (iho tk2)
        case SQUARE_OPEN => exact inBounds_trans hk (iha tk2)
        case WORD =>
          split
          · exact inBounds_ok _ hk
          · split
            · exact inBounds_ok _ hk
            · split
              · exact inBounds_ok _ hk
              · exact inBounds_ok _ hk
        all_goals exact inBounds_ok _ hk
    · intro tk
      rw [CSON_parse_array]
      cases hp : CSON_Tokenizer_peek tk with
      | error f => exact inBounds_fault (peek_fault hp)
      | ok token =>
        simp only
        by_cases hty : token.type = .SQUARE_CLOSE
        · rw [if_pos hty]
          cases hc : CSON_Tokenizer_consume tk with
          | error f => exact inBounds_fault (consume_fault hc)
          | ok p =>
            obtain ⟨t2, tk2⟩ := p
            exact inBounds_trans (consume_keeps hc)
              (ihal _ _ tk2 (by decide) (by decide))
        · rw [if_neg hty]
          exact ihal _ _ tk (by decide) (by decide)
    · intro a token tk hcap hle
      rw [CSON_parse_array_loop]
      by_cases hty : token.type = .SQUARE_CLOSE
      · rw [if_pos hty]
        exact inBounds_ok _ id
      · rw [if_neg hty]
        have he0 := ihe tk
        cases he : CSON_parse_element n tk with
        | error f => rw [he] at he0; exact he0
        | ok p =>
          obtain ⟨res, tk2⟩ := p
          rw [he] at he0
          have hk : NoQuoteAtEnd tk → NoQuoteAtEnd tk2 := he0
          cases res with
          | CSON_ERROR => exact inBounds_ok _ hk
          | CSON_SUCCES value =>
            obtain ⟨a2, hap, hcnt, hle2, -, -⟩ := push_back_capacity a value hcap hle
            simp only [CSON_Array_append, hap]
            cases hc : CSON_Tokenizer_consume tk2 with
            | error f => exact inBounds_trans hk (inBounds_fault (consume_fault hc))
            | ok q =>
              obtain ⟨t2, tk3⟩ := q
              have hk3 : NoQuoteAtEnd tk → NoQuoteAtEnd tk3 :=
                fun hI => consume_keeps hc (hk hI)
              simp only
              have hcap2 : 0 < a2.element_capacity := by omega
              cases ht : t2.type <;> simp only []
              all_goals first
                | exact inBounds_trans hk3 (ihal a2 _ tk3 hcap2 hle2)
                | exact inBounds_ok _ hk3
    · intro tk
      rw [CSON_parse_object]
      cases hp : CSON_Tokenizer_peek tk with
      | error f => exact inBounds_fault (peek_fault hp)
      | ok token =>
        simp only
        by_cases hty : token.type = .CURLY_CLOSE
        · rw [if_pos hty]
          cases hc : CSON_Tokenizer_consume tk with
          | error f => exact inBounds_fault (consume_fault hc)
          | ok p =>
            obtain ⟨t2, tk2⟩ := p
            exact inBounds_trans (consume_keeps hc)
              (ihol _ _ tk2 (by decide) (by decide) (by decide) (by decide))
        · rw [if_neg hty]
          exact ihol _ _ tk (by decide) (by decide) (by decide) (by decide)
    · intro o token tk hkc hkle hdc hdle
      rw [CSON_parse_object_loop]
      by_cases hty : token.type = .CURLY_CLOSE
      · rw [if_pos hty]
        exact inBounds_ok _ id
      · rw [if_neg hty]
        have he0 := ihe tk
        cases he : CSON_parse_element n tk with
        | error f => rw [he] at he0; exact he0
        | ok p =>
          obtain ⟨res, tk2⟩ := p
          rw [he] at he0
          have hk : NoQuoteAtEnd tk → NoQuoteAtEnd tk2 := he0
          cases res with
          | CSON_ERROR => exact inBounds_ok _ hk
          | CSON_SUCCES key =>
            cases key with
            | String key =>
              simp only
              cases hc : CSON_Tokenizer_consume tk2 with
              | error f => exact inBounds_trans hk (inBounds_fault (consume_fault hc))
              | ok q =>
                obtain ⟨t2, tk3⟩ := q
                have hk3 : NoQuoteAtEnd tk → NoQuoteAtEnd tk3 :=
                  fun hI => consume_keeps hc (hk hI)
                simp only
                by_cases hcol : t2.type = .COLON
                · simp only [hcol, ne_eq, not_true_eq_false, if_false]
                  have he1 := ihe tk3
                  cases he3 : CSON_parse_element n tk3 with
                  | error f => rw [he3] at he1; exact inBounds_trans hk3 he1
                  | ok p2 =>
                    obtain ⟨res2, tk4⟩ := p2
                    rw [he3] at he1
                    have hk4 : NoQuoteAtEnd tk → NoQuoteAtEnd tk4 :=
                      fun hI => he1 (hk3 hI)
                    cases res2 with
                    | CSON_ERROR => exact inBounds_ok _ hk4
                    | CSON_SUCCES value =>
                      obtain ⟨o2, hins, c1, c2, c3, c4⟩ :=
                        insert_capacity o key value hkc hkle hdc hdle
                      simp only [hins]
                      cases hc3 : CSON_Tokenizer_consume tk4 with
                      | error f =>
                        exact inBounds_trans hk4 (inBounds_fault (consume_fault hc3))
                      | ok q3 =>
                        obtain ⟨t3, tk5⟩ := q3
                        have hk5 : NoQuoteAtEnd tk → NoQuoteAtEnd tk5 :=
                          fun hI => consume_keeps hc3 (hk4 hI)
                        simp only
                        cases ht : t3.type <;> simp only []
                        all_goals first
                          | exact inBounds_trans hk5 (ihol o2 _ tk5 c1 c2 c3 c4)
                          | exact inBounds_ok _ hk5
                · simp only [hcol, ne_eq, not_false_eq_true, if_true]
                  exact inBounds_ok _ hk3
            | _ => exact inBounds_ok _ hk


/-- The only fault of `CSON_parse` is the read past the terminator, and it needs a quote
as the last byte of the text. -/
theorem parse_fault {text : List Nat} {f : Fault} (h : CSON_parse text = .error f) :
    f = .outOfBounds ∧ text.getLast? = some 34 := by
  have hb := (parse_in_bounds (enoughFuel text)).1 (CSON_Tokenizer_new text)
  have hs := parse_settled text
  unfold CSON_parse at h hs
  simp only at h hs
  cases he : CSON_parse_element (enoughFuel text) (CSON_Tokenizer_new text) with
  | error g =>
    rw [he] at h hs hb
    simp only [Except.error.injEq] at h
    subst h
    simp only [InBounds, NoQuoteAtEnd, CSON_Tokenizer_new, CSON_SV_init] at hb
    rcases hb with h1 | ⟨h1, h2⟩
    · subst h1
      exact absurd rfl hs
    · exact ⟨h1, Decidable.not_not.1 h2⟩
  | ok p =>
    rw [he] at h
    simp at h

/-- On a text whose last byte is no quote, `CSON_parse` returns a result: every read of
the run is inside the buffer. -/
theorem parse_returns (text : List Nat) (h : text.getLast? ≠ some 34) :
    ∃ r, CSON_parse text = .ok r := by
  cases hp : CSON_parse text with
  | ok r => exact ⟨r, rfl⟩
  | error f => exact absurd (parse_fault hp).2 h

/-- C22 (defect of the code): a cursor reached during `CSON_parse` can stand at a quote
that the terminator follows directly, and there `CSON_Tokenizer_peek` reads the byte
after the terminator. In the text `["` the cursor is at such a quote after `[` is
consumed, and the peek of `CSON_parse_array` leaves the buffer; the same happens after
the colon of an object. -/
theorem C22_quote_before_terminator_read_past :
    CSON_Tokenizer_consume (CSON_Tokenizer_new (cstr "[\"")) =
      .ok (⟨⟨cstr "[\"", 1⟩, .SQUARE_OPEN⟩, ⟨⟨cstr "\"", 2⟩⟩) ∧
    CSON_Tokenizer_peek ⟨⟨cstr "\"", 2⟩⟩ = .error .outOfBounds ∧
    CSON_parse (cstr "[\"") = .error .outOfBounds ∧
    CSON_parse (cstr "\x7b\"k\":\"") = .error .outOfBounds :=
  ⟨rfl, rfl, rfl, rfl⟩

/-- An iteration of the loop of `CSON_parse_array` comes back to the loop test with a
shorter remaining text, or leaves the loop. -/
theorem array_loop_iteration (fuel : Nat) (a : CVec CSON) (token : CSON_Token)
    (tk : CSON_Tokenizer) (hne : token.type ≠ .SQUARE_CLOSE) :
    (∃ a2 t2 tk3, CSON_parse_array_loop (fuel + 1) a token tk =
        CSON_parse_array_loop fuel a2 t2 tk3 ∧
        tk3.sv.str.length + 2 ≤ tk.sv.str.length) ∨
    (∃ tk1, CSON_parse_array_loop (fuel + 1) a token tk = .ok (.CSON_ERROR, tk1)) ∨
    (∃ f, CSON_parse_array_loop (fuel + 1) a token tk = .error f) := by
  rw [CSON_parse_array_loop, if_neg hne]
  cases he : CSON_parse_element fuel tk with
  | error f => exact Or.inr (Or.inr ⟨f, rfl⟩)
  | ok p =>
    obtain ⟨res, tk2⟩ := p
    cases res with
    | CSON_ERROR => exact Or.inr (Or.inl ⟨tk2, rfl⟩)
    | CSON_SUCCES value =>
      have h1 := (parse_progress fuel).1 _ _ _ he
      simp only
      cases hap : CSON_Array_append a value with
      | error f => exact Or.inr (Or.inr ⟨f, rfl⟩)
      | ok a2 =>
        simp only
        cases hc : CSON_Tokenizer_consume tk2 with
        | error f => exact Or.inr (Or.inr ⟨f, rfl⟩)
        | ok q =>
          obtain ⟨t2, tk3⟩ := q
          obtain ⟨-, -, hlt⟩ := consume_ok hc
          simp only
          cases ht : t2.type <;> simp only []
          all_goals first
            | exact Or.inl ⟨a2, t2, tk3, rfl, by
                have := hlt (by rw [ht]; decide)
                omega⟩
            | exact Or.inr (Or.inl ⟨tk3, rfl⟩)

/-- An iteration of the loop of `CSON_parse_object` comes back to the loop test with a
shorter remaining text, or leaves the loop. -/
theorem object_loop_iteration (fuel : Nat) (o : CVec CSON_String × CVec CSON)
    (token : CSON_Token) (tk : CSON_Tokenizer) (hne : token.type ≠ .CURLY_CLOSE) :
    (∃ o2 t2 tk3, CSON_parse_object_loop (fuel + 1) o token tk =
        CSON_parse_object_loop fuel o2 t2 tk3 ∧
        tk3.sv.str.length + 4 ≤ tk.sv.str.length) ∨
    (∃ tk1, CSON_parse_object_loop (fuel + 1) o token tk = .ok (.CSON_ERROR, tk1)) ∨
    (∃ f, CSON_parse_object_loop (fuel + 1) o token tk = .error f) := by
  rw [CSON_parse_object_loop, if_neg hne]
  cases he : CSON_parse_element fuel tk with
  | error f => exact Or.inr (Or.inr ⟨f, rfl⟩)
  | ok p =>
    obtain ⟨res, tk2⟩ := p
    cases res with
    | CSON_ERROR => exact Or.inr (Or.inl ⟨tk2, rfl⟩)
    | CSON_SUCCES key =>
      have h1 := (parse_progress fuel).1 _ _ _ he
      cases key with
      | String key =>
        simp only
        cases hc : CSON_Tokenizer_consume tk2 with
        | error f => exact Or.inr (Or.inr ⟨f, rfl⟩)
        | ok q =>
          obtain ⟨t2, tk3⟩ := q
          obtain ⟨-, -, hlt2⟩ := consume_ok hc
          simp only
          by_cases hcol : t2.type = .COLON
          · simp only [hcol, ne_eq, not_true_eq_false, if_false]
            have h2 := hlt2 (by rw [hcol]; decide)
            cases he3 : CSON_parse_element fuel tk3 with
            | error f => exact Or.inr (Or.inr ⟨f, rfl⟩)
            | ok p2 =>
              obtain ⟨res2, tk4⟩ := p2
              cases res2 with
              | CSON_ERROR => exact Or.inr (Or.inl ⟨tk4, rfl⟩)
              | CSON_SUCCES value =>
                have h3 := (parse_progress fuel).1 _ _ _ he3
                simp only
                cases hins : CSON_Object_insert o key value with
                | error f => exact Or.inr (Or.inr ⟨f, rfl⟩)
                | ok o2 =>
                  simp only
                  cases hc3 : CSON_Tokenizer_consume tk4 with
                  | error f => exact Or.inr (Or.inr ⟨f, rfl⟩)
                  | ok q3 =>
                    obtain ⟨t3, tk5⟩ := q3
                    obtain ⟨-, -, hlt4⟩ := consume_ok hc3
                    simp only
                    cases ht : t3.type <;> simp only []
                    all_goals first
                      | exact Or.inl ⟨o2, t3, tk5, rfl, by
                          have := hlt4 (by rw [ht]; decide)
                          omega⟩
                      | exact Or.inr (Or.inl ⟨tk5, rfl⟩)
          · simp only [hcol, ne_eq, not_false_eq_true, if_true]
            exact Or.inr (Or.inl ⟨tk3, rfl⟩)
      | _ => exact Or.inr (Or.inl ⟨tk2, rfl⟩)

/-- How a run of `CSON_parse` ends. A consumed token other than the end of input moves
the cursor forward by at least one byte; a call of `CSON_parse_element` that succeeds has
consumed such a token and leaves a shorter remaining text; an iteration of the loop of
`CSON_parse_array` or of `CSON_parse_object` comes back to the loop test with a shorter
remaining text or leaves the loop. So the depth of the calls is bounded by the length of
the remaining text: three units of budget per byte, and one, are never used up, and a
larger budget changes nothing. The run ends with a result, unless a quote is the last
byte of the text: then it can end in the read past the terminator at that quote. -/
theorem parse_ends (text : List Nat) :
    CSON_parse text ≠ .error .fuel ∧
    (∀ k, CSON_parse_element (enoughFuel text + k) (CSON_Tokenizer_new text) =
      CSON_parse_element (enoughFuel text) (CSON_Tokenizer_new text)) ∧
    ((∃ r, CSON_parse text = .ok r) ∨
      (CSON_parse text = .error .outOfBounds ∧ text.getLast? = some 34)) ∧
    (∀ fuel tk, 3 * tk.sv.str.length + 1 ≤ fuel →
      CSON_parse_element fuel tk ≠ .error .fuel) ∧
    (∀ tk token tk1, CSON_Tokenizer_consume tk = .ok (token, tk1) → token.type ≠ .EOF →
      tk1.sv.str.length + 1 ≤ tk.sv.str.length) ∧
    (∀ fuel tk v tk1, CSON_parse_element fuel tk = .ok (.CSON_SUCCES v, tk1) →
      (∃ token tk2, CSON_Tokenizer_consume tk = .ok (token, tk2) ∧ token.type ≠ .EOF) ∧
      tk1.sv.str.length + 1 ≤ tk.sv.str.length) ∧
    (∀ fuel a token tk, token.type ≠ .SQUARE_CLOSE →
      (∃ a2 t2 tk3, CSON_parse_array_loop (fuel + 1) a token tk =
          CSON_parse_array_loop fuel a2 t2 tk3 ∧
          tk3.sv.str.length + 2 ≤ tk.sv.str.length) ∨
      (∃ tk1, CSON_parse_array_loop (fuel + 1) a token tk = .ok (.CSON_ERROR, tk1)) ∨
      (∃ f, CSON_parse_array_loop (fuel + 1) a token tk = .error f)) ∧
    (∀ fuel o token tk, token.type ≠ .CURLY_CLOSE →
      (∃ o2 t2 tk3, CSON_parse_object_loop (fuel + 1) o token tk =
          CSON_parse_object_loop fuel o2 t2 tk3 ∧
          tk3.sv.str.length + 4 ≤ tk.sv.str.length) ∨
      (∃ tk1, CSON_parse_object_loop (fuel + 1) o token tk = .ok (.CSON_ERROR, tk1)) ∨
      (∃ f, CSON_parse_object_loop (fuel + 1) o token tk = .error f)) := by
  have hfuel : ∀ fuel tk, 3 * tk.sv.str.length + 1 ≤ fuel →
      CSON_parse_element fuel tk ≠ .error .fuel :=
    fun fuel tk h => (fuel_enough fuel).1 tk h
  refine ⟨parse_settled text, ?_, ?_, hfuel, ?_, ?_, array_loop_iteration,
    object_loop_iteration⟩
  · intro k
    exact (fuel_add (enoughFuel text) k).1 _
      (hfuel _ _ (by simp [enoughFuel, CSON_Tokenizer_new, CSON_SV_init]))
  · cases hp : CSON_parse text with
    | ok r => exact Or.inl ⟨r, rfl⟩
    | error f =>
      obtain ⟨h1, h2⟩ := parse_fault hp
      subst h1
      exact Or.inr ⟨rfl, h2⟩
  · intro tk token tk1 hc hne
    have := (consume_ok hc).2.2 hne
    omega
  · intro fuel tk v tk1 he
    obtain ⟨tok, hp, hty⟩ := element_variant he
    have hne : tok.type ≠ .EOF := by
      rcases hty with h1 | h1 | h1 | h1 | h1 <;> rw [h1.1] <;> decide
    have := (parse_progress fuel).1 _ _ _ he
    exact ⟨⟨tok, _, consume_of_peek hp, hne⟩, by omega⟩

/-- C23 (defect of the code): `CSON_parse` does not end inside the text on every input. On
the text `[1,"` the cursor reaches, after the comma, a quote that the terminator follows
directly. The string scan of `CSON_Tokenizer_peek` then starts at the byte after the
terminator, so the terminator no longer bounds it: whatever the recursion budget, the
run returns no result and ends in that read, and so does `CSON_parse`. -/
theorem C23_scan_leaves_terminator_behind :
    CSON_Tokenizer_consume ⟨⟨cstr ",\"", 4⟩⟩ =
      .ok (⟨⟨cstr ",\"", 1⟩, .COMMA⟩, ⟨⟨cstr "\"", 4⟩⟩) ∧
    readAt ((cstr "\"").drop 1) 1 = .error .outOfBounds ∧
    CSON_Tokenizer_peek ⟨⟨cstr "\"", 4⟩⟩ = .error .outOfBounds ∧
    (∀ fuel,
      CSON_parse_element fuel (CSON_Tokenizer_new (cstr "[1,\"")) = .error .fuel ∨
      CSON_parse_element fuel (CSON_Tokenizer_new (cstr "[1,\"")) = .error .outOfBounds) ∧
    CSON_parse (cstr "[1,\"") = .error .outOfBounds := by
  refine ⟨rfl, rfl, rfl, ?_, rfl⟩
  intro fuel
  by_cases h : fuel < 5
  · interval_cases fuel
    all_goals exact Or.inl rfl
  · obtain ⟨k, rfl⟩ : ∃ k, fuel = 5 + k := ⟨fuel - 5, by omega⟩
    have h5 : CSON_parse_element 5 (CSON_Tokenizer_new (cstr "[1,\"")) =
        .error .outOfBounds := rfl
    refine Or.inr ?_
    rw [(fuel_add 5 k).1 _ (by rw [h5]; simp [Settled]), h5]

end Cson
